import Mathlib

/-!
# Compaction job queue (pkg/metastore/metastore_compaction_queue.go)

A shallow embedding of the lease-based priority job queue together with the part of
Go's `container/heap` it is built on, and proofs about the states reachable from
`newJobQueue` by `enqueue`/`dequeue`/`update`/`evict`.

Conventions of the embedding
* a `*jobQueueEntry` is an address (a position in `jobQueue.mem`); entries are
  mutated through their address, exactly as the Go code does through the pointer;
* Go `int` slice indices are `Int`; `int64` sums supplied by callers wrap (`wrapInt64`);
* a Go run-time panic (index out of range, nil dereference) is the result `none`;
* `for` loops of `container/heap` take a fuel argument, instantiated with
  `len(pq) + 1` at every call site; running out of fuel is `none` as well.
-/

set_option autoImplicit false

namespace Metastore

/-! ## Data model -/

/-- Modelled from the spec: the status enumeration of the durable job record
(package `compactionpb`, not part of the sources at hand); section 6 of the
specification lists the four values. -/
inductive CompactionStatus where
  | COMPACTION_STATUS_UNSPECIFIED
  | COMPACTION_STATUS_IN_PROGRESS
  | COMPACTION_STATUS_SUCCESS
  | COMPACTION_STATUS_FAILURE
  deriving DecidableEq, Repr, Inhabited

/-- Modelled from the spec: the durable job record `compactionpb.CompactionJob`
(type declaration not part of the sources at hand), with the fields the queue
reads (`Name`, `Shard`, `TenantId`, `CompactionLevel`, `Status`) or writes
(`CommitIndex`), and the ids of its input blocks. -/
structure CompactionJob where
  Name : String
  Blocks : List String
  Status : CompactionStatus
  CommitIndex : Nat
  Shard : Nat
  TenantId : String
  CompactionLevel : Nat
  deriving DecidableEq, Repr, Inhabited

/-- Go: `type jobStatus int`. -/
abbrev jobStatus := Int

/-- Go: `jobStatusInitial` (iota = 1). -/
def jobStatusInitial : jobStatus := 1

/-- Go: `jobStatusInProgress` (iota = 2). -/
def jobStatusInProgress : jobStatus := 2

/-- Go: `type jobQueueEntry struct`. -/
structure jobQueueEntry where
  name : String
  shard : Nat
  tenant : String
  level : Nat
  deadline : Int
  token : Nat
  status : jobStatus
  index : Int
  proto : CompactionJob
  deriving DecidableEq, Repr, Inhabited

/-- Go: `func (c *jobQueueEntry) less(x *jobQueueEntry) bool`. -/
def jobQueueEntry.less (c x : jobQueueEntry) : Bool :=
  if c.status ≠ x.status then decide (c.status < x.status)
  else if c.deadline ≠ x.deadline then decide (c.deadline < x.deadline)
  else if c.level ≠ x.level then decide (c.level < x.level)
  else decide (c.name < x.name)

/-- Go: `func (c *jobQueueEntry) load(job *compactionpb.CompactionJob)`; the
receiver is overwritten as a whole, so the new value is returned. -/
def jobQueueEntry.load (job : CompactionJob) : jobQueueEntry :=
  let js := if job.Status = CompactionStatus.COMPACTION_STATUS_IN_PROGRESS
    then jobStatusInProgress else jobStatusInitial
  { name := job.Name
    shard := job.Shard
    tenant := job.TenantId
    level := job.CompactionLevel
    status := js
    index := 0
    deadline := 0
    token := 0
    proto := job }

/-- The entries allocated so far; the address of an entry is its position. -/
abbrev Mem := List jobQueueEntry

/-- Go: `type priorityQueue []*jobQueueEntry`. -/
abbrev priorityQueue := List Nat

/-- Dereference of a `*jobQueueEntry`. -/
def deref (m : Mem) (p : Nat) : Option jobQueueEntry := m[p]?

/-- Go: `pq[i]` for an `int` index; out of range panics. -/
def priorityQueue.idx (pq : priorityQueue) (i : Int) : Option Nat :=
  if i < 0 then none else pq[i.toNat]?

/-- Go: `func (pq priorityQueue) Len() int`. -/
def priorityQueue.Len (pq : priorityQueue) : Int := pq.length

/-- Go: `func (pq priorityQueue) Less(i, j int) bool`. -/
def priorityQueue.Less (m : Mem) (pq : priorityQueue) (i j : Int) : Option Bool := do
  let a ← pq.idx i
  let b ← pq.idx j
  let ea ← deref m a
  let eb ← deref m b
  pure (ea.less eb)

/-- Go: `func (pq priorityQueue) Swap(i, j int)`. -/
def priorityQueue.Swap (m : Mem) (pq : priorityQueue) (i j : Int) :
    Option (Mem × priorityQueue) := do
  let a ← pq.idx i
  let b ← pq.idx j
  let pq1 := (pq.set i.toNat b).set j.toNat a
  let pi ← priorityQueue.idx pq1 i
  let ei ← deref m pi
  let m1 := m.set pi { ei with index := i }
  let pj ← priorityQueue.idx pq1 j
  let ej ← deref m1 pj
  let m2 := m1.set pj { ej with index := j }
  pure (m2, pq1)

/-- Go: `func (pq *priorityQueue) Push(x interface{})`. -/
def priorityQueue.Push (m : Mem) (pq : priorityQueue) (x : Nat) :
    Option (Mem × priorityQueue) := do
  let n := pq.Len
  let job ← deref m x
  pure (m.set x { job with index := n }, pq ++ [x])

/-- Go: `func (pq *priorityQueue) Pop() interface{}`. -/
def priorityQueue.Pop (m : Mem) (pq : priorityQueue) :
    Option (Mem × priorityQueue × Nat) := do
  let n := pq.Len
  let p ← pq.idx (n - 1)
  let job ← deref m p
  pure (m.set p { job with index := -1 }, pq.take (n - 1).toNat, p)

/-! ## Go's `container/heap`, over `priorityQueue` -/

/-- Go: `container/heap.up`; `Int.tdiv` truncates like Go's `/`. -/
def heap.up : Nat → Mem → priorityQueue → Int → Option (Mem × priorityQueue)
  | 0, _, _, _ => none
  | fuel + 1, m, pq, j =>
    let i := Int.tdiv (j - 1) 2 -- parent
    if i = j then some (m, pq)
    else do
      let lt ← priorityQueue.Less m pq j i
      if !lt then some (m, pq)
      else do
        let (m1, pq1) ← priorityQueue.Swap m pq i j
        heap.up fuel m1 pq1 i

/-- The loop of Go's `container/heap.down`; returns the final position `i`. -/
def heap.downLoop (n : Int) : Nat → Mem → priorityQueue → Int →
    Option (Int × Mem × priorityQueue)
  | 0, _, _, _ => none
  | fuel + 1, m, pq, i =>
    let j1 := 2 * i + 1
    if j1 ≥ n ∨ j1 < 0 then some (i, m, pq)
    else do
      let j2 := j1 + 1
      let j ← (if j2 < n then do
                let lt21 ← priorityQueue.Less m pq j2 j1
                pure (if lt21 then j2 else j1)
              else pure j1)
      let lt ← priorityQueue.Less m pq j i
      if !lt then some (i, m, pq)
      else do
        let (m1, pq1) ← priorityQueue.Swap m pq i j
        heap.downLoop n fuel m1 pq1 j

/-- Go: `container/heap.down(h, i0, n)`, returning `i > i0`. -/
def heap.down (m : Mem) (pq : priorityQueue) (i0 n : Int) :
    Option (Bool × Mem × priorityQueue) := do
  let (i, m1, pq1) ← heap.downLoop n (pq.length + 1) m pq i0
  pure (decide (i > i0), m1, pq1)

/-- The loop `for i := n/2 - 1; i >= 0; i--` of `container/heap.Init`; the
counter `k` is `i + 1`. -/
def heap.initLoop (n : Int) : Nat → Mem → priorityQueue → Option (Mem × priorityQueue)
  | 0, m, pq => some (m, pq)
  | k + 1, m, pq => do
    let (_, m1, pq1) ← heap.down m pq k n
    heap.initLoop n k m1 pq1

/-- Go: `container/heap.Init`. -/
def heap.Init (m : Mem) (pq : priorityQueue) : Option (Mem × priorityQueue) :=
  let n := pq.Len
  heap.initLoop n (Int.tdiv n 2).toNat m pq

/-- Go: `container/heap.Push`. -/
def heap.Push (m : Mem) (pq : priorityQueue) (x : Nat) : Option (Mem × priorityQueue) := do
  let (m1, pq1) ← priorityQueue.Push m pq x
  heap.up (pq1.length + 1) m1 pq1 (priorityQueue.Len pq1 - 1)

/-- Go: `container/heap.Pop`. -/
def heap.Pop (m : Mem) (pq : priorityQueue) : Option (Mem × priorityQueue × Nat) := do
  let n := pq.Len - 1
  let (m1, pq1) ← priorityQueue.Swap m pq 0 n
  let (_, m2, pq2) ← heap.down m1 pq1 0 n
  priorityQueue.Pop m2 pq2

/-- Go: `container/heap.Fix`. -/
def heap.Fix (m : Mem) (pq : priorityQueue) (i : Int) : Option (Mem × priorityQueue) := do
  let (moved, m1, pq1) ← heap.down m pq i pq.Len
  if !moved then heap.up (pq1.length + 1) m1 pq1 i else pure (m1, pq1)

/-- Go: `container/heap.Remove`. -/
def heap.Remove (m : Mem) (pq : priorityQueue) (i : Int) :
    Option (Mem × priorityQueue × Nat) := do
  let n := pq.Len - 1
  let (m3, pq3) ← (if n ≠ i then do
      let (m1, pq1) ← priorityQueue.Swap m pq i n
      let (moved, m2, pq2) ← heap.down m1 pq1 i n
      if !moved then heap.up (pq2.length + 1) m2 pq2 i else pure (m2, pq2)
    else pure (m, pq))
  priorityQueue.Pop m3 pq3

/-! ## The job queue -/

/-- Go: `int64` addition wraps around. -/
def wrapInt64 (x : Int) : Int := (x + 2 ^ 63) % 2 ^ 64 - 2 ^ 63

/-- Go: `type jobQueue struct` (the mutex is dropped: calls are sequential here).
`jobs` is the map from names to entry addresses, as an association list. -/
structure jobQueue where
  mem : Mem
  jobs : List (String × Nat)
  pq : priorityQueue
  lease : Int
  deriving DecidableEq, Repr, Inhabited

/-- Go: `func newJobQueue(lease int64) *jobQueue`. -/
def newJobQueue (lease : Int) : Option jobQueue := do
  let (m, pq) ← heap.Init [] []
  pure { mem := m, jobs := [], pq := pq, lease := lease }

/-- Go: `func (q *jobQueue) dequeue(now int64, token uint64) *compactionpb.CompactionJob`.
Every path through the body of the `for` returns, so it runs at most once. -/
def jobQueue.dequeue (q : jobQueue) (now : Int) (token : Nat) :
    Option (Option CompactionJob × jobQueue) :=
  if q.pq.Len > 0 then do
    let p ← q.pq.idx 0
    let job ← deref q.mem p
    if job.status = jobStatusInProgress ∧ now ≤ job.deadline then
      pure (none, q)
    else do
      let (m1, pq1, _) ← heap.Pop q.mem q.pq
      let job1 ← deref m1 p
      let m2 := m1.set p
        { job1 with
          deadline := wrapInt64 (now + q.lease)
          status := jobStatusInProgress
          token := token
          proto := { job1.proto with CommitIndex := token } }
      let (m3, pq3) ← heap.Push m2 pq1 p
      let job3 ← deref m3 p
      pure (some job3.proto, { q with mem := m3, pq := pq3 })
  else pure (none, q)

/-- Go: `func (q *jobQueue) update(name string, now int64, token uint64) bool`. -/
def jobQueue.update (q : jobQueue) (name : String) (now : Int) (token : Nat) :
    Option (Bool × jobQueue) :=
  match q.jobs.lookup name with
  | some p => do
    let job ← deref q.mem p
    if job.token > token then pure (false, q)
    else do
      let m1 := q.mem.set p
        { job with deadline := wrapInt64 (now + q.lease), status := jobStatusInProgress }
      let job1 ← deref m1 p
      let (m2, pq2) ← heap.Fix m1 q.pq job1.index
      pure (true, { q with mem := m2, pq := pq2 })
  | none => pure (false, q)

/-- Go: `func (q *jobQueue) peekEvict(name string, token uint64) bool`. -/
def jobQueue.peekEvict (q : jobQueue) (name : String) (token : Nat) : Option Bool :=
  match q.jobs.lookup name with
  | some p => do
    let job ← deref q.mem p
    if job.token > token then pure false else pure true
  | none => pure true

/-- Go: `func (q *jobQueue) evict(name string, token uint64) bool`. -/
def jobQueue.evict (q : jobQueue) (name : String) (token : Nat) : Option (Bool × jobQueue) :=
  match q.jobs.lookup name with
  | some p => do
    let job ← deref q.mem p
    if job.token > token then pure (false, q)
    else do
      let jobs1 := q.jobs.filter (fun kv => kv.1 ≠ name)
      let (m1, pq1, _) ← heap.Remove q.mem q.pq job.index
      pure (true, { q with mem := m1, jobs := jobs1, pq := pq1 })
  | none => pure (true, q)

/-- Go: `func (q *jobQueue) enqueue(job *compactionpb.CompactionJob) bool`; the
fresh entry `j` is allocated at the next free address. -/
def jobQueue.enqueue (q : jobQueue) (job : CompactionJob) : Option (Bool × jobQueue) :=
  match q.jobs.lookup job.Name with
  | some _ => pure (false, q)
  | none => do
    let p := q.mem.length
    let m1 := q.mem ++ [jobQueueEntry.load job]
    let jobs1 := (job.Name, p) :: q.jobs
    let (m2, pq2) ← heap.Push m1 q.pq p
    pure (true, { q with mem := m2, jobs := jobs1, pq := pq2 })

/-! ## Bulk load of the job queue -/

/-- Go: `m[k] = v` on a map kept as an association list; the pair replaces the one
recorded under `k`, if any. -/
def mapSet {κ α : Type} [BEq κ] (m : List (κ × α)) (k : κ) (v : α) : List (κ × α) :=
  (k, v) :: m.filter (fun kv => !(kv.1 == k))

/-- Go: `func (q *jobQueue) putJob(job *compactionpb.CompactionJob)`; the fresh entry
`j` is allocated at the next free address and recorded in the jobs map only. -/
def jobQueue.putJob (q : jobQueue) (job : CompactionJob) : jobQueue :=
  let p := q.mem.length
  { q with mem := q.mem ++ [jobQueueEntry.load job], jobs := mapSet q.jobs job.Name p }

/-- Go: `func (q *jobQueue) rebuild()`. `q.pq[0:]` is the slice from position 0 on and
`slices.Grow` only reserves capacity; the `range` over the jobs map visits the
entries of the map in an order the language leaves open, given here by `order` (a
permutation of `q.jobs`). -/
def jobQueue.rebuild (q : jobQueue) (order : List (String × Nat)) : Option jobQueue := do
  let pq0 := q.pq.drop 0
  let pq1 := order.foldl (fun pq kv => pq ++ [kv.2]) pq0
  let (m, pq2) ← heap.Init q.mem pq1
  pure { q with mem := m, pq := pq2 }

/-! ## The compaction planner (pkg/metastore/metastore_compaction_planner.go)

Conventions of the embedding
* `uint32` and `uint64` values are natural numbers; the `uint64` sum of block sizes
  wraps at `2 ^ 64`;
* a slice `[]*metastorev1.BlockMeta` is a header (backing array, length, capacity)
  over the arrays allocated so far, so that slices sharing an array see each other's
  writes as in Go; blocks are never written through their pointers here, so an array
  cell holds the block itself;
* how much capacity the runtime allocates when `append` has to grow a slice is left
  open by the language: `growCap oldCap newLen` is the runtime's choice, of which
  only `max newLen (growCap oldCap newLen)` is used;
* `xxhash.Sum64` (an external library) is the parameter `Sum64` on the bytes hashed;
* mutexes and logging are dropped.
-/

/-- Modelled from the spec: the block metadata `metastorev1.BlockMeta` (generated
type, not part of the sources at hand) with the fields the planner reads: id, shard,
tenant, compaction level and size in bytes. -/
structure BlockMeta where
  Id : String
  Shard : Nat
  TenantId : String
  CompactionLevel : Nat
  Size : Nat
  deriving DecidableEq, Repr, Inhabited

/-- Go: `type compactionLevelStrategy struct`. -/
structure compactionLevelStrategy where
  minBlocks : Int
  maxBlocks : Int
  minTotalSizeBytes : Nat
  maxTotalSizeBytes : Nat
  deriving DecidableEq, Repr, Inhabited

/-- Go: `type compactionStrategy struct`. -/
structure compactionStrategy where
  levels : List (Nat × compactionLevelStrategy)
  defaultStrategy : compactionLevelStrategy
  maxCompactionLevel : Nat
  deriving DecidableEq, Repr, Inhabited

/-- Go: `var globalCompactionStrategy`. -/
def globalCompactionStrategy : compactionStrategy :=
  { levels := [(0, { minBlocks := 10
                     maxBlocks := 20
                     minTotalSizeBytes := 2 <<< 18
                     maxTotalSizeBytes := 2 <<< 20 })]
    defaultStrategy := { minBlocks := 10
                         maxBlocks := 0
                         minTotalSizeBytes := 0
                         maxTotalSizeBytes := 0 }
    maxCompactionLevel := 10 }

/-- Go: `func getStrategyForLevel(compactionLevel uint32) compactionLevelStrategy`. -/
def getStrategyForLevel (compactionLevel : Nat) : compactionLevelStrategy :=
  match globalCompactionStrategy.levels.lookup compactionLevel with
  | some strategy => strategy
  | none => globalCompactionStrategy.defaultStrategy

/-- Go: `func getTotalSize(blocks []*metastorev1.BlockMeta) uint64`. -/
def getTotalSize (blocks : List BlockMeta) : Nat :=
  blocks.foldl (fun totalSizeBytes block => (totalSizeBytes + block.Size) % 2 ^ 64) 0

/-- Go: `func (s compactionLevelStrategy) shouldCreateJob(blocks []*metastorev1.BlockMeta) bool`. -/
def compactionLevelStrategy.shouldCreateJob (s : compactionLevelStrategy)
    (blocks : List BlockMeta) : Bool :=
  let totalSizeBytes := getTotalSize blocks
  let enoughBlocks := decide ((blocks.length : Int) ≥ s.minBlocks)
  let enoughData := decide (totalSizeBytes ≥ s.minTotalSizeBytes)
  if enoughBlocks && enoughData then true
  else if enoughBlocks then decide ((blocks.length : Int) ≥ s.maxBlocks)
  else if enoughData then decide (totalSizeBytes ≥ s.maxTotalSizeBytes)
  else false

/-- Go: `func calculateHash(blocks []*metastorev1.BlockMeta) uint64`; the bytes of the
ids are appended to `b` in the order of the blocks. -/
def calculateHash (Sum64 : String → Nat) (blocks : List BlockMeta) : Nat :=
  let b := blocks.foldl (fun b blk => b ++ blk.Id) ""
  Sum64 b % 2 ^ 64

/-- A slice header `[]*metastorev1.BlockMeta`: backing array, length and capacity. -/
structure Slice where
  arr : Nat
  len : Nat
  cap : Nat
  deriving DecidableEq, Repr, Inhabited

/-- The backing arrays allocated so far; the address of an array is its position.
A cell that no `append` has written yet holds the zero value. -/
abbrev Arrays := List (List BlockMeta)

/-- Go: the `nil` slice, which is what a map returns for a missing key. -/
def Slice.nil : Slice := { arr := 0, len := 0, cap := 0 }

/-- The elements of a slice: the first `len` cells of its backing array. -/
def Slice.read (a : Arrays) (s : Slice) : List BlockMeta := (a.getD s.arr []).take s.len

/-- Go: `append(s, x)`. With spare capacity the element is written into the backing
array of `s`; otherwise the elements are copied to a fresh array with room for them. -/
def Slice.append (growCap : Nat → Nat → Nat) (a : Arrays) (s : Slice) (x : BlockMeta) :
    Arrays × Slice :=
  if s.len < s.cap then
    (a.set s.arr ((a.getD s.arr []).set s.len x), { s with len := s.len + 1 })
  else
    let newcap := max (s.len + 1) (growCap s.cap (s.len + 1))
    (a ++ [(s.read a ++ [x]) ++ List.replicate (newcap - (s.len + 1)) default],
      { arr := a.length, len := s.len + 1, cap := newcap })

/-- Modelled from the spec: the job `compactorv1.CompactionJob` the planner creates
(generated type, not part of the sources at hand), with the fields the planner
sets: name, block list (a slice) and status. -/
structure compactorv1.CompactionJob where
  Name : String
  Blocks : Slice
  Status : CompactionStatus
  deriving DecidableEq, Repr, Inhabited

/-- Go: `type compactionPlan struct`. -/
structure compactionPlan where
  jobsByName : List (String × compactorv1.CompactionJob)
  queuedBlocksByLevel : List (Nat × Slice)
  deriving DecidableEq, Repr, Inhabited

/-- Go: `plan.queuedBlocksByLevel[level]`. -/
def compactionPlan.queued (plan : compactionPlan) (level : Nat) : Slice :=
  (plan.queuedBlocksByLevel.lookup level).getD Slice.nil

/-- Go: `fmt.Sprintf("L%d-S%d-%d", level, shard, hash)`. -/
def jobName (level shard hash : Nat) : String :=
  "L" ++ toString level ++ "-S" ++ toString shard ++ "-" ++ toString hash

/-- Go: `func (m *metastoreState) addForCompaction(block *metastorev1.BlockMeta)
*compactorv1.CompactionJob`, from the point where `plan` is the plan of the shard of
the block (`plan := m.getOrCreatePlan(block.Shard)`). Returns the job (or nil), the
arrays and the plan after the call. -/
def compactionPlan.addForCompaction (growCap : Nat → Nat → Nat) (Sum64 : String → Nat)
    (a : Arrays) (plan : compactionPlan) (block : BlockMeta) :
    Option compactorv1.CompactionJob × Arrays × compactionPlan :=
  if block.CompactionLevel > globalCompactionStrategy.maxCompactionLevel then
    (none, a, plan)
  else
    let (a1, queuedBlocks) :=
      Slice.append growCap a (plan.queued block.CompactionLevel) block
    let plan1 : compactionPlan :=
      { plan with
        queuedBlocksByLevel :=
          mapSet plan.queuedBlocksByLevel block.CompactionLevel queuedBlocks }
    let strategy := getStrategyForLevel block.CompactionLevel
    if strategy.shouldCreateJob (queuedBlocks.read a1) then
      let job : compactorv1.CompactionJob :=
        { Name := jobName block.CompactionLevel block.Shard
            (calculateHash Sum64 (queuedBlocks.read a1))
          Blocks := queuedBlocks
          Status := CompactionStatus.COMPACTION_STATUS_UNSPECIFIED }
      let plan2 : compactionPlan :=
        { plan1 with jobsByName := mapSet plan1.jobsByName job.Name job }
      let plan3 : compactionPlan :=
        { plan2 with
          queuedBlocksByLevel :=
            mapSet plan2.queuedBlocksByLevel block.CompactionLevel
              { (plan2.queued block.CompactionLevel) with len := 0 } }
      (some job, a1, plan3)
    else (none, a1, plan1)

/-! ## Adding a block (pkg/metastore/metastore_state_add_block.go)

Conventions of the embedding
* the in-memory state of the metastore is a value of a type `σ`; the functions
  `applyAddBlock` calls that are not part of the sources at hand are parameters, those
  that work on the in-memory state as functions on `σ`, those that work on the
  database as the error they return (`none` is Go's `nil` error);
* `request.Block` is taken to be non-nil; the response `&AddBlockResponse{}` is `()`;
* logging is dropped.
-/

/-- The functions `applyAddBlock` calls, none of which is part of the sources at hand,
as parameters. `MarshalVT` is the
error of `request.Block.MarshalVT()`; `putBlockMeta` the error of
`updateBlockMetadataBucket` with `bucket.Put(key, value)`; `tryCreateJob` is
`m.tryCreateJob`, which returns a job or nil and may work on the state;
`putCompactionJob` the error of `updateCompactionJobBucket` with
`bucket.Put(jobKey, data)`; `commit` the error of `m.db.boltdb.Update` when the
function it runs has returned nil; `putSegment` is
`m.getOrCreateShard(shard).putSegment`; `addCompactionJob` and
`addBlockToCompactionJobQueue` are the methods of these names. -/
structure addBlockCalls (ε σ Job : Type) where
  MarshalVT : BlockMeta → Option ε
  putBlockMeta : BlockMeta → Option ε
  tryCreateJob : σ → BlockMeta → Option Job × σ
  putCompactionJob : BlockMeta → Job → Option ε
  commit : BlockMeta → Option ε
  putSegment : σ → BlockMeta → σ
  addCompactionJob : σ → Job → σ
  addBlockToCompactionJobQueue : σ → BlockMeta → σ

/-- Modelled from the spec: what `tryCreateJob` (not part of the sources at hand) does
to the in-memory state. It is the planner evaluation that the add-block command
triggers, and the in-memory queue and plan are not mutated until persistence succeeds:
it reads the state and returns a job or nil, leaving the state as it is. -/
def addBlockCalls.tryCreateJobReads {ε σ Job : Type} (c : addBlockCalls ε σ Job) : Prop :=
  ∀ (m : σ) (block : BlockMeta), (c.tryCreateJob m block).2 = m

/-- Go: the function `applyAddBlock` hands to `m.db.boltdb.Update`, together with what
`Update` returns: the error, the variables `jobToAdd` and `blockToAddToQueue` the
function has assigned, and the in-memory state. -/
def applyAddBlock.update {ε σ Job : Type} (c : addBlockCalls ε σ Job) (m : σ)
    (block : BlockMeta) : Option ε × Option Job × Option BlockMeta × σ :=
  match c.putBlockMeta block with
  | some err => (some err, none, none, m)
  | none =>
    match c.tryCreateJob m block with
    | (some job, m1) =>
      match c.putCompactionJob block job with
      | some err => (some err, none, none, m1)
      | none => (c.commit block, some job, none, m1)
    | (none, m1) => (c.commit block, none, some block, m1)

/-- Go: `func (m *metastoreState) applyAddBlock(request *metastorev1.AddBlockRequest)
(*metastorev1.AddBlockResponse, error)`; `block` is `request.Block`. Returns the
response or the error, and the in-memory state after the call. -/
def applyAddBlock {ε σ Job : Type} (c : addBlockCalls ε σ Job) (m : σ) (block : BlockMeta) :
    Except ε Unit × σ :=
  match c.MarshalVT block with
  | some err => (Except.error err, m)
  | none =>
    match applyAddBlock.update c m block with
    | (some err, _, _, m1) => (Except.error err, m1)
    | (none, jobToAdd, blockToAddToQueue, m1) =>
      let m2 := c.putSegment m1 block
      match jobToAdd with
      | some job => (Except.ok (), c.addCompactionJob m2 job)
      | none =>
        match blockToAddToQueue with
        | some b => (Except.ok (), c.addBlockToCompactionJobQueue m2 b)
        | none => (Except.ok (), m2)

/-! ## The compaction worker (pkg/compactionworker/compaction_worker.go)

Conventions of the embedding
* the maps of the worker are association lists: `len(m)` is the length of the list,
  `m[k] = v` is `mapSet`, `delete(m, k)` is `mapDelete`, and a `range` over a map
  visits the entries in the order of the list (the language leaves the order open);
* pointers to messages are taken to be non-nil and a message is the value of its
  fields, so `job.Status` is the status record of the job;
* `uint32(x)` of an `int` is `x` modulo `2 ^ 32`;
* `poll` releases the lock while its request is under way and takes it again to apply
  the response: what the goroutines of the jobs do to the worker in between is the
  parameter `meanwhile` of `poll` (the identity when none of them runs); a locked
  section is one step;
* logging, metrics and tracing are dropped.
-/

/-- Go: `delete(m, k)` on a map kept as an association list. -/
def mapDelete {κ α : Type} [BEq κ] (m : List (κ × α)) (k : κ) : List (κ × α) :=
  m.filter (fun kv => !(kv.1 == k))

/-- Modelled from the spec: `compactorv1.CompletedJob` (generated type, not part of
the sources at hand), with the field the worker sets. -/
structure CompletedJob where
  Blocks : List BlockMeta
  deriving DecidableEq, Repr, Inhabited

/-- Modelled from the spec: `compactorv1.CompactionJobStatus` (generated type, not
part of the sources at hand), with the fields the worker reads or sets. -/
structure CompactionJobStatus where
  JobName : String
  Status : CompactionStatus
  CompletedJob : Option CompletedJob
  deriving DecidableEq, Repr, Inhabited

/-- Modelled from the spec: `compactorv1.CompactionJob` as a worker receives it
(generated type, not part of the sources at hand), with the fields the worker reads:
name, block list, status record, tenant, shard and level. -/
structure PolledJob where
  Name : String
  Blocks : List BlockMeta
  Status : CompactionJobStatus
  TenantId : String
  Shard : Nat
  CompactionLevel : Nat
  deriving DecidableEq, Repr, Inhabited

/-- Modelled from the spec: `compactorv1.PollCompactionJobsRequest` (generated type,
not part of the sources at hand). -/
structure PollCompactionJobsRequest where
  JobStatusUpdates : List CompactionJobStatus
  JobCapacity : Nat
  deriving DecidableEq, Repr, Inhabited

/-- Modelled from the spec: `compactorv1.PollCompactionJobsResponse` (generated type,
not part of the sources at hand). -/
structure PollCompactionJobsResponse where
  CompactionJobs : List PolledJob
  deriving DecidableEq, Repr, Inhabited

/-- Go: `type Config struct`. -/
structure Config where
  JobCapacity : Int
  SmallObjectSize : Int
  TempDir : String
  deriving DecidableEq, Repr, Inhabited

/-- Go: `type Worker struct`, the configuration and the three maps. -/
structure Worker where
  config : Config
  pendingJobs : List (String × PolledJob)
  activeJobs : List (String × PolledJob)
  pendingStatusUpdates : List (String × CompactionJobStatus)
  deriving DecidableEq, Repr, Inhabited

/-- Go: `func (w *Worker) poll(ctx context.Context)`. The call
`w.metastoreClient.PollCompactionJobs` is the parameter `PollCompactionJobs`. The
batch and the capacity are computed in the first locked section, on `w`; the lock is
released for the call, and the response is applied in the second locked section, on
the worker `meanwhile w` that the other goroutines have left. Returns the worker when
`poll` returns and the request sent, if one was sent. -/
def Worker.poll {ε : Type}
    (PollCompactionJobs : PollCompactionJobsRequest → Except ε PollCompactionJobsResponse)
    (meanwhile : Worker → Worker) (w : Worker) : Worker × Option PollCompactionJobsRequest :=
  let pendingStatusUpdates : List CompactionJobStatus :=
    w.pendingStatusUpdates.foldl (fun l kv => l ++ [kv.2]) []
  let pendingStatusUpdates : List CompactionJobStatus :=
    w.activeJobs.foldl
      (fun l kv =>
        l ++ [{ kv.2.Status with Status := CompactionStatus.COMPACTION_STATUS_IN_PROGRESS }])
      pendingStatusUpdates
  let jobCapacity : Nat :=
    ((w.config.JobCapacity - (w.activeJobs.length : Int) - (w.pendingJobs.length : Int)) %
      2 ^ 32).toNat
  if pendingStatusUpdates.length > 0 ∨ jobCapacity > 0 then
    let request : PollCompactionJobsRequest :=
      { JobStatusUpdates := pendingStatusUpdates, JobCapacity := jobCapacity }
    match PollCompactionJobs request with
    | Except.error _ => (meanwhile w, some request)
    | Except.ok jobsResponse =>
      let w1 := meanwhile w
      let updates1 := pendingStatusUpdates.foldl
        (fun m update => mapDelete m update.JobName) w1.pendingStatusUpdates
      let pending1 := jobsResponse.CompactionJobs.foldl
        (fun m pendingJob => mapSet m pendingJob.Name pendingJob) w1.pendingJobs
      ({ w1 with pendingStatusUpdates := updates1, pendingJobs := pending1 }, some request)
  else (w, none)

/-- Go: `func (w *Worker) startJob(ctx context.Context, job *compactorv1.CompactionJob)
*compactorv1.CompactionJobStatus`. `Compact` is `block.Compact` with the storage and
the options of the worker (external), `isCanceled err` is
`errors.Is(err, context.Canceled)`. The result is `job.Status` after the assignments. -/
def Worker.startJob {ε : Type} (Compact : List BlockMeta → Except ε (List BlockMeta))
    (isCanceled : ε → Bool) (job : PolledJob) : CompactionJobStatus :=
  match Compact job.Blocks with
  | Except.ok compacted =>
    { job.Status with
      Status := CompactionStatus.COMPACTION_STATUS_SUCCESS
      CompletedJob := some { Blocks := compacted } }
  | Except.error err =>
    if isCanceled err then
      { job.Status with Status := CompactionStatus.COMPACTION_STATUS_UNSPECIFIED }
    else
      { job.Status with Status := CompactionStatus.COMPACTION_STATUS_FAILURE }

/-- Go: the first locked section of the goroutine `running` starts for a pending job:
`w.activeJobs[job.Name] = job; delete(w.pendingJobs, job.Name)`. -/
def Worker.runningJobBegin (w : Worker) (job : PolledJob) : Worker :=
  { w with
    activeJobs := mapSet w.activeJobs job.Name job
    pendingJobs := mapDelete w.pendingJobs job.Name }

/-- Go: the second locked section of that goroutine, entered with the status
`startJob` has returned. -/
def Worker.runningJobEnd (w : Worker) (job : PolledJob) (status : CompactionJobStatus) :
    Worker :=
  let w1 : Worker := { w with activeJobs := mapDelete w.activeJobs job.Name }
  if status.Status ≠ CompactionStatus.COMPACTION_STATUS_UNSPECIFIED then
    { w1 with pendingStatusUpdates := mapSet w1.pendingStatusUpdates job.Name status }
  else w1

/-- Go: the goroutine `running` starts for a pending job, run without interruption. -/
def Worker.runningJob {ε : Type} (Compact : List BlockMeta → Except ε (List BlockMeta))
    (isCanceled : ε → Bool) (w : Worker) (job : PolledJob) : Worker :=
  (w.runningJobBegin job).runningJobEnd job (Worker.startJob Compact isCanceled job)

/-! ## Merging profile iterators (pkg/iter/profiles.go)

Conventions of the embedding
* an input iterator is the list of the elements it yields, in order;
* the loser tree of package `loser` (not part of the sources at hand) is the list of
  the elements it has still to hand out: `tree.Next()` moves to the next one, and is
  false when none is left, and `tree.Winner().At()` is that element. In which order a
  tree built over given inputs hands out their elements is left open: it is the
  parameter `loserNew` of `NewMergeIterator`;
* errors and `Close` are dropped.
-/

/-- Go: `type Profile interface`, with `model.Time` (an `int64`) and
`model.Fingerprint` (a `uint64`). -/
class Profile (P : Type) where
  Timestamp : P → Int
  Fingerprint : P → Nat

/-- Go: `func lessProfile(p1, p2 Profile) bool`. -/
def lessProfile {P : Type} [Profile P] (p1 p2 : P) : Bool :=
  if Profile.Fingerprint p1 = Profile.Fingerprint p2 then
    decide (Profile.Timestamp p1 < Profile.Timestamp p2)
  else decide (Profile.Fingerprint p1 < Profile.Fingerprint p2)

/-- Go: `type MergeIterator[P Profile] struct`. -/
structure MergeIterator (P : Type) where
  tree : List P
  current : P
  deduplicate : Bool

/-- Go: the `for` loop of `MergeIterator.Next`, on the elements the tree has still to
hand out and on `i.current`; returns the result of `Next`, what the tree has left and
`i.current`. -/
def MergeIterator.nextLoop {P : Type} [Profile P] (deduplicate : Bool) :
    List P → P → Bool × List P × P
  | [], current => (false, [], current)
  | next :: tree, current =>
    if !deduplicate then (true, tree, next)
    else if Profile.Fingerprint next ≠ Profile.Fingerprint current ∨
        Profile.Timestamp next ≠ Profile.Timestamp current then (true, tree, next)
    else MergeIterator.nextLoop deduplicate tree current

/-- Go: `func (i *MergeIterator[P]) Next() bool`; returns the result and the iterator
after the call. -/
def MergeIterator.Next {P : Type} [Profile P] (i : MergeIterator P) :
    Bool × MergeIterator P :=
  ((MergeIterator.nextLoop i.deduplicate i.tree i.current).1,
    { i with
      tree := (MergeIterator.nextLoop i.deduplicate i.tree i.current).2.1
      current := (MergeIterator.nextLoop i.deduplicate i.tree i.current).2.2 })

/-- Go: `func (i *MergeIterator[P]) At() P`. -/
def MergeIterator.At {P : Type} (i : MergeIterator P) : P := i.current

/-- Modelled from the spec: an `Iterator[P]` as `NewMergeIterator` returns it (the
interface is not part of the sources at hand): the empty iterator, one of the given
iterators, or a merge iterator. -/
inductive Iterator (P : Type) where
  | empty : Iterator P
  | given (it : List P) : Iterator P
  | merge (i : MergeIterator P) : Iterator P

/-- Go: `func NewMergeIterator[P Profile](max P, deduplicate bool, iters ...Iterator[P])
Iterator[P]`; the three cases are `len(iters) == 0`, `len(iters) == 1` (which returns
`iters[0]`) and the rest. -/
def NewMergeIterator {P : Type} (loserNew : List (List P) → P → List P) (max : P)
    (deduplicate : Bool) : List (List P) → Iterator P
  | [] => Iterator.empty
  | [it] => Iterator.given it
  | iters =>
    Iterator.merge { deduplicate := deduplicate, current := max, tree := loserNew iters max }

/-! ## Specification-level definitions -/

/-- Element `k` of a list of addresses (`0` beyond the end). -/
def nth (l : List Nat) (k : Nat) : Nat := l.getD k 0

/-- Exchange of positions `i` and `j`. -/
def swapL (l : List Nat) (i j : Nat) : List Nat := (l.set i (nth l j)).set j (nth l i)

/-- The list computed by `heap.up`, for a comparison `lt` on addresses. -/
def upL (lt : Nat → Nat → Bool) : Nat → List Nat → Nat → List Nat
  | 0, l, _ => l
  | fuel + 1, l, j =>
    if (j - 1) / 2 = j then l
    else if lt (nth l j) (nth l ((j - 1) / 2)) then upL lt fuel (swapL l ((j - 1) / 2) j) ((j - 1) / 2)
    else l

/-- The child `heap.down` compares with position `i`: the smaller of the two. -/
def pickChild (lt : Nat → Nat → Bool) (l : List Nat) (n i : Nat) : Nat :=
  if 2 * i + 2 < n ∧ lt (nth l (2 * i + 2)) (nth l (2 * i + 1)) = true then 2 * i + 2 else 2 * i + 1

/-- The final position and list computed by `heap.downLoop`. -/
def downL (lt : Nat → Nat → Bool) (n : Nat) : Nat → List Nat → Nat → Nat × List Nat
  | 0, l, i => (i, l)
  | fuel + 1, l, i =>
    if n ≤ 2 * i + 1 then (i, l)
    else if lt (nth l (pickChild lt l n i)) (nth l i) then
      downL lt n fuel (swapL l i (pickChild lt l n i)) (pickChild lt l n i)
    else (i, l)

/-- A comparison on addresses that is a strict weak order. -/
structure StrictWeak (lt : Nat → Nat → Bool) : Prop where
  asymm : ∀ a b, lt a b = true → lt b a = false
  negTrans : ∀ a b c, lt b a = false → lt c b = false → lt c a = false

/-- The binary min-heap property of the first `n` positions: no position precedes
its parent. -/
def isHeapN (lt : Nat → Nat → Bool) (l : List Nat) (n : Nat) : Prop :=
  ∀ k, 0 < k → k < n → lt (nth l k) (nth l ((k - 1) / 2)) = false

/-- What `up` needs at position `j`: every other position respects its parent, and
the children of `j` respect the parent of `j`. -/
def UpPre (lt : Nat → Nat → Bool) (l : List Nat) (n j : Nat) : Prop :=
  (∀ k, 0 < k → k < n → k ≠ j → lt (nth l k) (nth l ((k - 1) / 2)) = false) ∧
  (∀ k, 0 < k → k < n → (k - 1) / 2 = j → 0 < j → lt (nth l k) (nth l ((j - 1) / 2)) = false)

/-- What `down` needs at position `i`: every position other than `i` and its
children respects its parent, and the children of `i` respect the parent of `i`. -/
def DownPre (lt : Nat → Nat → Bool) (l : List Nat) (n i : Nat) : Prop :=
  (∀ k, 0 < k → k < n → k ≠ i → (k - 1) / 2 ≠ i →
    lt (nth l k) (nth l ((k - 1) / 2)) = false) ∧
  (∀ k, 0 < k → k < n → (k - 1) / 2 = i → 0 < i →
    lt (nth l k) (nth l ((i - 1) / 2)) = false)

/-- The scheduling rank of an entry: `(status, deadline, level, name)`, ordered
lexicographically. -/
def jobQueueEntry.rank (e : jobQueueEntry) : ℤ ×ₗ ℤ ×ₗ ℕ ×ₗ String :=
  toLex (e.status, toLex (e.deadline, toLex (e.level, e.name)))

/-- The entry without its heap position. -/
def jobQueueEntry.key (e : jobQueueEntry) : jobQueueEntry := { e with index := 0 }

/-- The entry stored at address `p`. -/
def entryAt (m : Mem) (p : Nat) : jobQueueEntry := m.getD p default

/-- The comparison `Less` induces on addresses. -/
def ltM (m : Mem) (p q : Nat) : Bool := (entryAt m p).less (entryAt m q)

/-- Memory `m'` has the same entries as `m` up to heap positions. -/
def KeyEq (m m' : Mem) : Prop :=
  m'.length = m.length ∧ ∀ p, (entryAt m' p).key = (entryAt m p).key

/-- Every position of the queue holds a valid address whose entry records that
position in its `index` field. -/
def Valid (m : Mem) (pq : priorityQueue) : Prop :=
  ∀ k, k < pq.length → nth pq k < m.length ∧ (entryAt m (nth pq k)).index = (k : Int)

/-- The entry with its heap position set to `i`. -/
def jobQueueEntry.setIndex (e : jobQueueEntry) (i : Int) : jobQueueEntry := { e with index := i }

/-- Assignment `p.index = i` through the address `p`. -/
def setIdx (m : Mem) (p : Nat) (i : Int) : Mem := m.set p ((entryAt m p).setIndex i)

/-- The memory after `Swap`: both exchanged entries record their new positions. -/
def swapMem (m : Mem) (pq : priorityQueue) (i j : Nat) : Mem :=
  setIdx (setIdx m (nth (swapL pq i j) i) (i : Int)) (nth pq i) (j : Int)

/-- The queue is a binary min-heap for the order `less` on the entries in memory. -/
def Heap (m : Mem) (pq : priorityQueue) : Prop := isHeapN (ltM m) pq pq.length

/-- The list computed by `down` at `i` followed, when nothing moved, by `up` at `i`. -/
def siftL (lt : Nat → Nat → Bool) (n : Nat) (l : List Nat) (i : Nat) : List Nat :=
  if i < (downL lt n (l.length + 1) l i).1 then (downL lt n (l.length + 1) l i).2
  else upL lt (l.length + 1) (downL lt n (l.length + 1) l i).2 i

/-- The entry recorded under `name` in the jobs map, if any. -/
def jobQueue.entry (q : jobQueue) (name : String) : Option jobQueueEntry :=
  (q.jobs.lookup name).bind (deref q.mem)

/-- The entry recorded under `name`, without its heap position. -/
def jobQueue.view (q : jobQueue) (name : String) : Option jobQueueEntry :=
  (q.entry name).map jobQueueEntry.key

/-- The keys of the jobs map. -/
def jobQueue.names (q : jobQueue) : List String := q.jobs.map Prod.fst

/-- The names of the entries in the heap, in heap order. -/
def jobQueue.heapNames (q : jobQueue) : List String :=
  q.pq.map fun p => (entryAt q.mem p).name

/-- The entry after `dequeue` has assigned it. -/
def jobQueueEntry.assign (e : jobQueueEntry) (deadline : Int) (token : Nat) : jobQueueEntry :=
  { e with
    deadline := deadline
    status := jobStatusInProgress
    token := token
    proto := { e.proto with CommitIndex := token } }

/-- The entry after `update` has renewed its lease. -/
def jobQueueEntry.renew (e : jobQueueEntry) (deadline : Int) : jobQueueEntry :=
  { e with deadline := deadline, status := jobStatusInProgress }

/-- The invariant of the queue: heap positions are recorded in the entries, the heap
is ordered by `less`, the jobs map has one address per name and the same addresses
as the heap, and every entry carries its name and one of the two statuses. -/
structure Inv (q : jobQueue) : Prop where
  valid : Valid q.mem q.pq
  heap : Heap q.mem q.pq
  keys : (q.jobs.map Prod.fst).Nodup
  mem_pq : ∀ p, p ∈ q.pq ↔ ∃ name, (name, p) ∈ q.jobs
  names : ∀ name p, (name, p) ∈ q.jobs →
    (entryAt q.mem p).name = name ∧ (entryAt q.mem p).proto.Name = name
  status : ∀ p, p ∈ q.pq →
    (entryAt q.mem p).status = jobStatusInitial ∨ (entryAt q.mem p).status = jobStatusInProgress

/-- A call of a queue operation together with what it returned. -/
inductive Event where
  | enqueue (job : CompactionJob) (ok : Bool)
  | dequeue (now : Int) (token : Nat) (job : Option CompactionJob)
  | update (name : String) (now : Int) (token : Nat) (ok : Bool)
  | evict (name : String) (token : Nat) (ok : Bool)
  | peekEvict (name : String) (token : Nat) (ok : Bool)
  deriving DecidableEq, Repr

/-- The call recorded by the event takes `q` to `q'` and returns the recorded result. -/
def Event.holds (q q' : jobQueue) : Event → Prop
  | .enqueue job ok => q.enqueue job = some (ok, q')
  | .dequeue now token job => q.dequeue now token = some (job, q')
  | .update name now token ok => q.update name now token = some (ok, q')
  | .evict name token ok => q.evict name token = some (ok, q')
  | .peekEvict name token ok => q.peekEvict name token = some ok ∧ q' = q

instance Event.decHolds (q q' : jobQueue) : (ev : Event) → Decidable (ev.holds q q')
  | .enqueue job ok => inferInstanceAs (Decidable (q.enqueue job = some (ok, q')))
  | .dequeue now token job => inferInstanceAs (Decidable (q.dequeue now token = some (job, q')))
  | .update name now token ok =>
    inferInstanceAs (Decidable (q.update name now token = some (ok, q')))
  | .evict name token ok => inferInstanceAs (Decidable (q.evict name token = some (ok, q')))
  | .peekEvict name token ok =>
    inferInstanceAs (Decidable (q.peekEvict name token = some ok ∧ q' = q))

/-- A sequence of calls leading from one queue state to another. -/
inductive Exec : jobQueue → List Event → jobQueue → Prop where
  | nil (q : jobQueue) : Exec q [] q
  | cons {q q1 q2 : jobQueue} {ev : Event} {evs : List Event} :
      ev.holds q q1 → Exec q1 evs q2 → Exec q (ev :: evs) q2

/-- The queue states reachable from `newJobQueue` by calls of the queue operations. -/
def Reachable (q : jobQueue) : Prop :=
  ∃ lease q0 evs, newJobQueue lease = some q0 ∧ Exec q0 evs q

/-- What a call does to the entry recorded under `n` (seen without heap position),
as a function of the call, its result and the entry before. -/
def Event.effect (lease : Int) (n : String) (ev : Event) (v : Option jobQueueEntry) :
    Option jobQueueEntry :=
  match ev with
  | .enqueue job true => if job.Name = n then some (jobQueueEntry.load job).key else v
  | .dequeue now token (some job) =>
    if job.Name = n then v.map fun e => (e.assign (wrapInt64 (now + lease)) token).key else v
  | .update name now _ true =>
    if name = n then v.map fun e => (e.renew (wrapInt64 (now + lease))).key else v
  | .evict name _ true => if name = n then none else v
  | _ => v

/-- The call changed the lease of the entry named `n`, or removed the entry: a
successful `update` or `evict` of `n`, or a `dequeue` that returned `n`. -/
def Event.touches (n : String) : Event → Prop
  | .update name _ _ ok => name = n ∧ ok = true
  | .evict name _ ok => name = n ∧ ok = true
  | .dequeue _ _ (some job) => job.Name = n
  | _ => False

/-- The call ended the current assignment of the entry named `n`: a successful
`evict` of `n`, or a `dequeue` that returned `n` (again). -/
def Event.releases (n : String) : Event → Prop
  | .evict name _ ok => name = n ∧ ok = true
  | .dequeue _ _ (some job) => job.Name = n
  | _ => False

/-- The call is a successful `evict` of the entry named `n`. -/
def Event.evicts (n : String) : Event → Prop
  | .evict name _ ok => name = n ∧ ok = true
  | _ => False

/-- The tokens stamped by the `dequeue` calls of a sequence that returned a job, in
the order of the calls. -/
def dequeueTokens : List Event → List Nat
  | [] => []
  | .dequeue _ token (some _) :: evs => token :: dequeueTokens evs
  | _ :: evs => dequeueTokens evs

/-- A job record named `name` at compaction level `level`, not yet started. -/
def exJob (name : String) (level : Nat) : CompactionJob :=
  { Name := name, Blocks := [], Status := CompactionStatus.COMPACTION_STATUS_UNSPECIFIED,
    CommitIndex := 0, Shard := 0, TenantId := "", CompactionLevel := level }

/-- The queue with lease 10 after `enqueue` of job `a` (level 5) and job `b` (level 1). -/
def exQueue : jobQueue :=
  { mem := [{ (jobQueueEntry.load (exJob "a" 5)) with index := 1 },
            { (jobQueueEntry.load (exJob "b" 1)) with index := 0 }]
    jobs := [("b", 1), ("a", 0)]
    pq := [1, 0]
    lease := 10 }

/-- The queue with lease 10 after `enqueue` of job `a` (level 5) alone. -/
def exQueueA : jobQueue :=
  { mem := [jobQueueEntry.load (exJob "a" 5)], jobs := [("a", 0)], pq := [0], lease := 10 }

/-- The state of `exQueueA` after `dequeue(0, 3)` has assigned job `a`. -/
def exQueueA1 : jobQueue :=
  { mem := [(jobQueueEntry.load (exJob "a" 5)).assign 10 3], jobs := [("a", 0)], pq := [0],
    lease := 10 }

/-- The state of `exQueueA1` after `update(a, 1, 5)` has renewed the lease. -/
def exQueueA2 : jobQueue :=
  { mem := [((jobQueueEntry.load (exJob "a" 5)).assign 10 3).renew 11], jobs := [("a", 0)],
    pq := [0], lease := 10 }

/-- The state of `exQueueA1` after `dequeue(100, 5)` has assigned job `a` again. -/
def exQueueA3 : jobQueue :=
  { mem := [((jobQueueEntry.load (exJob "a" 5)).assign 10 3).assign 110 5],
    jobs := [("a", 0)], pq := [0], lease := 10 }

/-- The state of `exQueueA1` (job `a`, level 5, leased until 10) after `enqueue` of
job `b` (level 1) and then of job `c` (level 2). -/
def exQueueM : jobQueue :=
  { mem := [{ ((jobQueueEntry.load (exJob "a" 5)).assign 10 3) with index := 1 },
            { (jobQueueEntry.load (exJob "b" 1)) with index := 0 },
            { (jobQueueEntry.load (exJob "c" 2)) with index := 2 }]
    jobs := [("c", 2), ("b", 1), ("a", 0)]
    pq := [1, 0, 2]
    lease := 10 }

/-- The state of `exQueueA1` after `enqueue` of job `b` (level 1). -/
def exQueueM0 : jobQueue :=
  { mem := [{ ((jobQueueEntry.load (exJob "a" 5)).assign 10 3) with index := 1 },
            { (jobQueueEntry.load (exJob "b" 1)) with index := 0 }]
    jobs := [("b", 1), ("a", 0)]
    pq := [1, 0]
    lease := 10 }

/-- The positions whose parent is at `lo` or beyond do not precede their parent. -/
def isHeapFrom (lt : Nat → Nat → Bool) (l : List Nat) (n lo : Nat) : Prop :=
  ∀ k, 0 < k → k < n → lo ≤ (k - 1) / 2 → lt (nth l k) (nth l ((k - 1) / 2)) = false

/-- The list computed by the loop of `heap.Init`, the counter being `i + 1`. -/
def initL (lt : Nat → Nat → Bool) (n : Nat) : Nat → List Nat → List Nat
  | 0, l => l
  | k + 1, l => initL lt n k (downL lt n (l.length + 1) l k).2

/-- Every address of the queue is the address of an allocated entry. -/
def PtrOk (m : Mem) (pq : priorityQueue) : Prop := ∀ p, p ∈ pq → p < m.length

/-- The header of a slice fits the arrays: the length is within the capacity, and a
slice with capacity has an allocated backing array of exactly that many cells. -/
def Slice.WF (a : Arrays) (s : Slice) : Prop :=
  s.len ≤ s.cap ∧ (s.cap ≠ 0 → s.arr < a.length ∧ (a.getD s.arr []).length = s.cap)

/-- The invariant of a plan: the pending queue of every level fits the arrays, and
the pending queues of two levels never share a backing array. -/
def PlanInv (a : Arrays) (plan : compactionPlan) : Prop :=
  (∀ L, Slice.WF a (plan.queued L)) ∧
  ∀ L L', L ≠ L' → (plan.queued L).cap ≠ 0 → (plan.queued L').cap ≠ 0 →
    (plan.queued L).arr ≠ (plan.queued L').arr

/-- A plan as it is created: no job, no pending block. -/
def compactionPlan.empty : compactionPlan := { jobsByName := [], queuedBlocksByLevel := [] }

/-- The calls `addForCompaction(b)` for the blocks `b` of a list in turn on one plan:
what each call returned (for a job its name and its block list as the slice reads
when the call returns), and the arrays and the plan after the last call. -/
def compactionPlan.run (growCap : Nat → Nat → Nat) (Sum64 : String → Nat) :
    Arrays → compactionPlan → List BlockMeta →
      List (Option (String × List BlockMeta)) × Arrays × compactionPlan
  | a, plan, [] => ([], a, plan)
  | a, plan, b :: bs =>
    let r := plan.addForCompaction growCap Sum64 a b
    let rest := compactionPlan.run growCap Sum64 r.2.1 r.2.2 bs
    ((r.1.map fun job => (job.Name, job.Blocks.read r.2.1)) :: rest.1, rest.2)

/-- The planner on pending queues kept as plain lists, one per level: what the calls
`addForCompaction(b)` for the blocks of a list return. -/
def planResults (Sum64 : String → Nat) :
    (Nat → List BlockMeta) → List BlockMeta → List (Option (String × List BlockMeta))
  | _, [] => []
  | pending, b :: bs =>
    if b.CompactionLevel > globalCompactionStrategy.maxCompactionLevel then
      none :: planResults Sum64 pending bs
    else if (getStrategyForLevel b.CompactionLevel).shouldCreateJob
        (pending b.CompactionLevel ++ [b]) then
      some (jobName b.CompactionLevel b.Shard
          (calculateHash Sum64 (pending b.CompactionLevel ++ [b])),
        pending b.CompactionLevel ++ [b]) ::
        planResults Sum64 (Function.update pending b.CompactionLevel []) bs
    else
      none :: planResults Sum64
        (Function.update pending b.CompactionLevel (pending b.CompactionLevel ++ [b])) bs

/-- The condition of the level-0 strategy on a pending queue: at least 10 blocks and
512KB, or at least 20 blocks, or at least 2MB. -/
def level0Threshold (blocks : List BlockMeta) : Prop :=
  (10 ≤ blocks.length ∧ 524288 ≤ getTotalSize blocks) ∨ 20 ≤ blocks.length ∨
    2097152 ≤ getTotalSize blocks

instance level0Threshold.dec (blocks : List BlockMeta) : Decidable (level0Threshold blocks) :=
  inferInstanceAs (Decidable (_ ∨ _))

/-- A block with id `id` and `size` bytes at compaction level `level` of shard 0. -/
def exBlock (id : String) (level size : Nat) : BlockMeta :=
  { Id := id, Shard := 0, TenantId := "", CompactionLevel := level, Size := size }

/-- The number a list of decimal digits stands for. -/
def decVal (cs : List Char) : Nat := cs.foldl (fun acc c => acc * 10 + (c.toNat - 48)) 0

/-- The queue with lease 10 after `putJob` of job `a` (level 5) and of job `b`
(level 1): both are in the jobs map, the heap is empty. -/
def exLoaded : jobQueue :=
  { mem := [jobQueueEntry.load (exJob "a" 5), jobQueueEntry.load (exJob "b" 1)]
    jobs := [("b", 1), ("a", 0)]
    pq := []
    lease := 10 }

/-- The level-0 blocks `b0`, ..., `b9` of 60000 bytes each. -/
def exTenBlocks : List BlockMeta :=
  (List.range 10).map fun i => exBlock ("b" ++ toString i) 0 60000

/-- The queue `exLoaded` after `rebuild` has visited the jobs map in the order `b`,
`a`: the heap holds the addresses of `b` and `a`, no entry was written. -/
def exRebuilt : jobQueue := { exLoaded with pq := [1, 0] }

/-- The queue `exRebuilt` after `evict("a", 0)`. -/
def exRebuiltEvicted : jobQueue :=
  { mem := [jobQueueEntry.load (exJob "a" 5),
      { (jobQueueEntry.load (exJob "b" 1)) with index := -1 }]
    jobs := [("b", 1)]
    pq := [0]
    lease := 10 }

/-- The status updates `poll` collects: the staged updates, then an in-progress update
for each active job. -/
def Worker.batch (w : Worker) : List CompactionJobStatus :=
  w.pendingStatusUpdates.map Prod.snd ++
    w.activeJobs.map fun kv =>
      { kv.2.Status with Status := CompactionStatus.COMPACTION_STATUS_IN_PROGRESS }

/-- The spare capacity `JobCapacity - len(activeJobs) - len(pendingJobs)` as an integer. -/
def Worker.spare (w : Worker) : Int :=
  w.config.JobCapacity - (w.activeJobs.length : Int) - (w.pendingJobs.length : Int)

/-- A job named `name` whose status record carries that name. -/
def exPolledJob (name : String) : PolledJob :=
  { Name := name
    Blocks := []
    Status := { JobName := name
                Status := CompactionStatus.COMPACTION_STATUS_UNSPECIFIED
                CompletedJob := none }
    TenantId := ""
    Shard := 0
    CompactionLevel := 0 }

/-- A worker of the given capacity with the named active and pending jobs and no
staged update. -/
def exWorker (capacity : Int) (active pending : List String) : Worker :=
  { config := { JobCapacity := capacity, SmallObjectSize := 0, TempDir := "" }
    pendingJobs := pending.map fun n => (n, exPolledJob n)
    activeJobs := active.map fun n => (n, exPolledJob n)
    pendingStatusUpdates := [] }

/-- A status update for the job `a` whose `JobName` field is empty. -/
def exUnnamedStatus : CompactionJobStatus :=
  { JobName := "", Status := CompactionStatus.COMPACTION_STATUS_SUCCESS, CompletedJob := none }

/-- A worker of capacity 3 without jobs, with the update `exUnnamedStatus` staged
under the name `a`. -/
def exStaleWorker : Worker :=
  { config := { JobCapacity := 3, SmallObjectSize := 0, TempDir := "" }
    pendingJobs := []
    activeJobs := []
    pendingStatusUpdates := [("a", exUnnamedStatus)] }

/-- A worker of capacity 3 whose job `b` is active, with no staged update. -/
def exBusyWorker : Worker := exWorker 3 ["b"] []

/-- The Success status of job `b`. -/
def exDoneStatus : CompactionJobStatus :=
  { JobName := "b", Status := CompactionStatus.COMPACTION_STATUS_SUCCESS,
    CompletedJob := some { Blocks := [] } }

/-- The goroutine of job `b` finishes while a poll is under way: its second locked
section stages the Success status of `b`. -/
def exJobFinishes : Worker → Worker :=
  fun w => w.runningJobEnd (exPolledJob "b") exDoneStatus

/-- A control plane that accepts every poll and hands out no job. -/
def exPollOk : PollCompactionJobsRequest → Except String PollCompactionJobsResponse :=
  fun _ => Except.ok { CompactionJobs := [] }

/-- A control plane that fails every poll. -/
def exPollFails : PollCompactionJobsRequest → Except String PollCompactionJobsResponse :=
  fun _ => Except.error "unavailable"

/-- The calls of `applyAddBlock` on a state that records the in-memory calls made: the
block is marshalled and written, `tryCreateJob` returns the job `job` without touching
the state, and the write of the job record fails if `failJob` is set. -/
def exCalls (failJob : Bool) : addBlockCalls String (List String) String :=
  { MarshalVT := fun _ => none
    putBlockMeta := fun _ => none
    tryCreateJob := fun m _ => (some "job", m)
    putCompactionJob := fun _ _ => if failJob then some "disk full" else none
    commit := fun _ => none
    putSegment := fun m b => m ++ ["putSegment " ++ b.Id]
    addCompactionJob := fun m job => m ++ ["addCompactionJob " ++ job]
    addBlockToCompactionJobQueue := fun m b => m ++ ["addBlockToCompactionJobQueue " ++ b.Id] }

/-- The elements a merge iterator yields to at most `n` calls of `Next`: the value of
`At` after each call that returns true, up to the first call that returns false. -/
def MergeIterator.yields {P : Type} [Profile P] : Nat → MergeIterator P → List P
  | 0, _ => []
  | n + 1, i =>
    if i.Next.1 then i.Next.2.At :: MergeIterator.yields n i.Next.2 else []

/-- The elements an iterator returned by `NewMergeIterator` yields to at most `n` calls
of `Next`; a given iterator yields its elements. -/
def Iterator.yields {P : Type} [Profile P] (n : Nat) : Iterator P → List P
  | Iterator.empty => []
  | Iterator.given it => it.take n
  | Iterator.merge i => i.yields n

/-- Two profiles have the same fingerprint and the same timestamp. -/
def sameSample {P : Type} [Profile P] (p q : P) : Prop :=
  Profile.Fingerprint p = Profile.Fingerprint q ∧ Profile.Timestamp p = Profile.Timestamp q

instance sameSample.dec {P : Type} [Profile P] (p q : P) : Decidable (sameSample p q) :=
  inferInstanceAs (Decidable (_ ∧ _))

/-- No two consecutive profiles of the list have the same fingerprint and the same
timestamp. -/
def distinctNeighbours {P : Type} [Profile P] (l : List P) : Prop :=
  l.Chain' fun p q => ¬ sameSample p q

instance distinctNeighbours.dec {P : Type} [Profile P] (l : List P) :
    Decidable (distinctNeighbours l) :=
  inferInstanceAs (Decidable (List.Chain' _ _))

/-- The list is sorted by (fingerprint, timestamp): no element is `lessProfile` than
the one before it. -/
def sortedProfiles {P : Type} [Profile P] (l : List P) : Prop :=
  l.Chain' fun p q => lessProfile q p = false

instance sortedProfiles.dec {P : Type} [Profile P] (l : List P) :
    Decidable (sortedProfiles l) :=
  inferInstanceAs (Decidable (List.Chain' _ _))

/-- A profile that is its fingerprint and its timestamp. -/
structure exProfile where
  fp : Nat
  ts : Int
  deriving DecidableEq, Repr, Inhabited

instance exProfile.profile : Profile exProfile :=
  { Timestamp := fun p => p.ts, Fingerprint := fun p => p.fp }

/-- A tree that hands out the elements of its inputs one input after the other. -/
def exLoser : List (List exProfile) → exProfile → List exProfile :=
  fun iters _ => iters.flatten

/-- A worker of capacity 3 with the active job `b` and, staged under its own name, a
Success update of job `a`. -/
def exNamedWorker : Worker :=
  { config := { JobCapacity := 3, SmallObjectSize := 0, TempDir := "" }
    pendingJobs := []
    activeJobs := [("b", exPolledJob "b")]
    pendingStatusUpdates :=
      [("a", { JobName := "a"
               Status := CompactionStatus.COMPACTION_STATUS_SUCCESS
               CompletedJob := none })] }

/-- The request `exNamedWorker` sends. -/
def exNamedRequest : PollCompactionJobsRequest :=
  { JobStatusUpdates :=
      [{ JobName := "a", Status := CompactionStatus.COMPACTION_STATUS_SUCCESS,
         CompletedJob := none },
       { JobName := "b", Status := CompactionStatus.COMPACTION_STATUS_IN_PROGRESS,
         CompletedJob := none }]
    JobCapacity := 2 }

/-- A control plane that accepts every poll and hands out the job `c`. -/
def exPollJob : PollCompactionJobsRequest → Except String PollCompactionJobsResponse :=
  fun _ => Except.ok { CompactionJobs := [exPolledJob "c"] }

/-- A compact operation that returns the error `err`, or else one block `out`. -/
def exCompact (err : Option String) : List BlockMeta → Except String (List BlockMeta) :=
  fun _ =>
    match err with
    | some e => Except.error e
    | none => Except.ok [exBlock "out" 1 10]

/-- The error that stands for `context.Canceled`. -/
def exIsCanceled : String → Bool := fun e => e == "context canceled"

/-! # Theorems -/

/-! ## A list-level account of `container/heap` -/

theorem length_swapL (l : List Nat) (i j : Nat) : (swapL l i j).length = l.length := by
  simp [swapL]

theorem nth_swapL (l : List Nat) (i j k : Nat) (hi : i < l.length) (hj : j < l.length) :
    nth (swapL l i j) k = if k = j then nth l i else if k = i then nth l j else nth l k := by
  unfold swapL nth
  simp only [List.getD_eq_getElem?_getD, List.getElem?_set, List.length_set]
  by_cases h1 : k = j
  · subst h1; simp [hj]
  · by_cases h2 : k = i
    · subst h2
      have : ¬ j = k := fun h => h1 h.symm
      simp [this, hi, h1]
    · have a : ¬ j = k := fun h => h1 h.symm
      have b : ¬ i = k := fun h => h2 h.symm
      simp [a, b, h1, h2]

/-- Exchanging two positions permutes the list. -/
theorem swapL_perm (l : List Nat) (i j : Nat) (hi : i < l.length) (hj : j < l.length) :
    (swapL l i j).Perm l := by
  rw [List.perm_iff_count]
  intro a
  have hc1 : l[i] = a → 0 < List.count a l := fun h =>
    List.count_pos_iff.2 (h ▸ List.getElem_mem hi)
  have hc2 : l[j] = a → 0 < List.count a l := fun h =>
    List.count_pos_iff.2 (h ▸ List.getElem_mem hj)
  unfold swapL nth
  simp only [List.getD_eq_getElem?_getD, List.getElem?_eq_getElem hi,
    List.getElem?_eq_getElem hj, Option.getD_some]
  rw [List.count_set _ _ _ _ (by simpa using hj), List.count_set _ _ _ _ hi]
  simp only [beq_iff_eq, List.getElem_set, ite_self]
  split_ifs <;> omega

theorem StrictWeak.irrefl {lt : Nat → Nat → Bool} (h : StrictWeak lt) (a : Nat) :
    lt a a = false := by
  cases hh : lt a a
  · rfl
  · exact (Bool.noConfusion ((h.asymm a a hh).symm.trans hh))

theorem StrictWeak.of_lt_of_not {lt : Nat → Nat → Bool} (h : StrictWeak lt) {a b c : Nat}
    (h1 : lt b c = true) (h2 : lt a c = false) : lt a b = false :=
  h.negTrans b c a (h.asymm b c h1) h2

/-- The root of a heap is preceded by no position. -/
theorem isHeapN.root_min {lt : Nat → Nat → Bool} (hlt : StrictWeak lt) {l : List Nat} {n : Nat}
    (h : isHeapN lt l n) : ∀ k, k < n → lt (nth l k) (nth l 0) = false := by
  intro k
  induction k using Nat.strong_induction_on with
  | _ k ih =>
    intro hk
    by_cases h0 : k = 0
    · subst h0; exact hlt.irrefl _
    · have hp : (k - 1) / 2 < k := by omega
      exact hlt.negTrans _ _ _ (ih _ hp (by omega)) (h k (by omega) hk)

theorem length_upL (lt : Nat → Nat → Bool) (fuel : Nat) (l : List Nat) (j : Nat) :
    (upL lt fuel l j).length = l.length := by
  induction fuel generalizing l j with
  | zero => rfl
  | succ fuel ih =>
    unfold upL
    split_ifs
    · rfl
    · rw [ih, length_swapL]
    · rfl

theorem upL_perm (lt : Nat → Nat → Bool) (fuel : Nat) (l : List Nat) (j : Nat)
    (hj : j < l.length) : (upL lt fuel l j).Perm l := by
  induction fuel generalizing l j with
  | zero => exact List.Perm.refl _
  | succ fuel ih =>
    unfold upL
    split_ifs
    · exact List.Perm.refl _
    · have hi : (j - 1) / 2 < l.length := by omega
      exact (ih _ _ (by rw [length_swapL]; exact hi)).trans (swapL_perm l _ _ hi hj)
    · exact List.Perm.refl _

theorem nth_upL_of_gt (lt : Nat → Nat → Bool) (fuel : Nat) (l : List Nat) (j : Nat)
    (hj : j < l.length) (k : Nat) (hk : j < k) : nth (upL lt fuel l j) k = nth l k := by
  induction fuel generalizing l j with
  | zero => rfl
  | succ fuel ih =>
    unfold upL
    split_ifs with h1 h2
    · rfl
    · have hi : (j - 1) / 2 < l.length := by omega
      rw [ih _ _ (by rw [length_swapL]; exact hi) (by omega), nth_swapL l _ _ k hi hj]
      have a : k ≠ j := by omega
      have b : k ≠ (j - 1) / 2 := by omega
      simp [a, b]
    · rfl

theorem upL_heap {lt : Nat → Nat → Bool} (hlt : StrictWeak lt) (n : Nat) :
    ∀ (fuel : Nat) (l : List Nat) (j : Nat), j < fuel → j < n → n ≤ l.length →
      UpPre lt l n j → isHeapN lt (upL lt fuel l j) n := by
  intro fuel
  induction fuel with
  | zero => intro l j h; omega
  | succ fuel ih =>
    intro l j hf hjn hn hpre
    obtain ⟨P1, P2⟩ := hpre
    unfold upL
    split_ifs with h1 h2
    · intro k hk0 hkn
      exact P1 k hk0 hkn (by omega)
    · have hj0 : 0 < j := by omega
      have hjl : j < l.length := by omega
      have hil : (j - 1) / 2 < l.length := by omega
      apply ih _ _ (by omega) (by omega) (by rw [length_swapL]; exact hn)
      constructor
      · intro k hk0 hkn hki
        have hkl : k < l.length := by omega
        rw [nth_swapL l _ _ k hil hjl, nth_swapL l _ _ _ hil hjl]
        by_cases hkj : k = j
        · subst hkj
          have a : ¬ (k - 1) / 2 = k := by omega
          simp only [a, if_true, if_false]
          exact hlt.asymm _ _ h2
        · simp only [hkj, hki, if_false]
          by_cases hpj : (k - 1) / 2 = j
          · simp only [hpj, if_true]
            exact P2 k hk0 hkn hpj hj0
          · simp only [hpj, if_false]
            by_cases hpi : (k - 1) / 2 = (j - 1) / 2
            · simp only [hpi, if_true]
              have := P1 k hk0 hkn hkj
              rw [hpi] at this
              exact hlt.of_lt_of_not h2 this
            · simp only [hpi, if_false]
              exact P1 k hk0 hkn hkj
      · intro k hk0 hkn hpk hi0
        rw [nth_swapL l _ _ k hil hjl, nth_swapL l _ _ _ hil hjl]
        have a : ¬ ((j - 1) / 2 - 1) / 2 = j := by omega
        have b : ¬ ((j - 1) / 2 - 1) / 2 = (j - 1) / 2 := by omega
        have hPi := P1 ((j - 1) / 2) hi0 (by omega) (by omega)
        simp only [a, b, if_false]
        by_cases hkj : k = j
        · simp only [hkj, if_true]
          exact hPi
        · have c : ¬ k = (j - 1) / 2 := by omega
          simp only [hkj, c, if_false]
          have := P1 k hk0 hkn hkj
          rw [hpk] at this
          exact hlt.negTrans _ _ _ hPi this
    · intro k hk0 hkn
      by_cases hkj : k = j
      · subst hkj; simpa using h2
      · exact P1 k hk0 hkn hkj

theorem pickChild_spec {lt : Nat → Nat → Bool} (hlt : StrictWeak lt) (l : List Nat)
    (n i : Nat) (h : 2 * i + 1 < n) :
    pickChild lt l n i < n ∧ (pickChild lt l n i - 1) / 2 = i ∧ i < pickChild lt l n i ∧
    ∀ k, 0 < k → k < n → (k - 1) / 2 = i →
      lt (nth l k) (nth l (pickChild lt l n i)) = false := by
  unfold pickChild
  split_ifs with hc
  · refine ⟨hc.1, by omega, by omega, ?_⟩
    intro k hk0 hkn hpk
    have hk : k = 2 * i + 1 ∨ k = 2 * i + 2 := by omega
    rcases hk with hk | hk
    · subst hk; exact hlt.asymm _ _ hc.2
    · subst hk; exact hlt.irrefl _
  · refine ⟨h, by omega, by omega, ?_⟩
    intro k hk0 hkn hpk
    have hk : k = 2 * i + 1 ∨ k = 2 * i + 2 := by omega
    rcases hk with hk | hk
    · subst hk; exact hlt.irrefl _
    · subst hk
      cases hh : lt (nth l (2 * i + 2)) (nth l (2 * i + 1))
      · rfl
      · exact absurd ⟨hkn, hh⟩ hc

theorem length_downL (lt : Nat → Nat → Bool) (n fuel : Nat) (l : List Nat) (i : Nat) :
    (downL lt n fuel l i).2.length = l.length := by
  induction fuel generalizing l i with
  | zero => rfl
  | succ fuel ih =>
    unfold downL
    split_ifs
    · rfl
    · rw [ih, length_swapL]
    · rfl

theorem downL_fst_ge (lt : Nat → Nat → Bool) (n fuel : Nat) (l : List Nat) (i : Nat) :
    i ≤ (downL lt n fuel l i).1 := by
  induction fuel generalizing l i with
  | zero => exact Nat.le_refl _
  | succ fuel ih =>
    unfold downL
    split_ifs with h1 h2
    · exact Nat.le_refl _
    · refine Nat.le_trans ?_ (ih _ _)
      unfold pickChild
      split_ifs <;> omega
    · exact Nat.le_refl _

theorem pickChild_lt (lt : Nat → Nat → Bool) (l : List Nat) (n i : Nat) (h : 2 * i + 1 < n) :
    pickChild lt l n i < n ∧ i < pickChild lt l n i := by
  unfold pickChild
  split_ifs with hc
  · exact ⟨hc.1, by omega⟩
  · exact ⟨h, by omega⟩

theorem downL_perm (lt : Nat → Nat → Bool) (n fuel : Nat) (l : List Nat) (i : Nat)
    (hn : n ≤ l.length) : (downL lt n fuel l i).2.Perm l := by
  induction fuel generalizing l i with
  | zero => exact List.Perm.refl _
  | succ fuel ih =>
    unfold downL
    split_ifs with h1 h2
    · exact List.Perm.refl _
    · have hp := pickChild_lt lt l n i (by omega)
      exact (ih _ _ (by rw [length_swapL]; exact hn)).trans
        (swapL_perm l _ _ (by omega) (by omega))
    · exact List.Perm.refl _

theorem nth_downL_of_out (lt : Nat → Nat → Bool) (n fuel : Nat) (l : List Nat) (i : Nat)
    (hn : n ≤ l.length) (k : Nat) (hk : k < i ∨ n ≤ k) :
    nth (downL lt n fuel l i).2 k = nth l k := by
  induction fuel generalizing l i with
  | zero => rfl
  | succ fuel ih =>
    unfold downL
    split_ifs with h1 h2
    · rfl
    · have hp := pickChild_lt lt l n i (by omega)
      rw [ih _ _ (by rw [length_swapL]; exact hn) (by omega),
        nth_swapL l _ _ k (by omega) (by omega)]
      have a : k ≠ pickChild lt l n i := by omega
      have b : k ≠ i := by omega
      simp [a, b]
    · rfl

theorem downL_spec {lt : Nat → Nat → Bool} (hlt : StrictWeak lt) (n : Nat) :
    ∀ (fuel : Nat) (l : List Nat) (i : Nat), n ≤ i + fuel → n ≤ l.length →
      DownPre lt l n i →
      (∀ k, 0 < k → k < n → k ≠ i →
        lt (nth (downL lt n fuel l i).2 k) (nth (downL lt n fuel l i).2 ((k - 1) / 2)) = false) ∧
      ((downL lt n fuel l i).1 ≠ i → 0 < i →
        lt (nth (downL lt n fuel l i).2 i) (nth (downL lt n fuel l i).2 ((i - 1) / 2)) = false) ∧
      ((downL lt n fuel l i).1 = i → (downL lt n fuel l i).2 = l) := by
  intro fuel
  induction fuel with
  | zero =>
    intro l i hf hn hpre
    obtain ⟨D1, D2⟩ := hpre
    refine ⟨?_, fun h => absurd rfl h, fun _ => rfl⟩
    intro k hk0 hkn hki
    exact D1 k hk0 hkn hki (by omega)
  | succ fuel ih =>
    intro l i hf hn hpre
    obtain ⟨D1, D2⟩ := hpre
    unfold downL
    split_ifs with h1 h2
    · refine ⟨?_, fun h => absurd rfl h, fun _ => rfl⟩
      intro k hk0 hkn hki
      exact D1 k hk0 hkn hki (by omega)
    · obtain ⟨hjn, hpj, hij, hmin⟩ := pickChild_spec hlt l n i (by omega)
      generalize pickChild lt l n i = j at *
      have hil : i < l.length := by omega
      have hjl : j < l.length := by omega
      have hpre2 : DownPre lt (swapL l i j) n j := by
        constructor
        · intro k hk0 hkn hkj hpkj
          rw [nth_swapL l _ _ k hil hjl, nth_swapL l _ _ _ hil hjl]
          simp only [hkj, hpkj, if_false]
          by_cases hki : k = i
          · subst hki
            have a : ¬ (k - 1) / 2 = k := by omega
            simp only [a, if_true, if_false]
            exact D2 j (by omega) hjn hpj hk0
          · simp only [hki, if_false]
            by_cases hpi : (k - 1) / 2 = i
            · simp only [hpi, if_true]
              exact hmin k hk0 hkn hpi
            · simp only [hpi, if_false]
              exact D1 k hk0 hkn hki hpi
        · intro k hk0 hkn hpk hj0
          rw [nth_swapL l _ _ k hil hjl, nth_swapL l _ _ _ hil hjl]
          have a : ¬ k = j := by omega
          have b : ¬ k = i := by omega
          have c : ¬ i = j := by omega
          simp only [a, b, c, hpj, if_true, if_false]
          have := D1 k hk0 hkn b (by omega)
          rw [hpk] at this
          exact this
      obtain ⟨R1, R2, R3⟩ := ih (swapL l i j) j (by omega) (by rw [length_swapL]; exact hn) hpre2
      have hge := downL_fst_ge lt n fuel (swapL l i j) j
      refine ⟨?_, ?_, fun h => by omega⟩
      · intro k hk0 hkn hki
        by_cases hkj : k = j
        · subst hkj
          by_cases hmv : (downL lt n fuel (swapL l i k) k).1 = k
          · rw [R3 hmv, nth_swapL l _ _ k hil hjl, nth_swapL l _ _ _ hil hjl, hpj]
            have a : ¬ i = k := by omega
            simp only [a, if_true, if_false]
            exact hlt.asymm _ _ h2
          · exact R2 hmv (by omega)
        · exact R1 k hk0 hkn hkj
      · intro _ hi0
        exact R1 i hi0 (by omega) (by omega)
    · obtain ⟨hjn, hpj, hij, hmin⟩ := pickChild_spec hlt l n i (by omega)
      refine ⟨?_, fun h => absurd rfl h, fun _ => rfl⟩
      intro k hk0 hkn hki
      by_cases hpi : (k - 1) / 2 = i
      · rw [hpi]
        have h3 : lt (nth l (pickChild lt l n i)) (nth l i) = false := by simpa using h2
        exact hlt.negTrans _ _ _ h3 (hmin k hk0 hkn hpi)
      · exact D1 k hk0 hkn hki hpi

theorem less_iff_rank (a b : jobQueueEntry) : a.less b = true ↔ a.rank < b.rank := by
  unfold jobQueueEntry.less jobQueueEntry.rank
  simp only [Prod.Lex.lt_iff]
  split_ifs with h1 h2 h3
  · simp only [decide_eq_true_eq]
    constructor
    · intro h; exact Or.inl h
    · rintro (h | ⟨h, _⟩)
      · exact h
      · exact absurd h h1
  · simp only [decide_eq_true_eq]
    simp only [ne_eq, not_not] at h1
    constructor
    · intro h; exact Or.inr ⟨h1, Or.inl h⟩
    · rintro (h | ⟨_, h | ⟨h, _⟩⟩)
      · exact absurd h (by rw [h1]; exact lt_irrefl _)
      · exact h
      · exact absurd h h2
  · simp only [decide_eq_true_eq]
    simp only [ne_eq, not_not] at h1 h2
    constructor
    · intro h; exact Or.inr ⟨h1, Or.inr ⟨h2, Or.inl h⟩⟩
    · rintro (h | ⟨_, h | ⟨_, h | ⟨h, _⟩⟩⟩)
      · exact absurd h (by rw [h1]; exact lt_irrefl _)
      · exact absurd h (by rw [h2]; exact lt_irrefl _)
      · exact h
      · exact absurd h h3
  · simp only [decide_eq_true_eq]
    simp only [ne_eq, not_not] at h1 h2 h3
    constructor
    · intro h; exact Or.inr ⟨h1, Or.inr ⟨h2, Or.inr ⟨h3, h⟩⟩⟩
    · rintro (h | ⟨_, h | ⟨_, h | ⟨_, h⟩⟩⟩)
      · exact absurd h (by rw [h1]; exact lt_irrefl _)
      · exact absurd h (by rw [h2]; exact lt_irrefl _)
      · exact absurd h (by rw [h3]; exact lt_irrefl _)
      · exact h

theorem less_eq_false_iff (a b : jobQueueEntry) : a.less b = false ↔ b.rank ≤ a.rank := by
  rw [← not_lt, ← less_iff_rank]
  simp

theorem less_strictWeak_asymm (a b : jobQueueEntry) (h : a.less b = true) :
    b.less a = false := by
  rw [less_iff_rank] at h
  rw [less_eq_false_iff]
  exact le_of_lt h

theorem less_strictWeak_negTrans (a b c : jobQueueEntry) (h1 : b.less a = false)
    (h2 : c.less b = false) : c.less a = false := by
  rw [less_eq_false_iff] at *
  exact le_trans h1 h2

/-! ## From the Go functions to the list-level account -/

theorem ltM_strictWeak (m : Mem) : StrictWeak (ltM m) :=
  ⟨fun _ _ h => less_strictWeak_asymm _ _ h,
   fun _ _ _ h1 h2 => less_strictWeak_negTrans _ _ _ h1 h2⟩

theorem KeyEq.refl (m : Mem) : KeyEq m m := ⟨rfl, fun _ => rfl⟩

theorem KeyEq.trans {m1 m2 m3 : Mem} (h1 : KeyEq m1 m2) (h2 : KeyEq m2 m3) : KeyEq m1 m3 :=
  ⟨h2.1.trans h1.1, fun p => (h2.2 p).trans (h1.2 p)⟩

theorem less_key (a b : jobQueueEntry) : a.less b = a.key.less b.key := rfl

theorem KeyEq.ltM_eq {m m' : Mem} (h : KeyEq m m') : ltM m' = ltM m := by
  funext p q
  unfold ltM
  rw [less_key, h.2 p, h.2 q, ← less_key]

theorem Valid.inj {m : Mem} {pq : priorityQueue} (h : Valid m pq) {a b : Nat}
    (ha : a < pq.length) (hb : b < pq.length) (hab : nth pq a = nth pq b) : a = b := by
  have h1 := (h a ha).2
  have h2 := (h b hb).2
  rw [hab] at h1
  have : (a : Int) = (b : Int) := h1.symm.trans h2
  exact_mod_cast this

theorem deref_of_lt {m : Mem} {p : Nat} (h : p < m.length) :
    deref m p = some (entryAt m p) := by
  unfold deref entryAt
  simp [List.getElem?_eq_getElem h]

theorem idx_natCast {pq : priorityQueue} {k : Nat} (h : k < pq.length) :
    priorityQueue.idx pq (k : Int) = some (nth pq k) := by
  unfold priorityQueue.idx nth
  have : ¬ ((k : Int) < 0) := by omega
  simp [this, List.getElem?_eq_getElem h]

theorem entryAt_set (m : Mem) (p q : Nat) (e : jobQueueEntry) :
    entryAt (m.set p e) q = if q = p ∧ p < m.length then e else entryAt m q := by
  unfold entryAt
  simp only [List.getD_eq_getElem?_getD, List.getElem?_set]
  by_cases h : p = q
  · subst h
    by_cases h2 : p < m.length
    · simp [h2]
    · simp [h2]
      rw [List.getElem?_eq_none (by omega)]
      rfl
  · have : ¬ q = p := fun hh => h hh.symm
    simp [h, this]

theorem Less_spec {m : Mem} {pq : priorityQueue} (hv : Valid m pq) {i j : Nat}
    (hi : i < pq.length) (hj : j < pq.length) :
    priorityQueue.Less m pq (i : Int) (j : Int) = some (ltM m (nth pq i) (nth pq j)) := by
  unfold priorityQueue.Less
  rw [idx_natCast hi, idx_natCast hj]
  simp only [Option.bind_eq_bind, Option.some_bind]
  rw [deref_of_lt (hv i hi).1, deref_of_lt (hv j hj).1]
  rfl

theorem length_setIdx (m : Mem) (p : Nat) (i : Int) : (setIdx m p i).length = m.length := by
  simp [setIdx]

theorem key_setIdx (m : Mem) (p : Nat) (i : Int) (q : Nat) :
    (entryAt (setIdx m p i) q).key = (entryAt m q).key := by
  unfold setIdx
  rw [entryAt_set]
  split_ifs with h
  · rw [h.1]; rfl
  · rfl

theorem index_setIdx (m : Mem) (p : Nat) (i : Int) (q : Nat) :
    (entryAt (setIdx m p i) q).index =
      if q = p ∧ p < m.length then i else (entryAt m q).index := by
  unfold setIdx
  rw [entryAt_set]
  split_ifs <;> rfl

theorem KeyEq.setIdx (m : Mem) (p : Nat) (i : Int) : KeyEq m (setIdx m p i) :=
  ⟨length_setIdx m p i, key_setIdx m p i⟩

theorem Swap_eq {m : Mem} {pq : priorityQueue} (hv : Valid m pq) {i j : Nat}
    (hi : i < pq.length) (hj : j < pq.length) :
    priorityQueue.Swap m pq (i : Int) (j : Int) = some (swapMem m pq i j, swapL pq i j) := by
  have hli : i < (swapL pq i j).length := by rw [length_swapL]; exact hi
  have hlj : j < (swapL pq i j).length := by rw [length_swapL]; exact hj
  have e1 : nth (swapL pq i j) j = nth pq i := by rw [nth_swapL pq i j j hi hj]; simp
  have hpi := (hv _ hi).1
  have hpj := (hv _ hj).1
  have hqi : nth (swapL pq i j) i < m.length := by
    rw [nth_swapL pq i j i hi hj]; split_ifs <;> assumption
  have hs : (List.set pq i (nth pq j)).set j (nth pq i) = swapL pq i j := rfl
  unfold priorityQueue.Swap
  rw [idx_natCast hi, idx_natCast hj]
  simp only [Option.bind_eq_bind, Option.some_bind, Int.toNat_ofNat]
  rw [hs, idx_natCast hli]
  simp only [Option.some_bind]
  rw [deref_of_lt hqi]
  simp only [Option.some_bind]
  rw [idx_natCast hlj, e1]
  simp only [Option.some_bind]
  rw [deref_of_lt (by simpa using hpi)]
  rfl

theorem Swap_spec {m : Mem} {pq : priorityQueue} (hv : Valid m pq) {i j : Nat}
    (hi : i < pq.length) (hj : j < pq.length) :
    ∃ m', priorityQueue.Swap m pq (i : Int) (j : Int) = some (m', swapL pq i j) ∧
      Valid m' (swapL pq i j) ∧ KeyEq m m' := by
  have hpi := (hv _ hi).1
  have hpj := (hv _ hj).1
  refine ⟨_, Swap_eq hv hi hj, ?_, ?_⟩ <;> unfold swapMem
  · intro k hk
    rw [length_swapL] at hk
    simp only [length_setIdx, index_setIdx]
    have e0 : nth (swapL pq i j) i = if i = j then nth pq i else nth pq j := by
      rw [nth_swapL pq i j i hi hj]; simp
    rw [nth_swapL pq i j k hi hj]
    by_cases hkj : k = j
    · subst hkj
      simp [hpi]
    · simp only [hkj, if_false]
      by_cases hki : k = i
      · subst hki
        have hne : nth pq j ≠ nth pq k := fun h => hkj (hv.inj hj hi h).symm
        have hkj2 : ¬ k = j := hkj
        simp [hne, hpj, e0, hkj2]
      · have hne1 : nth pq k ≠ nth pq i := fun h => hki (hv.inj hk hi h)
        have hne2 : nth pq k ≠ nth pq j := fun h => hkj (hv.inj hk hj h)
        have hne3 : nth pq k ≠ nth (swapL pq i j) i := by
          rw [e0]; split_ifs <;> assumption
        simp [hki, hne1, hne3, (hv k hk).1, (hv k hk).2]
  · exact (KeyEq.setIdx _ _ _).trans (KeyEq.setIdx _ _ _)

theorem parent_natCast (j : Nat) : Int.tdiv ((j : Int) - 1) 2 = (((j - 1) / 2 : Nat) : Int) := by
  cases j with
  | zero => rfl
  | succ k =>
    have : ((k + 1 : Nat) : Int) - 1 = (k : Int) := by push_cast; ring
    rw [this]
    simp only [Nat.add_sub_cancel]
    rfl

theorem up_spec : ∀ (fuel : Nat) (m : Mem) (pq : priorityQueue) (j : Nat),
    Valid m pq → j < pq.length → j < fuel →
    ∃ m', heap.up fuel m pq (j : Int) = some (m', upL (ltM m) fuel pq j) ∧
      Valid m' (upL (ltM m) fuel pq j) ∧ KeyEq m m' := by
  intro fuel
  induction fuel with
  | zero => intro m pq j _ _ h; omega
  | succ fuel ih =>
    intro m pq j hv hj hf
    have hi : (j - 1) / 2 < pq.length := by omega
    unfold heap.up upL
    simp only [parent_natCast, Nat.cast_inj]
    by_cases h1 : (j - 1) / 2 = j
    · simp only [h1, if_true]
      exact ⟨m, rfl, hv, KeyEq.refl m⟩
    · simp only [h1, if_false]
      rw [Less_spec hv hj hi]
      simp only [Option.bind_eq_bind, Option.some_bind]
      cases hlt : ltM m (nth pq j) (nth pq ((j - 1) / 2))
      · simp only [Bool.not_false, if_true, Bool.false_eq_true, if_false]
        exact ⟨m, rfl, hv, KeyEq.refl m⟩
      · simp only [Bool.not_true, Bool.false_eq_true, if_false, if_true]
        obtain ⟨m1, hs, hv1, hk1⟩ := Swap_spec hv hi hj
        rw [hs]
        simp only [Option.some_bind]
        obtain ⟨m2, hu, hv2, hk2⟩ := ih m1 (swapL pq ((j - 1) / 2) j) ((j - 1) / 2) hv1
          (by rw [length_swapL]; exact hi) (by omega)
        rw [hk1.ltM_eq] at hu hv2
        exact ⟨m2, hu, hv2, hk1.trans hk2⟩

theorem downLoop_spec : ∀ (fuel : Nat) (m : Mem) (pq : priorityQueue) (i n : Nat),
    Valid m pq → n ≤ pq.length → n < i + fuel → 0 < fuel →
    ∃ m', heap.downLoop (n : Int) fuel m pq (i : Int) =
        some (((downL (ltM m) n fuel pq i).1 : Int), m', (downL (ltM m) n fuel pq i).2) ∧
      Valid m' (downL (ltM m) n fuel pq i).2 ∧ KeyEq m m' := by
  intro fuel
  induction fuel with
  | zero => intro m pq i n _ _ _ h; omega
  | succ fuel ih =>
    intro m pq i n hv hn hf _
    unfold heap.downLoop downL
    have e : ((2 * (i : Int) + 1 ≥ (n : Int)) ∨ 2 * (i : Int) + 1 < 0) ↔ n ≤ 2 * i + 1 := by
      omega
    simp only [e]
    by_cases h1 : n ≤ 2 * i + 1
    · simp only [h1, if_true]
      exact ⟨m, rfl, hv, KeyEq.refl m⟩
    · simp only [h1, if_false]
      have c2 : 2 * (i : Int) + 1 = ((2 * i + 1 : Nat) : Int) := by push_cast; ring
      have c1 : ((2 * i + 1 : Nat) : Int) + 1 = ((2 * i + 2 : Nat) : Int) := by push_cast; ring
      have hj1 : 2 * i + 1 < pq.length := by omega
      have hil : i < pq.length := by omega
      simp only [c2, c1, Nat.cast_lt, Option.bind_eq_bind, Option.pure_def]
      have hpick : (if 2 * i + 2 < n then
            (priorityQueue.Less m pq ((2 * i + 2 : Nat) : Int) ((2 * i + 1 : Nat) : Int)).bind
              fun lt21 => some (if lt21 = true then ((2 * i + 2 : Nat) : Int)
                else ((2 * i + 1 : Nat) : Int))
          else some ((2 * i + 1 : Nat) : Int)) =
          some ((pickChild (ltM m) pq n i : Nat) : Int) := by
        unfold pickChild
        by_cases h2 : 2 * i + 2 < n
        · rw [if_pos h2, Less_spec hv (by omega) hj1]
          simp only [Option.some_bind, h2, true_and]
          split_ifs <;> rfl
        · rw [if_neg h2]
          simp only [h2, false_and, if_false]
      rw [hpick]
      simp only [Option.some_bind]
      obtain ⟨hjn, hij⟩ := pickChild_lt (ltM m) pq n i (by omega)
      generalize pickChild (ltM m) pq n i = j at *
      have hjl : j < pq.length := by omega
      rw [Less_spec hv hjl hil]
      simp only [Option.some_bind]
      cases hlt : ltM m (nth pq j) (nth pq i)
      · simp only [Bool.not_false, if_true, Bool.false_eq_true, if_false]
        exact ⟨m, rfl, hv, KeyEq.refl m⟩
      · simp only [Bool.not_true, Bool.false_eq_true, if_false, if_true]
        obtain ⟨m1, hs, hv1, hk1⟩ := Swap_spec hv hil hjl
        rw [hs]
        simp only [Option.some_bind]
        obtain ⟨m2, hu, hv2, hk2⟩ := ih m1 (swapL pq i j) j n hv1
          (by rw [length_swapL]; exact hn) (by omega) (by omega)
        rw [hk1.ltM_eq] at hu hv2
        exact ⟨m2, hu, hv2, hk1.trans hk2⟩

theorem down_spec (m : Mem) (pq : priorityQueue) (i n : Nat) (hv : Valid m pq)
    (hn : n ≤ pq.length) :
    ∃ m', heap.down m pq (i : Int) (n : Int) =
        some (decide (i < (downL (ltM m) n (pq.length + 1) pq i).1), m',
          (downL (ltM m) n (pq.length + 1) pq i).2) ∧
      Valid m' (downL (ltM m) n (pq.length + 1) pq i).2 ∧ KeyEq m m' := by
  obtain ⟨m1, h1, hv1, hk1⟩ := downLoop_spec (pq.length + 1) m pq i n hv hn (by omega) (by omega)
  refine ⟨m1, ?_, hv1, hk1⟩
  unfold heap.down
  rw [h1]
  simp only [Option.bind_eq_bind, Option.some_bind, Option.pure_def, gt_iff_lt, Nat.cast_lt]

/-! ## Specifications of the heap operations -/

theorem isHeapN_congr {lt lt' : Nat → Nat → Bool} {l : List Nat} {n : Nat}
    (h : ∀ a b, a < n → b < n → lt' (nth l a) (nth l b) = lt (nth l a) (nth l b))
    (hh : isHeapN lt l n) : isHeapN lt' l n := by
  intro k hk0 hkn
  rw [h k _ hkn (by omega)]
  exact hh k hk0 hkn

theorem nth_append_left (l : List Nat) (x k : Nat) (h : k < l.length) :
    nth (l ++ [x]) k = nth l k := by
  unfold nth
  simp [List.getElem?_append_left h]

theorem nth_append_last (l : List Nat) (x : Nat) : nth (l ++ [x]) l.length = x := by
  unfold nth
  simp

theorem nth_take (l : List Nat) (n k : Nat) (h : k < n) : nth (l.take n) k = nth l k := by
  unfold nth
  simp [List.getElem?_take_of_lt h]

theorem take_append_last (l : List Nat) (h : 0 < l.length) :
    l.take (l.length - 1) ++ [nth l (l.length - 1)] = l := by
  have hlt : l.length - 1 < l.length := by omega
  unfold nth
  rw [List.getD_eq_getElem _ _ hlt]
  have := List.take_append_drop (l.length - 1) l
  rw [List.drop_eq_getElem_cons hlt] at this
  have e : l.length - 1 + 1 = l.length := by omega
  rw [e, List.drop_length] at this
  exact this

theorem nth_mem {l : List Nat} {k : Nat} (h : k < l.length) : nth l k ∈ l := by
  unfold nth
  rw [List.getD_eq_getElem _ _ h]
  exact List.getElem_mem h

theorem exists_nth_of_mem {l : List Nat} {p : Nat} (h : p ∈ l) :
    ∃ k, k < l.length ∧ nth l k = p := by
  obtain ⟨k, hk, e⟩ := List.getElem_of_mem h
  refine ⟨k, hk, ?_⟩
  unfold nth
  rw [List.getD_eq_getElem _ _ hk]
  exact e

theorem Push_spec {m : Mem} {pq : priorityQueue} {x : Nat} (hv : Valid m pq)
    (hx : x < m.length) (hnot : x ∉ pq) :
    priorityQueue.Push m pq x = some (setIdx m x (pq.length : Int), pq ++ [x]) ∧
      Valid (setIdx m x (pq.length : Int)) (pq ++ [x]) := by
  constructor
  · unfold priorityQueue.Push
    rw [deref_of_lt hx]
    rfl
  · intro k hk
    rw [length_setIdx, index_setIdx]
    simp only [List.length_append, List.length_singleton] at hk
    by_cases hkn : k < pq.length
    · rw [nth_append_left pq x k hkn]
      have hne : nth pq k ≠ x := fun h => hnot (h ▸ nth_mem hkn)
      simp only [hne, false_and, if_false]
      exact hv k hkn
    · have e : k = pq.length := by omega
      subst e
      rw [nth_append_last]
      simp [hx]

theorem heap_Push_spec {m : Mem} {pq : priorityQueue} {x : Nat} (hv : Valid m pq)
    (hx : x < m.length) (hnot : x ∉ pq) (hh : Heap m pq) :
    ∃ m' pq', heap.Push m pq x = some (m', pq') ∧ Valid m' pq' ∧ KeyEq m m' ∧
      pq'.Perm (pq ++ [x]) ∧ Heap m' pq' := by
  obtain ⟨hp, hv1⟩ := Push_spec hv hx hnot
  have hk1 : KeyEq m (setIdx m x (pq.length : Int)) := KeyEq.setIdx _ _ _
  have hlen : (pq ++ [x]).length = pq.length + 1 := by simp
  obtain ⟨m2, hu, hv2, hk2⟩ := up_spec ((pq ++ [x]).length + 1) _ _ pq.length hv1
    (by omega) (by omega)
  rw [hk1.ltM_eq] at hu hv2
  refine ⟨m2, _, ?_, hv2, hk1.trans hk2, upL_perm _ _ _ _ (by omega), ?_⟩
  · unfold heap.Push
    rw [hp]
    simp only [Option.bind_eq_bind, Option.some_bind]
    have e : priorityQueue.Len (pq ++ [x]) - 1 = (pq.length : Int) := by
      unfold priorityQueue.Len
      rw [hlen]; push_cast; ring
    rw [e]
    exact hu
  · unfold Heap
    rw [(hk1.trans hk2).ltM_eq, length_upL, hlen]
    apply upL_heap (ltM_strictWeak m) _ _ _ _ (by omega) (by omega) (by omega)
    constructor
    · intro k hk0 hkn hne
      have hk : k < pq.length := by omega
      rw [nth_append_left pq x k hk, nth_append_left pq x _ (by omega)]
      exact hh k hk0 hk
    · intro k hk0 hkn hpk _
      omega

theorem Pop_spec {m : Mem} {pq : priorityQueue} (hv : Valid m pq) (hpos : 0 < pq.length) :
    priorityQueue.Pop m pq = some (setIdx m (nth pq (pq.length - 1)) (-1),
        pq.take (pq.length - 1), nth pq (pq.length - 1)) ∧
      Valid (setIdx m (nth pq (pq.length - 1)) (-1)) (pq.take (pq.length - 1)) := by
  have hlt : pq.length - 1 < pq.length := by omega
  have e : priorityQueue.Len pq - 1 = ((pq.length - 1 : Nat) : Int) := by
    unfold priorityQueue.Len; omega
  constructor
  · unfold priorityQueue.Pop
    simp only [e]
    rw [idx_natCast hlt]
    simp only [Option.bind_eq_bind, Option.some_bind, Int.toNat_ofNat]
    rw [deref_of_lt (hv _ hlt).1]
    rfl
  · intro k hk
    have hk2 : k < pq.length - 1 := by
      simp only [List.length_take] at hk; omega
    rw [length_setIdx, index_setIdx, nth_take pq _ k hk2]
    have hne : nth pq k ≠ nth pq (pq.length - 1) := fun h => by
      have := hv.inj (by omega) hlt h
      omega
    simp only [hne, false_and, if_false]
    exact hv k (by omega)

theorem length_siftL (lt : Nat → Nat → Bool) (n : Nat) (l : List Nat) (i : Nat) :
    (siftL lt n l i).length = l.length := by
  unfold siftL
  split_ifs
  · rw [length_downL]
  · rw [length_upL, length_downL]

theorem siftL_perm (lt : Nat → Nat → Bool) (n : Nat) (l : List Nat) (i : Nat)
    (hn : n ≤ l.length) (hi : i < n) : (siftL lt n l i).Perm l := by
  unfold siftL
  split_ifs
  · exact downL_perm lt n _ l i hn
  · exact (upL_perm lt _ _ i (by rw [length_downL]; omega)).trans (downL_perm lt n _ l i hn)

theorem nth_siftL_of_ge (lt : Nat → Nat → Bool) (n : Nat) (l : List Nat) (i : Nat)
    (hn : n ≤ l.length) (hi : i < n) (k : Nat) (hk : n ≤ k) :
    nth (siftL lt n l i) k = nth l k := by
  unfold siftL
  split_ifs
  · exact nth_downL_of_out lt n _ l i hn k (Or.inr hk)
  · rw [nth_upL_of_gt lt _ _ i (by rw [length_downL]; omega) k (by omega)]
    exact nth_downL_of_out lt n _ l i hn k (Or.inr hk)

theorem siftL_heap {lt : Nat → Nat → Bool} (hlt : StrictWeak lt) (n : Nat) (l : List Nat)
    (i : Nat) (hn : n ≤ l.length) (hi : i < n) (hpre : DownPre lt l n i) :
    isHeapN lt (siftL lt n l i) n := by
  obtain ⟨R1, R2, R3⟩ := downL_spec hlt n (l.length + 1) l i (by omega) hn hpre
  have hge := downL_fst_ge lt n (l.length + 1) l i
  unfold siftL
  split_ifs with hmv
  · intro k hk0 hkn
    by_cases hki : k = i
    · subst hki; exact R2 (by omega) hk0
    · exact R1 k hk0 hkn hki
  · have heq : (downL lt n (l.length + 1) l i).1 = i := by omega
    rw [R3 heq] at R1 ⊢
    exact upL_heap hlt n _ l i (by omega) hi hn ⟨R1, hpre.2⟩

theorem sift_spec {m : Mem} {pq : priorityQueue} (i n : Nat) (hv : Valid m pq)
    (hn : n ≤ pq.length) (hi : i < n) :
    ∃ m', ((heap.down m pq (i : Int) (n : Int)).bind fun r =>
        if (!r.1) = true then heap.up (r.2.2.length + 1) r.2.1 r.2.2 (i : Int)
        else some (r.2.1, r.2.2)) = some (m', siftL (ltM m) n pq i) ∧
      Valid m' (siftL (ltM m) n pq i) ∧ KeyEq m m' := by
  obtain ⟨m1, hd, hv1, hk1⟩ := down_spec m pq i n hv hn
  rw [hd]
  simp only [Option.some_bind]
  unfold siftL
  by_cases hmv : i < (downL (ltM m) n (pq.length + 1) pq i).1
  · simp only [hmv, decide_True, Bool.not_true, Bool.false_eq_true, if_false, if_true]
    exact ⟨m1, rfl, hv1, hk1⟩
  · simp only [hmv, decide_False, Bool.not_false, if_true, if_false]
    obtain ⟨m2, hu, hv2, hk2⟩ := up_spec ((downL (ltM m) n (pq.length + 1) pq i).2.length + 1)
      m1 _ i hv1 (by rw [length_downL]; omega) (by rw [length_downL]; omega)
    rw [hk1.ltM_eq, length_downL] at hu hv2
    rw [length_downL]
    exact ⟨m2, hu, hv2, hk1.trans hk2⟩

theorem heap_Fix_spec {m : Mem} {pq : priorityQueue} {i : Nat} (hv : Valid m pq)
    (hi : i < pq.length) (hpre : DownPre (ltM m) pq pq.length i) :
    ∃ m' pq', heap.Fix m pq (i : Int) = some (m', pq') ∧ Valid m' pq' ∧ KeyEq m m' ∧
      pq'.Perm pq ∧ Heap m' pq' := by
  obtain ⟨m1, hs, hv1, hk1⟩ := sift_spec i pq.length hv (Nat.le_refl _) hi
  refine ⟨m1, _, ?_, hv1, hk1, siftL_perm _ _ _ _ (Nat.le_refl _) hi, ?_⟩
  · unfold heap.Fix priorityQueue.Len
    simp only [Option.bind_eq_bind, Option.pure_def]
    exact hs
  · unfold Heap
    rw [hk1.ltM_eq, length_siftL]
    exact siftL_heap (ltM_strictWeak m) _ _ _ (Nat.le_refl _) hi hpre

theorem Heap_take {m : Mem} {l : List Nat} {n : Nat} (h : isHeapN (ltM m) l n)
    (hn : n ≤ l.length) : Heap m (l.take n) := by
  unfold Heap
  intro k hk0 hk
  have hk2 : k < n := by simp only [List.length_take] at hk; omega
  rw [nth_take l n k hk2, nth_take l n _ (by omega)]
  exact h k hk0 hk2

theorem heap_Pop_spec {m : Mem} {pq : priorityQueue} (hv : Valid m pq) (hpos : 0 < pq.length)
    (hh : Heap m pq) :
    ∃ m' pq', heap.Pop m pq = some (m', pq', nth pq 0) ∧ Valid m' pq' ∧ KeyEq m m' ∧
      (pq' ++ [nth pq 0]).Perm pq ∧ Heap m' pq' := by
  have hn : pq.length - 1 < pq.length := by omega
  have e : priorityQueue.Len pq - 1 = ((pq.length - 1 : Nat) : Int) := by
    unfold priorityQueue.Len; omega
  obtain ⟨m1, hs, hv1, hk1⟩ := Swap_spec hv hpos hn
  rw [Nat.cast_zero] at hs
  have hl1 : (swapL pq 0 (pq.length - 1)).length = pq.length := length_swapL _ _ _
  obtain ⟨m2, hd, hv2, hk2⟩ := down_spec m1 (swapL pq 0 (pq.length - 1)) 0 (pq.length - 1) hv1
    (by omega)
  rw [Nat.cast_zero, hk1.ltM_eq] at hd
  rw [hk1.ltM_eq] at hv2
  generalize hl2 : (downL (ltM m) (pq.length - 1) ((swapL pq 0 (pq.length - 1)).length + 1)
    (swapL pq 0 (pq.length - 1)) 0) = r at hd hv2
  have hlen2 : r.2.length = pq.length := by rw [← hl2, length_downL, hl1]
  have hperm2 : r.2.Perm pq := by
    rw [← hl2]
    exact (downL_perm _ _ _ _ _ (by omega)).trans (swapL_perm pq _ _ hpos hn)
  have hlast : nth r.2 (pq.length - 1) = nth pq 0 := by
    rw [← hl2, nth_downL_of_out _ _ _ _ _ (by omega) _ (Or.inr (Nat.le_refl _)),
      nth_swapL pq _ _ _ hpos hn]
    simp
  obtain ⟨hp, hv3⟩ := Pop_spec hv2 (by omega)
  rw [hlen2, hlast] at hp hv3
  refine ⟨_, _, ?_, hv3, (hk1.trans hk2).trans (KeyEq.setIdx _ _ _), ?_, ?_⟩
  · unfold heap.Pop
    simp only [e, Option.bind_eq_bind]
    rw [hs]
    simp only [Option.some_bind]
    rw [hd]
    simp only [Option.some_bind]
    exact hp
  · have := take_append_last r.2 (by omega)
    rw [hlen2, hlast] at this
    rw [this]
    exact hperm2
  · have hkk : KeyEq m (setIdx m2 (nth pq 0) (-1)) :=
      (hk1.trans hk2).trans (KeyEq.setIdx _ _ _)
    have hpre : DownPre (ltM m) (swapL pq 0 (pq.length - 1)) (pq.length - 1) 0 := by
      constructor
      · intro k hk0 hkn hk1 hpk
        rw [nth_swapL pq _ _ k hpos hn, nth_swapL pq _ _ _ hpos hn]
        have a : ¬ k = pq.length - 1 := by omega
        have b : ¬ k = 0 := by omega
        have c : ¬ (k - 1) / 2 = pq.length - 1 := by omega
        simp only [a, b, c, hpk, if_false]
        exact hh k hk0 (by omega)
      · intro k _ _ _ h0
        omega
    obtain ⟨R1, _, _⟩ := downL_spec (ltM_strictWeak m) (pq.length - 1)
      ((swapL pq 0 (pq.length - 1)).length + 1) _ 0 (by omega) (by omega) hpre
    rw [hl2] at R1
    have hheap : isHeapN (ltM (setIdx m2 (nth pq 0) (-1))) r.2 (pq.length - 1) := by
      rw [hkk.ltM_eq]
      intro k hk0 hkn
      exact R1 k hk0 hkn (by omega)
    exact Heap_take hheap (by omega)

theorem heap_Remove_spec {m : Mem} {pq : priorityQueue} {i : Nat} (hv : Valid m pq)
    (hi : i < pq.length) (hh : Heap m pq) :
    ∃ m' pq', heap.Remove m pq (i : Int) = some (m', pq', nth pq i) ∧ Valid m' pq' ∧
      KeyEq m m' ∧ (pq' ++ [nth pq i]).Perm pq ∧ Heap m' pq' := by
  have hn : pq.length - 1 < pq.length := by omega
  have e : priorityQueue.Len pq - 1 = ((pq.length - 1 : Nat) : Int) := by
    unfold priorityQueue.Len; omega
  by_cases hlast : i = pq.length - 1
  · subst hlast
    obtain ⟨hp, hv3⟩ := Pop_spec hv (by omega)
    refine ⟨_, _, ?_, hv3, KeyEq.setIdx _ _ _, ?_, ?_⟩
    · unfold heap.Remove
      simp only [e, Option.bind_eq_bind, ne_eq, not_true_eq_false, if_false,
        Option.pure_def, Option.some_bind]
      exact hp
    · rw [take_append_last pq (by omega)]
    · have hkk : KeyEq m (setIdx m (nth pq (pq.length - 1)) (-1)) := KeyEq.setIdx _ _ _
      apply Heap_take _ (by omega)
      rw [hkk.ltM_eq]
      intro k hk0 hkn
      exact hh k hk0 (by omega)
  · have hin : i < pq.length - 1 := by omega
    obtain ⟨m1, hs, hv1, hk1⟩ := Swap_spec hv hi hn
    have hl1 : (swapL pq i (pq.length - 1)).length = pq.length := length_swapL _ _ _
    obtain ⟨m2, hsf, hv2, hk2⟩ := sift_spec i (pq.length - 1) hv1 (by omega) hin
    rw [hk1.ltM_eq] at hsf hv2
    generalize hl2 : siftL (ltM m) (pq.length - 1) (swapL pq i (pq.length - 1)) i = r at hsf hv2
    have hlen2 : r.length = pq.length := by rw [← hl2, length_siftL, hl1]
    have hperm2 : r.Perm pq := by
      rw [← hl2]
      exact (siftL_perm _ _ _ _ (by omega) hin).trans (swapL_perm pq _ _ hi hn)
    have hlst : nth r (pq.length - 1) = nth pq i := by
      rw [← hl2, nth_siftL_of_ge _ _ _ _ (by omega) hin _ (Nat.le_refl _),
        nth_swapL pq _ _ _ hi hn]
      simp
    obtain ⟨hp, hv3⟩ := Pop_spec hv2 (by omega)
    rw [hlen2, hlst] at hp hv3
    refine ⟨_, _, ?_, hv3, (hk1.trans hk2).trans (KeyEq.setIdx _ _ _), ?_, ?_⟩
    · unfold heap.Remove
      have hne : ¬ ((pq.length - 1 : Nat) : Int) = (i : Int) := by omega
      simp only [e, Option.bind_eq_bind, ne_eq, hne, not_false_eq_true, if_true,
        Option.pure_def]
      rw [hs]
      simp only [Option.some_bind]
      rw [show (((heap.down m1 (swapL pq i (pq.length - 1)) (i : Int)
          ((pq.length - 1 : Nat) : Int)).bind fun r =>
            if (!r.1) = true then heap.up (r.2.2.length + 1) r.2.1 r.2.2 (i : Int)
            else some (r.2.1, r.2.2)) = some (m2, r)) from hsf]
      simp only [Option.some_bind]
      exact hp
    · have := take_append_last r (by omega)
      rw [hlen2, hlst] at this
      rw [this]
      exact hperm2
    · have hkk : KeyEq m (setIdx m2 (nth pq i) (-1)) :=
        (hk1.trans hk2).trans (KeyEq.setIdx _ _ _)
      have hpre : DownPre (ltM m) (swapL pq i (pq.length - 1)) (pq.length - 1) i := by
        constructor
        · intro k hk0 hkn hki hpk
          rw [nth_swapL pq _ _ k hi hn, nth_swapL pq _ _ _ hi hn]
          have a : ¬ k = pq.length - 1 := by omega
          have c : ¬ (k - 1) / 2 = pq.length - 1 := by omega
          simp only [a, hki, c, hpk, if_false]
          exact hh k hk0 (by omega)
        · intro k hk0 hkn hpk h0
          rw [nth_swapL pq _ _ k hi hn, nth_swapL pq _ _ _ hi hn]
          have a : ¬ k = pq.length - 1 := by omega
          have b : ¬ k = i := by omega
          have c : ¬ (i - 1) / 2 = pq.length - 1 := by omega
          have d : ¬ (i - 1) / 2 = i := by omega
          simp only [a, b, c, d, if_false]
          have h1 := hh k hk0 (by omega)
          rw [hpk] at h1
          exact (ltM_strictWeak m).negTrans _ _ _ (hh i h0 hi) h1
      have hheap : isHeapN (ltM (setIdx m2 (nth pq i) (-1))) r (pq.length - 1) := by
        rw [hkk.ltM_eq, ← hl2]
        exact siftL_heap (ltM_strictWeak m) _ _ _ (by omega) hin hpre
      exact Heap_take hheap (by omega)

/-! ## The queue invariant -/

theorem lookup_mem {l : List (String × Nat)} {a : String} {b : Nat}
    (h : l.lookup a = some b) : (a, b) ∈ l := by
  induction l with
  | nil => simp at h
  | cons x l ih =>
    obtain ⟨k, v⟩ := x
    rw [List.lookup_cons] at h
    by_cases hk : a = k
    · subst hk
      simp at h
      subst h
      exact List.mem_cons_self _ _
    · have : (a == k) = false := by simpa using hk
      rw [this] at h
      exact List.mem_cons_of_mem _ (ih h)

theorem mem_lookup {l : List (String × Nat)} {a : String} {b : Nat}
    (hn : (l.map Prod.fst).Nodup) (h : (a, b) ∈ l) : l.lookup a = some b := by
  induction l with
  | nil => simp at h
  | cons x l ih =>
    obtain ⟨k, v⟩ := x
    simp only [List.map_cons, List.nodup_cons] at hn
    rw [List.lookup_cons]
    rcases List.mem_cons.1 h with h1 | h1
    · simp only [Prod.mk.injEq] at h1
      obtain ⟨rfl, rfl⟩ := h1
      simp
    · have hk : a ≠ k := by
        intro e
        subst e
        exact hn.1 (List.mem_map.2 ⟨(a, b), h1, rfl⟩)
      have : (a == k) = false := by simpa using hk
      rw [this]
      exact ih hn.2 h1

theorem lookup_none_not_mem {l : List (String × Nat)} {a : String}
    (h : l.lookup a = none) : a ∉ l.map Prod.fst := by
  intro hm
  obtain ⟨⟨k, v⟩, hkv, e⟩ := List.mem_map.1 hm
  simp only at e
  subst e
  rw [List.lookup_eq_none_iff] at h
  have := h _ hkv
  simp at this

theorem lookup_filter_ne (l : List (String × Nat)) (name a : String) :
    (l.filter fun kv => kv.1 ≠ name).lookup a = if a = name then none else l.lookup a := by
  induction l with
  | nil => simp
  | cons x l ih =>
    obtain ⟨k, v⟩ := x
    by_cases hk : k = name
    · subst hk
      rw [List.filter_cons_of_neg (by simp), ih]
      by_cases ha : a = k
      · simp [ha]
      · have : (a == k) = false := by simpa using ha
        simp [ha, List.lookup_cons, this]
    · rw [List.filter_cons_of_pos (by simpa using hk), List.lookup_cons, List.lookup_cons, ih]
      by_cases ha : a = name
      · have hak : (a == k) = false := by
          simp only [beq_eq_false_iff_ne, ne_eq]
          intro e; exact hk (e.symm.trans ha)
        simp [ha, hak]
        rw [ha] at hak
        simp [hak]
      · simp [ha]

theorem Valid.nodup {m : Mem} {pq : priorityQueue} (h : Valid m pq) : pq.Nodup := by
  rw [List.nodup_iff_injective_get]
  intro a b hab
  apply Fin.ext
  apply h.inj a.2 b.2
  unfold nth
  rw [List.getD_eq_getElem _ _ a.2, List.getD_eq_getElem _ _ b.2]
  simpa using hab

theorem entryAt_append_left (m : Mem) (e : jobQueueEntry) {p : Nat} (h : p < m.length) :
    entryAt (m ++ [e]) p = entryAt m p := by
  unfold entryAt
  simp [List.getElem?_append_left h]

theorem entryAt_append_last (m : Mem) (e : jobQueueEntry) :
    entryAt (m ++ [e]) m.length = e := by
  unfold entryAt
  simp

theorem key_name (e : jobQueueEntry) : e.key.name = e.name := rfl
theorem key_status (e : jobQueueEntry) : e.key.status = e.status := rfl
theorem key_deadline (e : jobQueueEntry) : e.key.deadline = e.deadline := rfl
theorem key_token (e : jobQueueEntry) : e.key.token = e.token := rfl
theorem key_level (e : jobQueueEntry) : e.key.level = e.level := rfl
theorem key_proto (e : jobQueueEntry) : e.key.proto = e.proto := rfl

theorem eq_of_key_eq {a b : jobQueueEntry} (h : a.key = b.key) :
    a.name = b.name ∧ a.status = b.status ∧ a.deadline = b.deadline ∧ a.token = b.token ∧
      a.level = b.level ∧ a.proto = b.proto ∧ a.shard = b.shard ∧ a.tenant = b.tenant := by
  have h1 : a.key.name = b.key.name := by rw [h]
  have h2 : a.key.status = b.key.status := by rw [h]
  have h3 : a.key.deadline = b.key.deadline := by rw [h]
  have h4 : a.key.token = b.key.token := by rw [h]
  have h5 : a.key.level = b.key.level := by rw [h]
  have h6 : a.key.proto = b.key.proto := by rw [h]
  have h7 : a.key.shard = b.key.shard := by rw [h]
  have h8 : a.key.tenant = b.key.tenant := by rw [h]
  exact ⟨h1, h2, h3, h4, h5, h6, h7, h8⟩

theorem KeyEq.set {m m' : Mem} (h : KeyEq m m') (p : Nat) {e e' : jobQueueEntry}
    (he : e'.key = e.key) : KeyEq (m.set p e) (m'.set p e') := by
  refine ⟨by simp [h.1], ?_⟩
  intro q
  rw [entryAt_set, entryAt_set, h.1]
  split_ifs
  · exact he
  · exact h.2 q

theorem ltM_set_of_ne (m : Mem) (p : Nat) (e : jobQueueEntry) {a b : Nat} (ha : a ≠ p)
    (hb : b ≠ p) : ltM (m.set p e) a b = ltM m a b := by
  unfold ltM
  rw [entryAt_set, entryAt_set]
  simp [ha, hb]

theorem Inv.addr_lt {q : jobQueue} (hI : Inv q) {name : String} {p : Nat}
    (h : (name, p) ∈ q.jobs) : p < q.mem.length := by
  obtain ⟨k, hk, e⟩ := exists_nth_of_mem ((hI.mem_pq p).2 ⟨name, h⟩)
  rw [← e]
  exact (hI.valid k hk).1

theorem Inv.entry_eq {q : jobQueue} (hI : Inv q) (name : String) :
    q.entry name = (q.jobs.lookup name).map (entryAt q.mem) := by
  unfold jobQueue.entry
  cases h : q.jobs.lookup name with
  | none => rfl
  | some p =>
    simp only [Option.some_bind, Option.map_some']
    exact deref_of_lt (hI.addr_lt (lookup_mem h))

/-! ## Specifications of the queue operations -/

theorem newJobQueue_eq (lease : Int) :
    newJobQueue lease = some { mem := [], jobs := [], pq := [], lease := lease } := rfl

theorem Inv_empty (lease : Int) : Inv { mem := [], jobs := [], pq := [], lease := lease } where
  valid := fun k hk => by simp at hk
  heap := fun k _ hk => by simp at hk
  keys := List.nodup_nil
  mem_pq := fun p => by simp
  names := fun name p h => by simp at h
  status := fun p h => by simp at h

theorem load_status (job : CompactionJob) :
    (jobQueueEntry.load job).status = jobStatusInitial ∨
      (jobQueueEntry.load job).status = jobStatusInProgress := by
  unfold jobQueueEntry.load
  simp only
  split_ifs
  · exact Or.inr rfl
  · exact Or.inl rfl

theorem enqueue_dup {q : jobQueue} {job : CompactionJob} {p : Nat}
    (h : q.jobs.lookup job.Name = some p) : q.enqueue job = some (false, q) := by
  unfold jobQueue.enqueue
  rw [h]
  rfl

theorem enqueue_new {q : jobQueue} (hI : Inv q) {job : CompactionJob}
    (h : q.jobs.lookup job.Name = none) :
    ∃ q', q.enqueue job = some (true, q') ∧ Inv q' ∧
      q'.jobs = (job.Name, q.mem.length) :: q.jobs ∧ q'.lease = q.lease ∧
      KeyEq (q.mem ++ [jobQueueEntry.load job]) q'.mem ∧
      q'.pq.Perm (q.pq ++ [q.mem.length]) := by
  have hlt : ∀ p, p ∈ q.pq → p < q.mem.length := by
    intro p hp
    obtain ⟨k, hk, e⟩ := exists_nth_of_mem hp
    rw [← e]; exact (hI.valid k hk).1
  have hnot : q.mem.length ∉ q.pq := fun hp => Nat.lt_irrefl _ (hlt _ hp)
  have hv1 : Valid (q.mem ++ [jobQueueEntry.load job]) q.pq := by
    intro k hk
    have := hI.valid k hk
    rw [entryAt_append_left _ _ this.1]
    exact ⟨by simp; omega, this.2⟩
  have hh1 : Heap (q.mem ++ [jobQueueEntry.load job]) q.pq := by
    apply isHeapN_congr _ hI.heap
    intro a b ha hb
    unfold ltM
    rw [entryAt_append_left _ _ (hI.valid a ha).1, entryAt_append_left _ _ (hI.valid b hb).1]
  obtain ⟨m2, pq2, hp, hv2, hk2, hperm, hh2⟩ :=
    heap_Push_spec (x := q.mem.length) hv1 (by simp) hnot hh1
  refine ⟨{ q with mem := m2, jobs := (job.Name, q.mem.length) :: q.jobs, pq := pq2 },
    ?_, ?_, rfl, rfl, hk2, hperm⟩
  · unfold jobQueue.enqueue
    rw [h]
    simp only [Option.bind_eq_bind, Option.pure_def]
    rw [hp]
    rfl
  · have hmem : ∀ p, p ∈ pq2 ↔ p ∈ q.pq ∨ p = q.mem.length := by
      intro p
      rw [hperm.mem_iff]
      simp
    have hkey : ∀ p, p < q.mem.length → (entryAt m2 p).key = (entryAt q.mem p).key := by
      intro p hp
      rw [hk2.2 p, entryAt_append_left _ _ hp]
    have hkeyNew : (entryAt m2 q.mem.length).key = (jobQueueEntry.load job).key := by
      rw [hk2.2, entryAt_append_last]
    constructor
    · exact hv2
    · exact hh2
    · simp only [List.map_cons, List.nodup_cons]
      exact ⟨lookup_none_not_mem h, hI.keys⟩
    · intro p
      simp only
      rw [hmem, hI.mem_pq]
      constructor
      · rintro (⟨name, hn⟩ | rfl)
        · exact ⟨name, List.mem_cons_of_mem _ hn⟩
        · exact ⟨job.Name, List.mem_cons_self _ _⟩
      · rintro ⟨name, hn⟩
        rcases List.mem_cons.1 hn with e | hn
        · simp only [Prod.mk.injEq] at e
          exact Or.inr e.2
        · exact Or.inl ⟨name, hn⟩
    · intro name p hn
      simp only at hn ⊢
      rcases List.mem_cons.1 hn with e | hn
      · simp only [Prod.mk.injEq] at e
        obtain ⟨rfl, rfl⟩ := e
        obtain ⟨h1, _, _, _, _, h6, _⟩ := eq_of_key_eq hkeyNew
        rw [h1, h6]
        exact ⟨rfl, rfl⟩
      · obtain ⟨h1, _, _, _, _, h6, _⟩ := eq_of_key_eq (hkey p (hI.addr_lt hn))
        rw [h1, h6]
        exact hI.names name p hn
    · intro p hp
      simp only at hp ⊢
      rcases (hmem p).1 hp with hp | rfl
      · obtain ⟨_, h2, _⟩ := eq_of_key_eq (hkey p (hlt p hp))
        rw [h2]
        exact hI.status p hp
      · obtain ⟨_, h2, _⟩ := eq_of_key_eq hkeyNew
        rw [h2]
        exact load_status job

theorem dequeue_empty {q : jobQueue} (h : q.pq = []) (now : Int) (token : Nat) :
    q.dequeue now token = some (none, q) := by
  unfold jobQueue.dequeue priorityQueue.Len
  rw [h]
  rfl

theorem dequeue_blocked {q : jobQueue} (hI : Inv q) (hne : q.pq ≠ []) {now : Int}
    (token : Nat)
    (hb : (entryAt q.mem (nth q.pq 0)).status = jobStatusInProgress ∧
      now ≤ (entryAt q.mem (nth q.pq 0)).deadline) :
    q.dequeue now token = some (none, q) := by
  have hpos : 0 < q.pq.length := List.length_pos.2 hne
  have hlen : priorityQueue.Len q.pq > 0 := by unfold priorityQueue.Len; omega
  have hidx := idx_natCast hpos
  rw [Nat.cast_zero] at hidx
  unfold jobQueue.dequeue
  rw [if_pos hlen, hidx]
  simp only [Option.bind_eq_bind, Option.some_bind]
  rw [deref_of_lt (hI.valid 0 hpos).1]
  simp only [Option.some_bind]
  rw [if_pos hb]
  rfl

theorem dequeue_assign {q : jobQueue} (hI : Inv q) (hne : q.pq ≠ []) {now : Int}
    (token : Nat)
    (hb : ¬ ((entryAt q.mem (nth q.pq 0)).status = jobStatusInProgress ∧
      now ≤ (entryAt q.mem (nth q.pq 0)).deadline)) :
    ∃ q', q.dequeue now token =
        some (some { (entryAt q.mem (nth q.pq 0)).proto with CommitIndex := token }, q') ∧
      Inv q' ∧ q'.jobs = q.jobs ∧ q'.lease = q.lease ∧ q'.pq.Perm q.pq ∧
      KeyEq (q.mem.set (nth q.pq 0)
        ((entryAt q.mem (nth q.pq 0)).assign (wrapInt64 (now + q.lease)) token)) q'.mem := by
  have hpos : 0 < q.pq.length := List.length_pos.2 hne
  have hlen : priorityQueue.Len q.pq > 0 := by unfold priorityQueue.Len; omega
  have hidx := idx_natCast hpos
  rw [Nat.cast_zero] at hidx
  generalize hp : nth q.pq 0 = p at *
  have hpm : p < q.mem.length := by rw [← hp]; exact (hI.valid 0 hpos).1
  obtain ⟨m1, pq1, hpop, hv1, hk1, hperm1, hh1⟩ := heap_Pop_spec hI.valid hpos hI.heap
  rw [hp] at hpop hperm1
  have hnd : (pq1 ++ [p]).Nodup := hperm1.nodup_iff.2 hI.valid.nodup
  have hnot : p ∉ pq1 := by
    intro hm
    have := List.nodup_append.1 hnd
    exact this.2.2 hm (List.mem_singleton_self p)
  have hpm1 : p < m1.length := by rw [hk1.1]; exact hpm
  generalize he' : (entryAt m1 p).assign (wrapInt64 (now + q.lease)) token = e1
  have hkey1 : e1.key =
      ((entryAt q.mem p).assign (wrapInt64 (now + q.lease)) token).key := by
    obtain ⟨a1, a2, a3, a4, a5, a6, a7, a8⟩ := eq_of_key_eq (hk1.2 p)
    rw [← he']
    unfold jobQueueEntry.assign jobQueueEntry.key
    simp only [a1, a5, a6, a7, a8]
  have hv2 : Valid (m1.set p e1) pq1 := by
    intro k hk
    have hne : nth pq1 k ≠ p := fun h => hnot (h ▸ nth_mem hk)
    rw [entryAt_set]
    simp only [hne, false_and, if_false, List.length_set]
    exact hv1 k hk
  have hh2 : Heap (m1.set p e1) pq1 := by
    apply isHeapN_congr _ hh1
    intro a b ha hb
    exact ltM_set_of_ne _ _ _ (fun h => hnot (h ▸ nth_mem ha)) (fun h => hnot (h ▸ nth_mem hb))
  obtain ⟨m3, pq3, hpush, hv3, hk3, hperm3, hh3⟩ :=
    heap_Push_spec (x := p) hv2 (by simpa using hpm1) hnot hh2
  have hkk : KeyEq (q.mem.set p
      ((entryAt q.mem p).assign (wrapInt64 (now + q.lease)) token)) m3 :=
    (hk1.set p hkey1).trans hk3
  have hpm3 : p < m3.length := by rw [hkk.1]; simpa using hpm
  have hkp : (entryAt m3 p).key =
      ((entryAt q.mem p).assign (wrapInt64 (now + q.lease)) token).key := by
    rw [hkk.2 p, entryAt_set]
    simp [hpm]
  refine ⟨{ q with mem := m3, pq := pq3 }, ?_, ?_, rfl, rfl, hperm3.trans hperm1, hkk⟩
  · unfold jobQueue.dequeue
    rw [if_pos hlen, hidx]
    simp only [Option.bind_eq_bind, Option.some_bind]
    rw [deref_of_lt hpm]
    simp only [Option.some_bind]
    rw [if_neg hb, hpop]
    simp only [Option.some_bind]
    rw [deref_of_lt hpm1]
    simp only [Option.some_bind]
    have hset : m1.set p
        { entryAt m1 p with
          deadline := wrapInt64 (now + q.lease)
          status := jobStatusInProgress
          token := token
          proto := { (entryAt m1 p).proto with CommitIndex := token } } = m1.set p e1 := by
      rw [← he']; rfl
    rw [hset, hpush]
    simp only [Option.some_bind]
    rw [deref_of_lt hpm3]
    simp only [Option.some_bind, Option.pure_def, Option.some.injEq, Prod.mk.injEq, and_true]
    have := (eq_of_key_eq hkp).2.2.2.2.2.1
    rw [this]
    rfl
  · have hmem : ∀ p', p' ∈ pq3 ↔ p' ∈ q.pq := fun p' => (hperm3.trans hperm1).mem_iff
    have hkey : ∀ p', p' ≠ p → (entryAt m3 p').key = (entryAt q.mem p').key := by
      intro p' hp'
      rw [hkk.2 p', entryAt_set]
      simp [hp']
    constructor
    · exact hv3
    · exact hh3
    · exact hI.keys
    · intro p'
      simp only
      rw [hmem, hI.mem_pq]
    · intro name p' hn
      simp only at hn ⊢
      by_cases hpp : p' = p
      · subst hpp
        obtain ⟨h1, _, _, _, _, h6, _⟩ := eq_of_key_eq hkp
        rw [h1, h6]
        exact hI.names name p' hn
      · obtain ⟨h1, _, _, _, _, h6, _⟩ := eq_of_key_eq (hkey p' hpp)
        rw [h1, h6]
        exact hI.names name p' hn
    · intro p' hp'
      simp only at hp' ⊢
      by_cases hpp : p' = p
      · subst hpp
        obtain ⟨_, h2, _⟩ := eq_of_key_eq hkp
        rw [h2]
        exact Or.inr rfl
      · obtain ⟨_, h2, _⟩ := eq_of_key_eq (hkey p' hpp)
        rw [h2]
        exact hI.status p' ((hmem p').1 hp')

theorem update_absent {q : jobQueue} {name : String} (h : q.jobs.lookup name = none)
    (now : Int) (token : Nat) : q.update name now token = some (false, q) := by
  unfold jobQueue.update
  rw [h]
  rfl

theorem update_stale {q : jobQueue} (hI : Inv q) {name : String} {p : Nat}
    (h : q.jobs.lookup name = some p) (now : Int) {token : Nat}
    (hs : (entryAt q.mem p).token > token) : q.update name now token = some (false, q) := by
  unfold jobQueue.update
  rw [h]
  simp only [Option.bind_eq_bind]
  rw [deref_of_lt (hI.addr_lt (lookup_mem h))]
  simp only [Option.some_bind]
  rw [if_pos hs]
  rfl

theorem update_ok {q : jobQueue} (hI : Inv q) {name : String} {p : Nat}
    (h : q.jobs.lookup name = some p) (now : Int) {token : Nat}
    (hs : ¬ (entryAt q.mem p).token > token) :
    ∃ q', q.update name now token = some (true, q') ∧ Inv q' ∧ q'.jobs = q.jobs ∧
      q'.lease = q.lease ∧ q'.pq.Perm q.pq ∧
      KeyEq (q.mem.set p ((entryAt q.mem p).renew (wrapInt64 (now + q.lease)))) q'.mem := by
  have hpm : p < q.mem.length := hI.addr_lt (lookup_mem h)
  obtain ⟨k, hk, hkp⟩ := exists_nth_of_mem ((hI.mem_pq p).2 ⟨name, lookup_mem h⟩)
  have hidx : (entryAt q.mem p).index = (k : Int) := by rw [← hkp]; exact (hI.valid k hk).2
  generalize he1 : (entryAt q.mem p).renew (wrapInt64 (now + q.lease)) = e1
  have hidx1 : e1.index = (k : Int) := by rw [← he1]; exact hidx
  have hat1 : entryAt (q.mem.set p e1) p = e1 := by rw [entryAt_set]; simp [hpm]
  have hv1 : Valid (q.mem.set p e1) q.pq := by
    intro k' hk'
    rw [entryAt_set]
    simp only [List.length_set]
    refine ⟨(hI.valid k' hk').1, ?_⟩
    split_ifs with hc
    · have : k' = k := hI.valid.inj hk' hk (hc.1.trans hkp.symm)
      rw [this]; exact hidx1
    · exact (hI.valid k' hk').2
  have hne : ∀ k', k' < q.pq.length → k' ≠ k → nth q.pq k' ≠ p := by
    intro k' hk' hkk e
    exact hkk (hI.valid.inj hk' hk (e.trans hkp.symm))
  have hpre : DownPre (ltM (q.mem.set p e1)) q.pq q.pq.length k := by
    constructor
    · intro k' hk0 hkn hkk hpk
      rw [ltM_set_of_ne _ _ _ (hne k' hkn hkk) (hne _ (by omega) hpk)]
      exact hI.heap k' hk0 hkn
    · intro k' hk0 hkn hpk h0
      rw [ltM_set_of_ne _ _ _ (hne k' hkn (by omega)) (hne _ (by omega) (by omega))]
      have h1 := hI.heap k' hk0 hkn
      rw [hpk] at h1
      exact (ltM_strictWeak q.mem).negTrans _ _ _ (hI.heap k h0 hk) h1
  obtain ⟨m2, pq2, hfix, hv2, hk2, hperm, hh2⟩ := heap_Fix_spec hv1 hk hpre
  have hkp2 : (entryAt m2 p).key = e1.key := by rw [hk2.2 p, hat1]
  refine ⟨{ q with mem := m2, pq := pq2 }, ?_, ?_, rfl, rfl, hperm, hk2⟩
  · unfold jobQueue.update
    rw [h]
    simp only [Option.bind_eq_bind]
    rw [deref_of_lt hpm]
    simp only [Option.some_bind]
    rw [if_neg hs]
    have hset : q.mem.set p
        { entryAt q.mem p with
          deadline := wrapInt64 (now + q.lease)
          status := jobStatusInProgress } = q.mem.set p e1 := by
      rw [← he1]; rfl
    rw [hset, deref_of_lt (by simpa using hpm), hat1]
    simp only [Option.some_bind]
    rw [hidx1, hfix]
    rfl
  · have hmem : ∀ p', p' ∈ pq2 ↔ p' ∈ q.pq := fun p' => hperm.mem_iff
    have hkey : ∀ p', p' ≠ p → (entryAt m2 p').key = (entryAt q.mem p').key := by
      intro p' hp'
      rw [hk2.2 p', entryAt_set]
      simp [hp']
    constructor
    · exact hv2
    · exact hh2
    · exact hI.keys
    · intro p'
      simp only
      rw [hmem, hI.mem_pq]
    · intro name' p' hn
      simp only at hn ⊢
      by_cases hpp : p' = p
      · subst hpp
        obtain ⟨h1, _, _, _, _, h6, _⟩ := eq_of_key_eq hkp2
        rw [h1, h6, ← he1]
        exact hI.names name' p' hn
      · obtain ⟨h1, _, _, _, _, h6, _⟩ := eq_of_key_eq (hkey p' hpp)
        rw [h1, h6]
        exact hI.names name' p' hn
    · intro p' hp'
      simp only at hp' ⊢
      by_cases hpp : p' = p
      · subst hpp
        obtain ⟨_, h2, _⟩ := eq_of_key_eq hkp2
        rw [h2, ← he1]
        exact Or.inr rfl
      · obtain ⟨_, h2, _⟩ := eq_of_key_eq (hkey p' hpp)
        rw [h2]
        exact hI.status p' ((hmem p').1 hp')

theorem evict_absent {q : jobQueue} {name : String} (h : q.jobs.lookup name = none)
    (token : Nat) : q.evict name token = some (true, q) := by
  unfold jobQueue.evict
  rw [h]
  rfl

theorem evict_stale {q : jobQueue} (hI : Inv q) {name : String} {p : Nat}
    (h : q.jobs.lookup name = some p) {token : Nat}
    (hs : (entryAt q.mem p).token > token) : q.evict name token = some (false, q) := by
  unfold jobQueue.evict
  rw [h]
  simp only [Option.bind_eq_bind]
  rw [deref_of_lt (hI.addr_lt (lookup_mem h))]
  simp only [Option.some_bind]
  rw [if_pos hs]
  rfl

theorem evict_ok {q : jobQueue} (hI : Inv q) {name : String} {p : Nat}
    (h : q.jobs.lookup name = some p) {token : Nat}
    (hs : ¬ (entryAt q.mem p).token > token) :
    ∃ q', q.evict name token = some (true, q') ∧ Inv q' ∧
      q'.jobs = q.jobs.filter (fun kv => kv.1 ≠ name) ∧
      q'.lease = q.lease ∧ (q'.pq ++ [p]).Perm q.pq ∧ KeyEq q.mem q'.mem := by
  have hpm : p < q.mem.length := hI.addr_lt (lookup_mem h)
  obtain ⟨k, hk, hkp⟩ := exists_nth_of_mem ((hI.mem_pq p).2 ⟨name, lookup_mem h⟩)
  have hidx : (entryAt q.mem p).index = (k : Int) := by rw [← hkp]; exact (hI.valid k hk).2
  obtain ⟨m1, pq1, hrem, hv1, hk1, hperm, hh1⟩ := heap_Remove_spec hI.valid hk hI.heap
  rw [hkp] at hrem hperm
  have hnd : (pq1 ++ [p]).Nodup := hperm.nodup_iff.2 hI.valid.nodup
  have hnot : p ∉ pq1 := by
    intro hm
    exact (List.nodup_append.1 hnd).2.2 hm (List.mem_singleton_self p)
  have hmem : ∀ p', p' ∈ pq1 ↔ p' ∈ q.pq ∧ p' ≠ p := by
    intro p'
    rw [← hperm.mem_iff]
    simp only [List.mem_append, List.mem_singleton]
    constructor
    · intro hm
      exact ⟨Or.inl hm, fun e => hnot (e ▸ hm)⟩
    · rintro ⟨hm | hm, hne⟩
      · exact hm
      · exact absurd hm hne
  refine ⟨{ q with mem := m1, jobs := q.jobs.filter (fun kv => kv.1 ≠ name), pq := pq1 },
    ?_, ?_, rfl, rfl, hperm, hk1⟩
  · unfold jobQueue.evict
    rw [h]
    simp only [Option.bind_eq_bind]
    rw [deref_of_lt hpm]
    simp only [Option.some_bind]
    rw [if_neg hs]
    rw [hidx, hrem]
    rfl
  · constructor
    · exact hv1
    · exact hh1
    · exact (List.filter_sublist _).map Prod.fst |>.nodup hI.keys
    · intro p'
      simp only
      rw [hmem, hI.mem_pq]
      constructor
      · rintro ⟨⟨name', hn⟩, hne⟩
        refine ⟨name', List.mem_filter.2 ⟨hn, ?_⟩⟩
        simp only [ne_eq, decide_not, Bool.not_eq_true', decide_eq_false_iff_not]
        intro e
        subst e
        exact hne (Option.some.inj ((mem_lookup hI.keys hn).symm.trans h))
      · rintro ⟨name', hn⟩
        obtain ⟨hn1, hn2⟩ := List.mem_filter.1 hn
        refine ⟨⟨name', hn1⟩, ?_⟩
        intro e
        subst e
        have h1 := (hI.names name' p' hn1).1
        have h2 := (hI.names name p' (lookup_mem h)).1
        simp only [ne_eq, decide_not, Bool.not_eq_true', decide_eq_false_iff_not] at hn2
        exact hn2 (h1.symm.trans h2)
    · intro name' p' hn
      simp only at hn ⊢
      obtain ⟨hn1, _⟩ := List.mem_filter.1 hn
      obtain ⟨h1, _, _, _, _, h6, _⟩ := eq_of_key_eq (hk1.2 p')
      rw [h1, h6]
      exact hI.names name' p' hn1
    · intro p' hp'
      simp only at hp' ⊢
      obtain ⟨_, h2, _⟩ := eq_of_key_eq (hk1.2 p')
      rw [h2]
      exact hI.status p' ((hmem p').1 hp').1

/-! ## Executions -/

theorem Inv.lookup_of_mem_pq {q : jobQueue} (hI : Inv q) {p : Nat} (hp : p ∈ q.pq) :
    q.jobs.lookup (entryAt q.mem p).name = some p := by
  obtain ⟨name, hn⟩ := (hI.mem_pq p).1 hp
  rw [(hI.names name p hn).1]
  exact mem_lookup hI.keys hn

theorem Inv.lookup_name {q : jobQueue} (hI : Inv q) {name : String} {p : Nat}
    (h : q.jobs.lookup name = some p) : (entryAt q.mem p).name = name :=
  (hI.names name p (lookup_mem h)).1

theorem Inv.view_eq {q : jobQueue} (hI : Inv q) (name : String) :
    q.view name = (q.jobs.lookup name).map fun p => (entryAt q.mem p).key := by
  unfold jobQueue.view
  rw [hI.entry_eq]
  cases q.jobs.lookup name <;> rfl

/-- The views after an operation that rewrites the entry at address `p`. -/
theorem view_of_set {q q' : jobQueue} (hI : Inv q) (hI' : Inv q') (hj : q'.jobs = q.jobs)
    {name0 : String} {p : Nat} (h0 : q.jobs.lookup name0 = some p) {e' : jobQueueEntry}
    (hk : KeyEq (q.mem.set p e') q'.mem) (n : String) :
    q'.view n = if n = name0 then some e'.key else q.view n := by
  have hpm : p < q.mem.length := hI.addr_lt (lookup_mem h0)
  rw [hI'.view_eq, hI.view_eq, hj]
  by_cases hn : n = name0
  · subst hn
    rw [h0]
    simp only [Option.map_some', if_true]
    rw [hk.2 p, entryAt_set]
    simp [hpm]
  · simp only [hn, if_false]
    cases h : q.jobs.lookup n with
    | none => rfl
    | some p' =>
      simp only [Option.map_some']
      have hne : p' ≠ p := by
        intro e
        subst e
        exact hn ((hI.lookup_name h).symm.trans (hI.lookup_name h0))
      rw [hk.2 p', entryAt_set]
      simp [hne]

theorem view_enqueue_new {q q' : jobQueue} (hI : Inv q) (hI' : Inv q') {job : CompactionJob}
    (hj : q'.jobs = (job.Name, q.mem.length) :: q.jobs)
    (hk : KeyEq (q.mem ++ [jobQueueEntry.load job]) q'.mem) (n : String) :
    q'.view n = if n = job.Name then some (jobQueueEntry.load job).key else q.view n := by
  rw [hI'.view_eq, hI.view_eq, hj, List.lookup_cons]
  by_cases hn : n = job.Name
  · subst hn
    simp only [beq_self_eq_true, Option.map_some', if_true]
    rw [hk.2, entryAt_append_last]
  · have : (n == job.Name) = false := by simpa using hn
    simp only [this, hn, if_false]
    cases h : q.jobs.lookup n with
    | none => rfl
    | some p' =>
      simp only [Option.map_some']
      rw [hk.2 p', entryAt_append_left _ _ (hI.addr_lt (lookup_mem h))]

theorem view_evict_ok {q q' : jobQueue} (hI : Inv q) (hI' : Inv q') {name : String}
    (hj : q'.jobs = q.jobs.filter (fun kv => kv.1 ≠ name)) (hk : KeyEq q.mem q'.mem)
    (n : String) : q'.view n = if n = name then none else q.view n := by
  rw [hI'.view_eq, hI.view_eq, hj, lookup_filter_ne]
  by_cases hn : n = name
  · simp [hn]
  · simp only [hn, if_false]
    cases h : q.jobs.lookup n with
    | none => rfl
    | some p' =>
      simp only [Option.map_some']
      rw [hk.2 p']

theorem dequeue_cases {q : jobQueue} (hI : Inv q) (now : Int) (token : Nat) :
    q.dequeue now token = some (none, q) ∧
      (q.pq = [] ∨ ((entryAt q.mem (nth q.pq 0)).status = jobStatusInProgress ∧
        now ≤ (entryAt q.mem (nth q.pq 0)).deadline)) ∨
    ∃ q', q.pq ≠ [] ∧
      ¬ ((entryAt q.mem (nth q.pq 0)).status = jobStatusInProgress ∧
        now ≤ (entryAt q.mem (nth q.pq 0)).deadline) ∧
      q.dequeue now token =
        some (some { (entryAt q.mem (nth q.pq 0)).proto with CommitIndex := token }, q') ∧
      Inv q' ∧ q'.jobs = q.jobs ∧ q'.lease = q.lease ∧ q'.pq.Perm q.pq ∧
      KeyEq (q.mem.set (nth q.pq 0)
        ((entryAt q.mem (nth q.pq 0)).assign (wrapInt64 (now + q.lease)) token)) q'.mem := by
  by_cases hne : q.pq = []
  · exact Or.inl ⟨dequeue_empty hne now token, Or.inl hne⟩
  · by_cases hb : (entryAt q.mem (nth q.pq 0)).status = jobStatusInProgress ∧
        now ≤ (entryAt q.mem (nth q.pq 0)).deadline
    · exact Or.inl ⟨dequeue_blocked hI hne token hb, Or.inr hb⟩
    · obtain ⟨q', h⟩ := dequeue_assign hI hne token hb
      exact Or.inr ⟨q', hne, hb, h⟩

theorem Inv.root_mem {q : jobQueue} (hne : q.pq ≠ []) : nth q.pq 0 ∈ q.pq :=
  nth_mem (List.length_pos.2 hne)

theorem step_spec {q q' : jobQueue} (hI : Inv q) {ev : Event} (h : ev.holds q q') :
    Inv q' ∧ q'.lease = q.lease ∧ ∀ n, q'.view n = ev.effect q.lease n (q.view n) := by
  cases ev with
  | enqueue job ok =>
    simp only [Event.holds] at h
    cases hl : q.jobs.lookup job.Name with
    | some p =>
      rw [enqueue_dup hl] at h
      simp only [Option.some.injEq, Prod.mk.injEq] at h
      obtain ⟨rfl, rfl⟩ := h
      exact ⟨hI, rfl, fun n => rfl⟩
    | none =>
      obtain ⟨q1, he, hI1, hj, hle, hk, _⟩ := enqueue_new hI hl
      rw [he] at h
      simp only [Option.some.injEq, Prod.mk.injEq] at h
      obtain ⟨rfl, rfl⟩ := h
      refine ⟨hI1, hle, fun n => ?_⟩
      rw [view_enqueue_new hI hI1 hj hk n]
      unfold Event.effect
      by_cases hn : n = job.Name
      · subst hn; simp
      · have : ¬ job.Name = n := fun e => hn e.symm
        simp [hn, this]
  | dequeue now token job =>
    simp only [Event.holds] at h
    rcases dequeue_cases hI now token with ⟨hd, _⟩ | ⟨q1, hne, hb, hd, hI1, hj, hle, _, hk⟩
    · rw [hd] at h
      simp only [Option.some.injEq, Prod.mk.injEq] at h
      obtain ⟨rfl, rfl⟩ := h
      exact ⟨hI, rfl, fun n => rfl⟩
    · rw [hd] at h
      simp only [Option.some.injEq, Prod.mk.injEq] at h
      obtain ⟨rfl, rfl⟩ := h
      refine ⟨hI1, hle, fun n => ?_⟩
      have hl := hI.lookup_of_mem_pq (Inv.root_mem hne)
      have hpn := (hI.names _ _ (lookup_mem hl)).2
      rw [view_of_set hI hI1 hj hl hk n]
      unfold Event.effect
      simp only [hpn]
      by_cases hn : n = (entryAt q.mem (nth q.pq 0)).name
      · subst hn
        rw [hI.view_eq, hl]
        simp only [if_true, Option.map_some']
        rfl
      · have : ¬ (entryAt q.mem (nth q.pq 0)).name = n := fun e => hn e.symm
        simp [hn, this]
  | update name now token ok =>
    simp only [Event.holds] at h
    cases hl : q.jobs.lookup name with
    | none =>
      rw [update_absent hl] at h
      simp only [Option.some.injEq, Prod.mk.injEq] at h
      obtain ⟨rfl, rfl⟩ := h
      exact ⟨hI, rfl, fun n => rfl⟩
    | some p =>
      by_cases hs : (entryAt q.mem p).token > token
      · rw [update_stale hI hl now hs] at h
        simp only [Option.some.injEq, Prod.mk.injEq] at h
        obtain ⟨rfl, rfl⟩ := h
        exact ⟨hI, rfl, fun n => rfl⟩
      · obtain ⟨q1, hu, hI1, hj, hle, _, hk⟩ := update_ok hI hl now hs
        rw [hu] at h
        simp only [Option.some.injEq, Prod.mk.injEq] at h
        obtain ⟨rfl, rfl⟩ := h
        refine ⟨hI1, hle, fun n => ?_⟩
        rw [view_of_set hI hI1 hj hl hk n]
        unfold Event.effect
        by_cases hn : n = name
        · subst hn
          rw [hI.view_eq, hl]
          simp only [if_true, Option.map_some']
          rfl
        · have : ¬ name = n := fun e => hn e.symm
          simp [hn, this]
  | evict name token ok =>
    simp only [Event.holds] at h
    cases hl : q.jobs.lookup name with
    | none =>
      rw [evict_absent hl] at h
      simp only [Option.some.injEq, Prod.mk.injEq] at h
      obtain ⟨rfl, rfl⟩ := h
      refine ⟨hI, rfl, fun n => ?_⟩
      unfold Event.effect
      by_cases hn : name = n
      · subst hn
        simp only [if_true]
        rw [hI.view_eq, hl]
        rfl
      · simp [hn]
    | some p =>
      by_cases hs : (entryAt q.mem p).token > token
      · rw [evict_stale hI hl hs] at h
        simp only [Option.some.injEq, Prod.mk.injEq] at h
        obtain ⟨rfl, rfl⟩ := h
        exact ⟨hI, rfl, fun n => rfl⟩
      · obtain ⟨q1, hu, hI1, hj, hle, _, hk⟩ := evict_ok hI hl hs
        rw [hu] at h
        simp only [Option.some.injEq, Prod.mk.injEq] at h
        obtain ⟨rfl, rfl⟩ := h
        refine ⟨hI1, hle, fun n => ?_⟩
        rw [view_evict_ok hI hI1 hj hk n]
        unfold Event.effect
        by_cases hn : n = name
        · simp [hn]
        · have : ¬ name = n := fun e => hn e.symm
          simp [hn, this]
  | peekEvict name token ok =>
    simp only [Event.holds] at h
    obtain ⟨_, rfl⟩ := h
    exact ⟨hI, rfl, fun n => rfl⟩

theorem Exec.preserves_inv {q q' : jobQueue} {evs : List Event} (h : Exec q evs q') (hI : Inv q) :
    Inv q' := by
  induction h with
  | nil q => exact hI
  | cons hev _ ih => exact ih (step_spec hI hev).1

theorem Exec.lease {q q' : jobQueue} {evs : List Event} (h : Exec q evs q') (hI : Inv q) :
    q'.lease = q.lease := by
  induction h with
  | nil q => rfl
  | cons hev _ ih =>
    rw [ih (step_spec hI hev).1]
    exact (step_spec hI hev).2.1

theorem Reachable.inv {q : jobQueue} (h : Reachable q) : Inv q := by
  obtain ⟨lease, q0, evs, h0, hex⟩ := h
  rw [newJobQueue_eq] at h0
  simp only [Option.some.injEq] at h0
  subst h0
  exact hex.preserves_inv (Inv_empty lease)

theorem Exec.append {q1 q2 q3 : jobQueue} {evs1 evs2 : List Event} (h1 : Exec q1 evs1 q2)
    (h2 : Exec q2 evs2 q3) : Exec q1 (evs1 ++ evs2) q3 := by
  induction h1 with
  | nil q => exact h2
  | cons hev _ ih => exact Exec.cons hev (ih h2)

theorem Reachable.exec {q q' : jobQueue} {evs : List Event} (h : Reachable q)
    (hex : Exec q evs q') : Reachable q' := by
  obtain ⟨lease, q0, evs0, h0, hex0⟩ := h
  exact ⟨lease, q0, evs0 ++ evs, h0, hex0.append hex⟩

/-! ## Entries by name -/

theorem Inv.entry_iff {q : jobQueue} (hI : Inv q) {n : String} {e : jobQueueEntry} :
    q.entry n = some e ↔ ∃ p, q.jobs.lookup n = some p ∧ entryAt q.mem p = e := by
  rw [hI.entry_eq]
  cases q.jobs.lookup n with
  | none => simp
  | some p => simp

theorem entry_of_view {q : jobQueue} {n : String} {v : jobQueueEntry}
    (h : q.view n = some v) : ∃ e, q.entry n = some e ∧ e.key = v := by
  unfold jobQueue.view at h
  cases he : q.entry n with
  | none => rw [he] at h; simp at h
  | some e =>
    rw [he] at h
    simp only [Option.map_some', Option.some.injEq] at h
    exact ⟨e, rfl, h⟩

theorem view_of_entry {q : jobQueue} {n : String} {e : jobQueueEntry}
    (h : q.entry n = some e) : q.view n = some e.key := by
  unfold jobQueue.view
  rw [h]
  rfl

theorem view_eq_none {q : jobQueue} {n : String} : q.view n = none ↔ q.entry n = none := by
  unfold jobQueue.view
  cases q.entry n <;> simp

theorem Inv.entry_name {q : jobQueue} (hI : Inv q) {n : String} {e : jobQueueEntry}
    (h : q.entry n = some e) : e.name = n ∧ e.proto.Name = n := by
  obtain ⟨p, hl, rfl⟩ := hI.entry_iff.1 h
  exact hI.names n p (lookup_mem hl)

theorem Inv.entry_status {q : jobQueue} (hI : Inv q) {n : String} {e : jobQueueEntry}
    (h : q.entry n = some e) :
    e.status = jobStatusInitial ∨ e.status = jobStatusInProgress := by
  obtain ⟨p, hl, rfl⟩ := hI.entry_iff.1 h
  exact hI.status p ((hI.mem_pq p).2 ⟨n, lookup_mem hl⟩)

theorem Inv.entry_pos {q : jobQueue} (hI : Inv q) {n : String} {e : jobQueueEntry}
    (h : q.entry n = some e) : ∃ k, k < q.pq.length ∧ entryAt q.mem (nth q.pq k) = e := by
  obtain ⟨p, hl, rfl⟩ := hI.entry_iff.1 h
  obtain ⟨k, hk, hkp⟩ := exists_nth_of_mem ((hI.mem_pq p).2 ⟨n, lookup_mem hl⟩)
  exact ⟨k, hk, by rw [hkp]⟩

theorem Inv.root_entry {q : jobQueue} (hI : Inv q) (hne : q.pq ≠ []) :
    q.entry (entryAt q.mem (nth q.pq 0)).name = some (entryAt q.mem (nth q.pq 0)) :=
  hI.entry_iff.2 ⟨_, hI.lookup_of_mem_pq (Inv.root_mem hne), rfl⟩

/-- No entry of the queue precedes the root of the heap. -/
theorem Inv.root_min_entry {q : jobQueue} (hI : Inv q) {n : String} {e : jobQueueEntry}
    (h : q.entry n = some e) : e.less (entryAt q.mem (nth q.pq 0)) = false := by
  obtain ⟨k, hk, rfl⟩ := hI.entry_pos h
  exact hI.heap.root_min (ltM_strictWeak q.mem) k hk

theorem name_eq_of_rank_eq {a b : jobQueueEntry} (h : a.rank = b.rank) : a.name = b.name := by
  unfold jobQueueEntry.rank at h
  simp only [EmbeddingLike.apply_eq_iff_eq, Prod.mk.injEq] at h
  exact h.2.2.2

/-- The root of the heap precedes every entry with another name. -/
theorem Inv.root_lt_entry {q : jobQueue} (hI : Inv q) {n : String} {e : jobQueueEntry}
    (h : q.entry n = some e) (hn : n ≠ (entryAt q.mem (nth q.pq 0)).name) :
    (entryAt q.mem (nth q.pq 0)).less e = true := by
  have h1 := hI.root_min_entry h
  rw [less_eq_false_iff] at h1
  rw [less_iff_rank]
  rcases lt_or_eq_of_le h1 with h2 | h2
  · exact h2
  · exact absurd ((hI.entry_name h).1.symm.trans (name_eq_of_rank_eq h2).symm) hn

theorem name_of_keyEq_set {m m' : Mem} {p : Nat} {e' : jobQueueEntry}
    (hk : KeyEq (m.set p e') m') (hn : e'.name = (entryAt m p).name) (p' : Nat) :
    (entryAt m' p').name = (entryAt m p').name := by
  rw [(eq_of_key_eq (hk.2 p')).1, entryAt_set]
  split_ifs with h
  · rw [hn, h.1]
  · rfl

theorem heapNames_perm {q q' : jobQueue} (hp : q'.pq.Perm q.pq)
    (hn : ∀ p, (entryAt q'.mem p).name = (entryAt q.mem p).name) :
    q'.heapNames.Perm q.heapNames := by
  unfold jobQueue.heapNames
  have : (fun p => (entryAt q'.mem p).name) = fun p => (entryAt q.mem p).name := funext hn
  rw [this]
  exact hp.map _

theorem rank_le_status_deadline {a b : jobQueueEntry} (h : a.rank ≤ b.rank) :
    a.status ≤ b.status ∧ (a.status = b.status → a.deadline ≤ b.deadline) := by
  unfold jobQueueEntry.rank at h
  rw [Prod.Lex.le_iff] at h
  rcases h with h | ⟨h1, h2⟩
  · exact ⟨le_of_lt h, fun e => absurd h (by rw [e]; exact lt_irrefl _)⟩
  · refine ⟨le_of_eq h1, fun _ => ?_⟩
    simp only at h2
    rw [Prod.Lex.le_iff] at h2
    rcases h2 with h2 | ⟨h2, _⟩
    · exact le_of_lt h2
    · exact le_of_eq h2

/-- When the root is InProgress with a live lease, so is every entry. -/
theorem Inv.all_blocked {q : jobQueue} (hI : Inv q) {now : Int}
    (hb : (entryAt q.mem (nth q.pq 0)).status = jobStatusInProgress ∧
      now ≤ (entryAt q.mem (nth q.pq 0)).deadline) {n : String} {e : jobQueueEntry}
    (h : q.entry n = some e) : e.status = jobStatusInProgress ∧ now ≤ e.deadline := by
  have h1 := hI.root_min_entry h
  rw [less_eq_false_iff] at h1
  obtain ⟨h2, h3⟩ := rank_le_status_deadline h1
  have hs : e.status = jobStatusInProgress := by
    rcases hI.entry_status h with h4 | h4
    · rw [hb.1, h4] at h2
      exact absurd h2 (by decide)
    · exact h4
  exact ⟨hs, le_trans hb.2 (h3 (hb.1.trans hs.symm))⟩

/-- What a `dequeue` that returns a job has done. -/
theorem dequeue_some_spec {q q' : jobQueue} (hI : Inv q) {now : Int} {token : Nat}
    {J : CompactionJob} (h : q.dequeue now token = some (some J, q')) :
    ∃ e, q.entry J.Name = some e ∧ e = entryAt q.mem (nth q.pq 0) ∧ q.pq ≠ [] ∧
      ¬ (e.status = jobStatusInProgress ∧ now ≤ e.deadline) ∧
      J = { e.proto with CommitIndex := token } ∧
      q'.view J.Name = some (e.assign (wrapInt64 (now + q.lease)) token).key ∧
      (∀ n, n ≠ J.Name → q'.view n = q.view n) ∧
      Inv q' ∧ q'.jobs = q.jobs ∧ q'.lease = q.lease ∧ q'.pq.Perm q.pq ∧
      (∀ p, (entryAt q'.mem p).name = (entryAt q.mem p).name) := by
  rcases dequeue_cases hI now token with ⟨hd, _⟩ | ⟨q1, hne, hb, hd, hI1, hj, hle, hperm, hk⟩
  · rw [hd] at h
    simp at h
  · rw [hd] at h
    simp only [Option.some.injEq, Prod.mk.injEq] at h
    obtain ⟨rfl, rfl⟩ := h
    have hroot := hI.root_entry hne
    have hnm := hI.entry_name hroot
    have hjn : ({ (entryAt q.mem (nth q.pq 0)).proto with CommitIndex := token } :
        CompactionJob).Name = (entryAt q.mem (nth q.pq 0)).name := hnm.2
    have hl := hI.lookup_of_mem_pq (Inv.root_mem hne)
    have hv := view_of_set hI hI1 hj hl hk
    refine ⟨entryAt q.mem (nth q.pq 0), ?_, rfl, hne, hb, rfl, ?_, ?_, hI1, hj, hle, hperm,
      name_of_keyEq_set hk rfl⟩
    · rw [hjn]; exact hroot
    · have := hv (entryAt q.mem (nth q.pq 0)).name
      simp only [if_true] at this
      rw [hjn]; exact this
    · intro n hn
      have := hv n
      rw [hjn] at hn
      simp only [hn, if_false] at this
      exact this

theorem effect_inProgress {lease : Int} {n : String} {ev : Event} {v : Option jobQueueEntry}
    (hne : ∀ job, ev = Event.enqueue job true → job.Name ≠ n)
    (hv : ∀ e, v = some e → e.status = jobStatusInProgress) :
    ∀ e, ev.effect lease n v = some e → e.status = jobStatusInProgress := by
  intro e he
  unfold Event.effect at he
  split at he
  · rename_i job
    have := hne job rfl
    simp only [this, if_false] at he
    exact hv e he
  · split_ifs at he with hc
    · cases v with
      | none => simp at he
      | some e0 =>
        simp only [Option.map_some', Option.some.injEq] at he
        rw [← he]; rfl
    · exact hv e he
  · split_ifs at he with hc
    · cases v with
      | none => simp at he
      | some e0 =>
        simp only [Option.map_some', Option.some.injEq] at he
        rw [← he]; rfl
    · exact hv e he
  · split_ifs at he with hc
    exact hv e he
  · exact hv e he

theorem Exec.inProgress {q q' : jobQueue} {evs : List Event} (h : Exec q evs q')
    (hI : Inv q) {n : String} (hne : ∀ job, Event.enqueue job true ∈ evs → job.Name ≠ n)
    (hv : ∀ e, q.view n = some e → e.status = jobStatusInProgress) :
    ∀ e, q'.view n = some e → e.status = jobStatusInProgress := by
  induction h with
  | nil q => exact hv
  | cons hev _ ih =>
    obtain ⟨hI1, _, hvw⟩ := step_spec hI hev
    apply ih hI1 (fun job hm => hne job (List.mem_cons_of_mem _ hm))
    rw [hvw]
    exact effect_inProgress (fun job e => hne job (e ▸ List.mem_cons_self _ _)) hv

theorem enqueue_true_absent {q q' : jobQueue} {job : CompactionJob}
    (h : q.enqueue job = some (true, q')) : q.jobs.lookup job.Name = none := by
  cases hl : q.jobs.lookup job.Name with
  | none => rfl
  | some p =>
    rw [enqueue_dup hl] at h
    simp at h

theorem Inv.view_none_of_lookup {q : jobQueue} (hI : Inv q) {n : String}
    (h : q.jobs.lookup n = none) : q.view n = none := by
  rw [hI.view_eq, h]; rfl

/-- A call that does not touch the entry named `n` leaves it as it is. -/
theorem step_untouched {q q' : jobQueue} (hI : Inv q) {ev : Event} (h : ev.holds q q')
    {n : String} (hnt : ¬ ev.touches n) {v : jobQueueEntry} (hv : q.view n = some v) :
    q'.view n = some v := by
  rw [(step_spec hI h).2.2 n, hv]
  unfold Event.effect
  split
  · rename_i job
    have hl := hI.view_none_of_lookup (enqueue_true_absent h)
    have : ¬ job.Name = n := by
      intro e
      rw [e, hv] at hl
      simp at hl
    simp [this]
  · rename_i now token job
    have : ¬ job.Name = n := fun e => hnt e
    simp [this]
  · rename_i name now token
    have : ¬ name = n := fun e => hnt ⟨e, rfl⟩
    simp [this]
  · rename_i name token
    have : ¬ name = n := fun e => hnt ⟨e, rfl⟩
    simp [this]
  · rfl

theorem Exec.untouched {q q' : jobQueue} {evs : List Event} (h : Exec q evs q')
    (hI : Inv q) {n : String} (hnt : ∀ ev, ev ∈ evs → ¬ ev.touches n) {v : jobQueueEntry}
    (hv : q.view n = some v) : q'.view n = some v := by
  induction h with
  | nil q => exact hv
  | cons hev _ ih =>
    exact ih (step_spec hI hev).1 (fun ev hm => hnt ev (List.mem_cons_of_mem _ hm))
      (step_untouched hI hev (hnt _ (List.mem_cons_self _ _)) hv)

theorem Inv.mem_heapNames {q : jobQueue} (hI : Inv q) (n : String) :
    n ∈ q.heapNames ↔ n ∈ q.names := by
  unfold jobQueue.heapNames jobQueue.names
  simp only [List.mem_map]
  constructor
  · rintro ⟨p, hp, rfl⟩
    exact ⟨_, lookup_mem (hI.lookup_of_mem_pq hp), rfl⟩
  · rintro ⟨⟨n', p⟩, hm, rfl⟩
    exact ⟨p, (hI.mem_pq p).2 ⟨n', hm⟩, (hI.names n' p hm).1⟩

theorem Inv.mem_names_iff {q : jobQueue} (hI : Inv q) (n : String) :
    n ∈ q.names ↔ ∃ e, q.entry n = some e := by
  unfold jobQueue.names
  constructor
  · intro h
    obtain ⟨⟨n', p⟩, hm, rfl⟩ := List.mem_map.1 h
    exact ⟨_, hI.entry_iff.2 ⟨p, mem_lookup hI.keys hm, rfl⟩⟩
  · rintro ⟨e, he⟩
    obtain ⟨p, hl, _⟩ := hI.entry_iff.1 he
    exact List.mem_map.2 ⟨(n, p), lookup_mem hl, rfl⟩

theorem view_eq_iff_names {q q' : jobQueue} (hI : Inv q) (hI' : Inv q') {n : String}
    (h : q'.view n = q.view n) : n ∈ q'.names ↔ n ∈ q.names := by
  rw [hI.mem_names_iff, hI'.mem_names_iff]
  unfold jobQueue.view at h
  cases h1 : q.entry n <;> cases h2 : q'.entry n <;> simp [h1, h2] at h ⊢

theorem Inv.entry_none_iff {q : jobQueue} (hI : Inv q) (n : String) :
    q.entry n = none ↔ q.jobs.lookup n = none := by
  rw [hI.entry_eq]
  cases q.jobs.lookup n <;> simp

theorem token_of_key_eq {a v : jobQueueEntry} (h : a.key = v) : a.token = v.token := by
  rw [← h]; rfl

/-- On a queue satisfying the invariant every operation returns. -/
theorem Inv.total {q : jobQueue} (hI : Inv q) :
    (∀ job, ∃ r, q.enqueue job = some r) ∧ (∀ now token, ∃ r, q.dequeue now token = some r) ∧
    (∀ name now token, ∃ r, q.update name now token = some r) ∧
    (∀ name token, ∃ r, q.evict name token = some r) ∧
    (∀ name token, ∃ r, q.peekEvict name token = some r) := by
  refine ⟨?_, ?_, ?_, ?_, ?_⟩
  · intro job
    cases hl : q.jobs.lookup job.Name with
    | some p => exact ⟨_, enqueue_dup hl⟩
    | none =>
      obtain ⟨q1, h, _⟩ := enqueue_new hI hl
      exact ⟨_, h⟩
  · intro now token
    rcases dequeue_cases hI now token with ⟨hd, _⟩ | ⟨q1, _, _, hd, _⟩
    · exact ⟨_, hd⟩
    · exact ⟨_, hd⟩
  · intro name now token
    cases hl : q.jobs.lookup name with
    | none => exact ⟨_, update_absent hl now token⟩
    | some p =>
      by_cases hs : (entryAt q.mem p).token > token
      · exact ⟨_, update_stale hI hl now hs⟩
      · obtain ⟨q1, h, _⟩ := update_ok hI hl now hs
        exact ⟨_, h⟩
  · intro name token
    cases hl : q.jobs.lookup name with
    | none => exact ⟨_, evict_absent hl token⟩
    | some p =>
      by_cases hs : (entryAt q.mem p).token > token
      · exact ⟨_, evict_stale hI hl hs⟩
      · obtain ⟨q1, h, _⟩ := evict_ok hI hl hs
        exact ⟨_, h⟩
  · intro name token
    unfold jobQueue.peekEvict
    cases hl : q.jobs.lookup name with
    | none => exact ⟨_, rfl⟩
    | some p =>
      simp only [Option.bind_eq_bind]
      rw [deref_of_lt (hI.addr_lt (lookup_mem hl))]
      simp only [Option.some_bind]
      split_ifs
      · exact ⟨_, rfl⟩
      · exact ⟨_, rfl⟩

/-- Where the token of the entry named `n` comes from after a call. -/
theorem effect_token {lease : Int} {n : String} {ev : Event} {v : Option jobQueueEntry}
    {e' : jobQueueEntry} (h : ev.effect lease n v = some e') :
    (v = none ∧ e'.token = 0) ∨ (∃ e, v = some e ∧ e'.token = e.token) ∨
      (∃ now token job e, ev = Event.dequeue now token (some job) ∧ job.Name = n ∧
        v = some e ∧ e'.token = token) ∨
      (∃ job, ev = Event.enqueue job true ∧ job.Name = n ∧ e'.token = 0) := by
  unfold Event.effect at h
  split at h
  · rename_i job
    split_ifs at h with hc
    · simp only [Option.some.injEq] at h
      exact Or.inr (Or.inr (Or.inr ⟨job, rfl, hc, by rw [← h]; rfl⟩))
    · exact Or.inr (Or.inl ⟨e', h, rfl⟩)
  · rename_i now token job
    split_ifs at h with hc
    · cases v with
      | none => simp at h
      | some e0 =>
        simp only [Option.map_some', Option.some.injEq] at h
        exact Or.inr (Or.inr (Or.inl ⟨now, token, job, e0, rfl, hc, rfl, by rw [← h]; rfl⟩))
    · exact Or.inr (Or.inl ⟨e', h, rfl⟩)
  · split_ifs at h with hc
    · cases v with
      | none => simp at h
      | some e0 =>
        simp only [Option.map_some', Option.some.injEq] at h
        exact Or.inr (Or.inl ⟨e0, rfl, by rw [← h]; rfl⟩)
    · exact Or.inr (Or.inl ⟨e', h, rfl⟩)
  · split_ifs at h with hc
    exact Or.inr (Or.inl ⟨e', h, rfl⟩)
  · exact Or.inr (Or.inl ⟨e', h, rfl⟩)

/-- One call: the token of an entry that stays in the queue changes only when a
`dequeue` returns that entry's record, and then to the token of that call. -/
theorem step_token {q q' : jobQueue} (hI : Inv q) {ev : Event} (h : ev.holds q q')
    {n : String} {e e' : jobQueueEntry} (he : q.entry n = some e) (he' : q'.entry n = some e') :
    e'.token = e.token ∨
      ∃ now token job, ev = Event.dequeue now token (some job) ∧ job.Name = n ∧
        e'.token = token := by
  have hv := (step_spec hI h).2.2 n
  rw [view_of_entry he, view_of_entry he'] at hv
  rcases effect_token hv.symm with ⟨h1, _⟩ | ⟨e0, h1, h2⟩ | ⟨now, token, job, e0, h1, h2, _, h4⟩ |
      ⟨job, h1, h2, _⟩
  · simp at h1
  · simp only [Option.some.injEq] at h1
    left
    rw [← h1] at h2
    exact h2
  · exact Or.inr ⟨now, token, job, h1, h2, h4⟩
  · subst h1
    have hl := hI.view_none_of_lookup (enqueue_true_absent h)
    rw [h2, view_of_entry he] at hl
    simp at hl

/-- A call that does not end the assignment of the entry named `n` keeps the entry
in the queue, with its token. -/
theorem step_token_kept {q q' : jobQueue} (hI : Inv q) {ev : Event} (h : ev.holds q q')
    {n : String} (hnr : ¬ ev.releases n) {e : jobQueueEntry} (he : q.entry n = some e) :
    ∃ e', q'.entry n = some e' ∧ e'.token = e.token := by
  have hv := (step_spec hI h).2.2 n
  rw [view_of_entry he] at hv
  have key : ∃ v, ev.effect q.lease n (some e.key) = some v ∧ v.token = e.token := by
    unfold Event.effect
    split
    · rename_i job
      have hl := hI.view_none_of_lookup (enqueue_true_absent h)
      have : ¬ job.Name = n := by
        intro e1
        rw [e1, view_of_entry he] at hl
        simp at hl
      exact ⟨e.key, by simp [this], rfl⟩
    · rename_i now token job
      have : ¬ job.Name = n := fun e1 => hnr e1
      exact ⟨e.key, by simp [this], rfl⟩
    · rename_i name now token
      by_cases hc : name = n
      · exact ⟨(e.key.renew (wrapInt64 (now + q.lease))).key,
          by simp only [hc, if_true, Option.map_some'], rfl⟩
      · exact ⟨e.key, by simp [hc], rfl⟩
    · rename_i name token
      have : ¬ name = n := fun e1 => hnr ⟨e1, rfl⟩
      exact ⟨e.key, by simp [this], rfl⟩
    · exact ⟨e.key, rfl, rfl⟩
  obtain ⟨v, hv1, hv2⟩ := key
  rw [hv1] at hv
  obtain ⟨e', he', hk⟩ := entry_of_view hv
  have ht : e'.token = v.token := token_of_key_eq hk
  exact ⟨e', he', ht.trans hv2⟩

theorem Exec.token_kept {q q' : jobQueue} {evs : List Event} (h : Exec q evs q')
    (hI : Inv q) {n : String} (hnr : ∀ ev, ev ∈ evs → ¬ ev.releases n) {e : jobQueueEntry}
    (he : q.entry n = some e) : ∃ e', q'.entry n = some e' ∧ e'.token = e.token := by
  induction h generalizing e with
  | nil q => exact ⟨e, he, rfl⟩
  | cons hev _ ih =>
    obtain ⟨e1, he1, ht1⟩ := step_token_kept hI hev (hnr _ (List.mem_cons_self _ _)) he
    obtain ⟨e2, he2, ht2⟩ := ih (step_spec hI hev).1
      (fun ev hm => hnr ev (List.mem_cons_of_mem _ hm)) he1
    exact ⟨e2, he2, ht2.trans ht1⟩

theorem dequeueTokens_cons_mem {ev : Event} {evs : List Event} {t : Nat}
    (h : t ∈ dequeueTokens evs) : t ∈ dequeueTokens (ev :: evs) := by
  cases ev with
  | dequeue now token job =>
    cases job with
    | none => exact h
    | some j => exact List.mem_cons_of_mem _ h
  | enqueue _ _ => exact h
  | update _ _ _ _ => exact h
  | evict _ _ _ => exact h
  | peekEvict _ _ _ => exact h

theorem dequeueTokens_cons_pairwise {ev : Event} {evs : List Event}
    (h : (dequeueTokens (ev :: evs)).Pairwise (· ≤ ·)) :
    (dequeueTokens evs).Pairwise (· ≤ ·) := by
  cases ev with
  | dequeue now token job =>
    cases job with
    | none => exact h
    | some j => exact (List.pairwise_cons.1 h).2
  | enqueue _ _ => exact h
  | update _ _ _ _ => exact h
  | evict _ _ _ => exact h
  | peekEvict _ _ _ => exact h

theorem dequeueTokens_append (evs1 evs2 : List Event) :
    dequeueTokens (evs1 ++ evs2) = dequeueTokens evs1 ++ dequeueTokens evs2 := by
  induction evs1 with
  | nil => rfl
  | cons ev evs ih =>
    cases ev with
    | dequeue now token job =>
      cases job with
      | none => exact ih
      | some j =>
        show token :: dequeueTokens (evs ++ evs2) = token :: dequeueTokens evs ++ _
        rw [ih]; rfl
    | enqueue _ _ => exact ih
    | update _ _ _ _ => exact ih
    | evict _ _ _ => exact ih
    | peekEvict _ _ _ => exact ih

/-- Every recorded token is `0` or was stamped by an earlier `dequeue`. -/
theorem Exec.token_source {q q' : jobQueue} {evs : List Event} (h : Exec q evs q')
    (hI : Inv q) {S : List Nat}
    (hS : ∀ n e, q.entry n = some e → e.token = 0 ∨ e.token ∈ S) :
    ∀ n e, q'.entry n = some e → e.token = 0 ∨ e.token ∈ S ++ dequeueTokens evs := by
  induction h generalizing S with
  | nil q =>
    intro n e he
    rcases hS n e he with h1 | h1
    · exact Or.inl h1
    · exact Or.inr (List.mem_append_left _ h1)
  | @cons q q1 q2 ev evs hev _ ih =>
    intro n e he
    have hstep : ∀ n e, q1.entry n = some e →
        e.token = 0 ∨ e.token ∈ S ++ dequeueTokens [ev] := by
      intro n e he1
      have hv := (step_spec hI hev).2.2 n
      rw [view_of_entry he1] at hv
      rcases effect_token hv.symm with ⟨_, h2⟩ | ⟨e0, h1, h2⟩ |
          ⟨now, token, job, e0, h1, _, _, h4⟩ | ⟨job, _, _, h3⟩
      · exact Or.inl h2
      · obtain ⟨e00, he00, hk00⟩ := entry_of_view h1
        have ht : e.token = e00.token := by
          have : e00.token = e0.token := token_of_key_eq hk00
          exact h2.trans this.symm
        rcases hS n e00 he00 with h5 | h5
        · exact Or.inl (ht.trans h5)
        · exact Or.inr (List.mem_append_left _ (ht ▸ h5))
      · subst h1
        refine Or.inr (List.mem_append_right _ ?_)
        have : e.key.token = token := h4
        rw [show e.token = token from this]
        exact List.mem_cons_self _ _
      · exact Or.inl h3
    have := ih (step_spec hI hev).1 hstep n e he
    rcases this with h1 | h1
    · exact Or.inl h1
    · refine Or.inr ?_
      rw [List.append_assoc, ← dequeueTokens_append] at h1
      exact h1

/-- With non-decreasing `dequeue` tokens, the recorded token of an entry that is not
evicted does not decrease. -/
theorem Exec.token_mono {q q' : jobQueue} {evs : List Event} (h : Exec q evs q')
    (hI : Inv q) (hB : ∀ n e, q.entry n = some e → ∀ t, t ∈ dequeueTokens evs → e.token ≤ t)
    (hP : (dequeueTokens evs).Pairwise (· ≤ ·)) {n : String}
    (hne : ∀ ev, ev ∈ evs → ¬ ev.evicts n) {e e' : jobQueueEntry}
    (he : q.entry n = some e) (he' : q'.entry n = some e') : e.token ≤ e'.token := by
  induction h generalizing e with
  | nil q =>
    rw [he] at he'
    simp only [Option.some.injEq] at he'
    rw [he']
  | @cons q q1 q2 ev evs hev _ ih =>
    have hI1 := (step_spec hI hev).1
    have hB1 : ∀ n e, q1.entry n = some e → ∀ t, t ∈ dequeueTokens evs → e.token ≤ t := by
      intro n1 e1 he1 t ht
      have hv := (step_spec hI hev).2.2 n1
      rw [view_of_entry he1] at hv
      rcases effect_token hv.symm with ⟨_, h2⟩ | ⟨e0, h1, h2⟩ |
          ⟨now, token, job, e0, h1, _, _, h4⟩ | ⟨job, _, _, h3⟩
      · have : e1.token = 0 := h2
        omega
      · obtain ⟨e00, he00, hk00⟩ := entry_of_view h1
        have ht0 : e00.token = e0.token := token_of_key_eq hk00
        have ht1 : e1.token = e00.token := h2.trans ht0.symm
        rw [ht1]
        exact hB n1 e00 he00 t (dequeueTokens_cons_mem ht)
      · subst h1
        have ht1 : e1.token = token := h4
        rw [ht1]
        exact (List.pairwise_cons.1 hP).1 t ht
      · have : e1.token = 0 := h3
        omega
    have hmid : ∃ e1, q1.entry n = some e1 ∧ e.token ≤ e1.token := by
      have hv := (step_spec hI hev).2.2 n
      rw [view_of_entry he] at hv
      have hnev := hne ev (List.mem_cons_self _ _)
      have key : ∃ v, ev.effect q.lease n (some e.key) = some v ∧ e.token ≤ v.token := by
        unfold Event.effect
        split
        · rename_i job
          have hl := hI.view_none_of_lookup (enqueue_true_absent hev)
          have : ¬ job.Name = n := by
            intro e1
            rw [e1, view_of_entry he] at hl
            simp at hl
          exact ⟨e.key, by simp [this], Nat.le_refl _⟩
        · rename_i now token job
          by_cases hc : job.Name = n
          · refine ⟨(e.key.assign (wrapInt64 (now + q.lease)) token).key,
              by simp only [hc, if_true, Option.map_some'], ?_⟩
            exact hB n e he token (List.mem_cons_self _ _)
          · exact ⟨e.key, by simp [hc], Nat.le_refl _⟩
        · rename_i name now token
          by_cases hc : name = n
          · exact ⟨(e.key.renew (wrapInt64 (now + q.lease))).key,
              by simp only [hc, if_true, Option.map_some'], Nat.le_refl _⟩
          · exact ⟨e.key, by simp [hc], Nat.le_refl _⟩
        · rename_i name token
          have : ¬ name = n := fun e1 => hnev ⟨e1, rfl⟩
          exact ⟨e.key, by simp [this], Nat.le_refl _⟩
        · exact ⟨e.key, rfl, Nat.le_refl _⟩
      obtain ⟨v, hv1, hv2⟩ := key
      rw [hv1] at hv
      obtain ⟨e1, he1, hk⟩ := entry_of_view hv
      have ht : e1.token = v.token := token_of_key_eq hk
      exact ⟨e1, he1, by rw [ht]; exact hv2⟩
    obtain ⟨e1, he1, hle⟩ := hmid
    exact le_trans hle (ih hI1 hB1 (dequeueTokens_cons_pairwise hP)
      (fun ev hm => hne ev (List.mem_cons_of_mem _ hm)) he1 he')

theorem Exec.step (q q1 q2 : jobQueue) (ev : Event) (evs : List Event) (h : ev.holds q q1)
    (h2 : Exec q1 evs q2) : Exec q (ev :: evs) q2 :=
  Exec.cons h h2

theorem exQueueA_reachable : Reachable exQueueA :=
  ⟨10, _, [Event.enqueue (exJob "a" 5) true], rfl,
    Exec.step _ exQueueA _ _ _ (by decide) (Exec.nil _)⟩

theorem exQueue_reachable : Reachable exQueue :=
  ⟨10, _, [Event.enqueue (exJob "a" 5) true, Event.enqueue (exJob "b" 1) true], rfl,
    Exec.step _ exQueueA _ _ _ (by decide)
      (Exec.step _ exQueue _ _ _ (by decide) (Exec.nil _))⟩

/-! ## The claims about the job queue -/

/-- C1. On every queue reachable from `newJobQueue`, `dequeue(now, token)` returns;
when it returns a job, that job is the record of the entry `e` that was minimal under
`less` before the call (no entry precedes it, it precedes all others), stamped with
`CommitIndex = token`; afterwards that entry has `deadline = now + lease` (Go `int64`
addition), status InProgress, `token = token` and the returned record, and the jobs
map and the heap hold the same names as before. -/
theorem dequeue_returns_minimum (q : jobQueue) (hq : Reachable q) (now : Int) (token : Nat) :
    ∃ r q', q.dequeue now token = some (r, q') ∧
      ∀ job, r = some job →
        ∃ e, q.entry job.Name = some e ∧
          (∀ n' e', q.entry n' = some e' → e'.less e = false) ∧
          (∀ n' e', q.entry n' = some e' → n' ≠ job.Name → e.less e' = true) ∧
          job = { e.proto with CommitIndex := token } ∧
          job.CommitIndex = token ∧
          (∃ e1, q'.entry job.Name = some e1 ∧
            e1.deadline = wrapInt64 (now + q.lease) ∧
            e1.status = jobStatusInProgress ∧ e1.token = token ∧ e1.proto = job) ∧
          q'.names = q.names ∧ q'.heapNames.Perm q.heapNames := by
  have hI := hq.inv
  rcases dequeue_cases hI now token with ⟨hd, _⟩ | ⟨q1, hne, hb, hd, hI1, hj, hle, hperm, hk⟩
  · exact ⟨none, q, hd, fun job h => by simp at h⟩
  · refine ⟨_, q1, hd, ?_⟩
    intro job hjob
    simp only [Option.some.injEq] at hjob
    subst hjob
    have hroot := hI.root_entry hne
    have hnm := hI.entry_name hroot
    have hjn : ({ (entryAt q.mem (nth q.pq 0)).proto with CommitIndex := token } :
        CompactionJob).Name = (entryAt q.mem (nth q.pq 0)).name := hnm.2
    refine ⟨entryAt q.mem (nth q.pq 0), ?_, ?_, ?_, rfl, rfl, ?_, ?_, ?_⟩
    · rw [hjn]
      exact hroot
    · intro n' e' h'
      exact hI.root_min_entry h'
    · intro n' e' h' hn'
      rw [hjn] at hn'
      exact hI.root_lt_entry h' hn'
    · have hl := hI.lookup_of_mem_pq (Inv.root_mem hne)
      have hv := view_of_set hI hI1 hj hl hk (entryAt q.mem (nth q.pq 0)).name
      simp only [if_true] at hv
      obtain ⟨e1, he1, hk1⟩ := entry_of_view hv
      obtain ⟨_, a2, a3, a4, _, a6, _⟩ := eq_of_key_eq hk1
      have he2 : q1.entry ({ (entryAt q.mem (nth q.pq 0)).proto with CommitIndex := token } :
          CompactionJob).Name = some e1 := by
        rw [hjn]; exact he1
      exact ⟨e1, he2, a3, a2, a4, a6⟩
    · unfold jobQueue.names
      rw [hj]
    · exact heapNames_perm hperm (name_of_keyEq_set hk rfl)

/-- C2. On every reachable queue, `dequeue(now, token)` returns nil if and only if the
queue is empty or every entry is InProgress with `deadline >= now`; and whenever it
returns nil the queue is left unchanged. -/
theorem dequeue_nil_iff (q : jobQueue) (hq : Reachable q) (now : Int) (token : Nat) :
    ∃ r q', q.dequeue now token = some (r, q') ∧
      (r = none ↔ (q.pq = [] ∨
        ∀ n e, q.entry n = some e → e.status = jobStatusInProgress ∧ now ≤ e.deadline)) ∧
      (r = none → q' = q) := by
  have hI := hq.inv
  rcases dequeue_cases hI now token with ⟨hd, hc⟩ | ⟨q1, hne, hb, hd, _⟩
  · refine ⟨none, q, hd, ⟨fun _ => ?_, fun _ => rfl⟩, fun _ => rfl⟩
    rcases hc with hc | hc
    · exact Or.inl hc
    · exact Or.inr fun n e h => hI.all_blocked hc h
  · refine ⟨_, q1, hd, ⟨fun h => by simp at h, fun h => ?_⟩, fun h => by simp at h⟩
    rcases h with h | h
    · exact absurd h hne
    · exact absurd (h _ _ (hI.root_entry hne)) hb

/-- C3. Lease exclusivity, sequential form. On every reachable queue, `dequeue(now,
token)` returns, and never returns a job whose entry was InProgress with
`deadline >= now` before the call. Hence, if the queue was reached from a state in
which an earlier `dequeue` returned job `J`, by calls among which no `enqueue` of
`J`'s name succeeded (that is, `J` was not evicted and enqueued again), and `now` is
at most `J`'s current lease deadline, the job returned is not `J`. -/
theorem dequeue_lease_exclusive (q : jobQueue) (hq : Reachable q) (now : Int) (token : Nat) :
    ∃ r q', q.dequeue now token = some (r, q') ∧
      (∀ job, r = some job → ∀ e, q.entry job.Name = some e →
        ¬ (e.status = jobStatusInProgress ∧ now ≤ e.deadline)) ∧
      (∀ q0 t0 tok0 J q1 evs, Reachable q0 → q0.dequeue t0 tok0 = some (some J, q1) →
        Exec q1 evs q → (∀ job, Event.enqueue job true ∈ evs → job.Name ≠ J.Name) →
        (∀ e, q.entry J.Name = some e → now ≤ e.deadline) →
        ∀ job, r = some job → job.Name ≠ J.Name) := by
  have hI := hq.inv
  have hA : ∀ r q', q.dequeue now token = some (r, q') →
      ∀ job, r = some job → ∀ e, q.entry job.Name = some e →
        ¬ (e.status = jobStatusInProgress ∧ now ≤ e.deadline) := by
    intro r q' hd job hr e he
    subst hr
    obtain ⟨e0, he0, _, _, hb, _⟩ := dequeue_some_spec hI hd
    rw [he0] at he
    simp only [Option.some.injEq] at he
    subst he
    exact hb
  have hex : ∃ r q', q.dequeue now token = some (r, q') := by
    rcases dequeue_cases hI now token with ⟨hd, _⟩ | ⟨q1, _, _, hd, _⟩
    · exact ⟨_, _, hd⟩
    · exact ⟨_, _, hd⟩
  obtain ⟨r, q', hd⟩ := hex
  refine ⟨r, q', hd, hA r q' hd, ?_⟩
  intro q0 t0 tok0 J q1 evs hq0 hd0 hexec hne hdl job hr hname
  obtain ⟨e0, _, _, _, _, _, hv1, _, hI1, _⟩ := dequeue_some_spec hq0.inv hd0
  have hP := hexec.inProgress hI1 hne (fun e he => by
    rw [hv1] at he
    simp only [Option.some.injEq] at he
    rw [← he]; rfl)
  cases he : q.entry job.Name with
  | none =>
    subst hr
    obtain ⟨e1, he1, _⟩ := dequeue_some_spec hI hd
    rw [he] at he1
    simp at he1
  | some e =>
    apply hA r q' hd job hr e he
    rw [hname] at he
    exact ⟨hP e.key (view_of_entry he), hdl e he⟩

/-- C4. Lease reclamation. Let `dequeue(t0, _)` return job `J` on a reachable queue
with lease `L`, and let `J` not be updated or evicted since: the calls that follow
contain no successful `update` or `evict` of `J` and no `dequeue` that returns `J`
and so renews its lease (`t0` is the time of its latest assignment). If the queue
then holds no Initial job and no other InProgress job preceding `J` under `less`,
every `dequeue(now, token)` with `now > t0 + L` (Go `int64` addition) returns `J`,
with the new token in the record and in the entry. -/
theorem dequeue_reclaims_expired_lease (q0 : jobQueue) (hq0 : Reachable q0) (t0 : Int)
    (tok0 : Nat) (J : CompactionJob) (q1 : jobQueue)
    (hd : q0.dequeue t0 tok0 = some (some J, q1)) (evs : List Event) (q2 : jobQueue)
    (hex : Exec q1 evs q2) (hnt : ∀ ev, ev ∈ evs → ¬ ev.touches J.Name) (now : Int)
    (token : Nat) (hnow : wrapInt64 (t0 + q0.lease) < now)
    (hmin : ∀ n' e', q2.entry n' = some e' → n' ≠ J.Name →
      e'.status ≠ jobStatusInitial ∧
      (e'.status = jobStatusInProgress → ∀ e, q2.entry J.Name = some e → e'.less e = false)) :
    ∃ q3, q2.dequeue now token = some (some { J with CommitIndex := token }, q3) ∧
      ∃ e3, q3.entry J.Name = some e3 ∧ e3.token = token ∧
        e3.deadline = wrapInt64 (now + q0.lease) ∧ e3.status = jobStatusInProgress ∧
        e3.proto = { J with CommitIndex := token } := by
  obtain ⟨e0, _, _, _, _, hJ, hv1, _, hI1, _, hle1, _⟩ := dequeue_some_spec hq0.inv hd
  have hI2 := hex.preserves_inv hI1
  have hle2 : q2.lease = q0.lease := (hex.lease hI1).trans hle1
  have hv2 := hex.untouched hI1 hnt hv1
  obtain ⟨e, he, hke⟩ := entry_of_view hv2
  obtain ⟨_, a2, a3, _, _, a6, _⟩ := eq_of_key_eq hke
  have hst : e.status = jobStatusInProgress := a2
  have hdl : e.deadline = wrapInt64 (t0 + q0.lease) := a3
  have hpr : e.proto = J := by rw [hJ]; exact a6
  obtain ⟨k, hk, _⟩ := hI2.entry_pos he
  have hne : q2.pq ≠ [] := by
    intro h; rw [h] at hk; simp at hk
  have hroot := hI2.root_entry hne
  have hrn : (entryAt q2.mem (nth q2.pq 0)).name = J.Name := by
    by_contra hc
    obtain ⟨h1, h2⟩ := hmin _ _ hroot hc
    have h3 : (entryAt q2.mem (nth q2.pq 0)).status = jobStatusInProgress := by
      rcases hI2.entry_status hroot with h4 | h4
      · exact absurd h4 h1
      · exact h4
    have h5 := h2 h3 e he
    have h6 := hI2.root_lt_entry he (fun e' => hc e'.symm)
    rw [h5] at h6
    exact Bool.noConfusion h6
  rw [hrn, he] at hroot
  simp only [Option.some.injEq] at hroot
  have hb : ¬ ((entryAt q2.mem (nth q2.pq 0)).status = jobStatusInProgress ∧
      now ≤ (entryAt q2.mem (nth q2.pq 0)).deadline) := by
    rw [← hroot, hdl]
    intro h
    exact absurd h.2 (not_le.2 hnow)
  obtain ⟨q3, hd3, hI3, hj3, _, _, hk3⟩ := dequeue_assign hI2 hne token hb
  rw [← hroot, hpr] at hd3
  refine ⟨q3, hd3, ?_⟩
  have hl := hI2.lookup_of_mem_pq (Inv.root_mem hne)
  have hv3 := view_of_set hI2 hI3 hj3 hl hk3 J.Name
  rw [hrn] at hv3
  simp only [if_true] at hv3
  obtain ⟨e3, he3, hk3'⟩ := entry_of_view hv3
  obtain ⟨_, b2, b3, b4, _, b6, _⟩ := eq_of_key_eq hk3'
  refine ⟨e3, he3, b4, ?_, b2, ?_⟩
  · rw [b3, hle2]; rfl
  · rw [b6, ← hroot, ← hpr]; rfl

/-- C5. On every reachable queue, `update(name, now, token)` returns false and leaves
the whole queue unchanged if no entry named `name` exists or the entry's recorded
token is strictly greater than `token`; otherwise it returns true, the entry gets
`deadline = now + lease` (Go `int64` addition) and status InProgress and keeps its
token and its other fields, every other entry keeps all its fields (the `index`
field, the position in the heap, apart), the same names are in the map and in the
heap, and the heap order holds again. -/
theorem update_renews_or_rejects (q : jobQueue) (hq : Reachable q) (name : String) (now : Int)
    (token : Nat) :
    ((q.entry name = none ∨ ∃ e, q.entry name = some e ∧ token < e.token) →
      q.update name now token = some (false, q)) ∧
    (∀ e, q.entry name = some e → ¬ token < e.token →
      ∃ q', q.update name now token = some (true, q') ∧
        (∃ e', q'.entry name = some e' ∧ e'.deadline = wrapInt64 (now + q.lease) ∧
          e'.status = jobStatusInProgress ∧ e'.token = e.token ∧
          e'.key = (e.renew (wrapInt64 (now + q.lease))).key) ∧
        (∀ n', n' ≠ name → q'.view n' = q.view n') ∧
        q'.names = q.names ∧ q'.heapNames.Perm q.heapNames ∧ Heap q'.mem q'.pq) := by
  have hI := hq.inv
  constructor
  · rintro (h | ⟨e, he, hs⟩)
    · exact update_absent ((hI.entry_none_iff name).1 h) now token
    · obtain ⟨p, hl, rfl⟩ := hI.entry_iff.1 he
      exact update_stale hI hl now hs
  · intro e he hs
    obtain ⟨p, hl, rfl⟩ := hI.entry_iff.1 he
    obtain ⟨q1, hu, hI1, hj, _, hperm, hk⟩ := update_ok hI hl now hs
    have hv := view_of_set hI hI1 hj hl hk
    refine ⟨q1, hu, ?_, ?_, ?_, ?_, hI1.heap⟩
    · have := hv name
      simp only [if_true] at this
      obtain ⟨e1, he1, hk1⟩ := entry_of_view this
      obtain ⟨_, a2, a3, a4, _⟩ := eq_of_key_eq hk1
      exact ⟨e1, he1, a3, a2, a4, hk1⟩
    · intro n' hn'
      have := hv n'
      simp only [hn', if_false] at this
      exact this
    · unfold jobQueue.names; rw [hj]
    · exact heapNames_perm hperm (name_of_keyEq_set hk rfl)

/-- C6. On every reachable queue, `evict(name, token)` returns false and leaves the
queue unchanged exactly when an entry named `name` exists whose recorded token is
strictly greater than `token`; otherwise it returns true, after which no entry named
`name` is in the jobs map or in the heap and every other entry is still present with
unchanged fields (heap position apart); `peekEvict(name, token)`, which has no write
to the queue, returns the boolean `evict` returns. -/
theorem evict_removes_or_rejects (q : jobQueue) (hq : Reachable q) (name : String)
    (token : Nat) :
    (∀ e, q.entry name = some e → token < e.token →
      q.evict name token = some (false, q)) ∧
    (¬ (∃ e, q.entry name = some e ∧ token < e.token) →
      ∃ q', q.evict name token = some (true, q') ∧ q'.entry name = none ∧
        name ∉ q'.names ∧ name ∉ q'.heapNames ∧
        (∀ n', n' ≠ name → q'.view n' = q.view n') ∧
        (∀ n', n' ≠ name → ((n' ∈ q'.names ↔ n' ∈ q.names) ∧
          (n' ∈ q'.heapNames ↔ n' ∈ q.heapNames)))) ∧
    q.peekEvict name token = (q.evict name token).map Prod.fst := by
  have hI := hq.inv
  refine ⟨?_, ?_, ?_⟩
  · intro e he hs
    obtain ⟨p, hl, rfl⟩ := hI.entry_iff.1 he
    exact evict_stale hI hl hs
  · intro hns
    have key : ∀ q', Inv q' → (∀ n, q'.view n = if n = name then none else q.view n) →
        q'.entry name = none ∧ name ∉ q'.names ∧ name ∉ q'.heapNames ∧
        (∀ n', n' ≠ name → q'.view n' = q.view n') ∧
        (∀ n', n' ≠ name → ((n' ∈ q'.names ↔ n' ∈ q.names) ∧
          (n' ∈ q'.heapNames ↔ n' ∈ q.heapNames))) := by
      intro q' hI' hv
      have h1 : q'.entry name = none := by
        have := hv name
        simp only [if_true] at this
        exact view_eq_none.1 this
      have h2 : name ∉ q'.names := by
        rw [hI'.mem_names_iff, h1]; simp
      have h3 : ∀ n', n' ≠ name → q'.view n' = q.view n' := by
        intro n' hn'
        have := hv n'
        simp only [hn', if_false] at this
        exact this
      refine ⟨h1, h2, fun h => h2 ((hI'.mem_heapNames name).1 h), h3, fun n' hn' => ?_⟩
      have h4 := view_eq_iff_names hI hI' (h3 n' hn')
      exact ⟨h4, by rw [hI'.mem_heapNames, hI.mem_heapNames]; exact h4⟩
    cases hl : q.jobs.lookup name with
    | none =>
      refine ⟨q, evict_absent hl token, key q hI fun n => ?_⟩
      by_cases hn : n = name
      · subst hn; simp only [if_true]; exact hI.view_none_of_lookup hl
      · simp [hn]
    | some p =>
      have hs : ¬ (entryAt q.mem p).token > token := fun hs =>
        hns ⟨_, hI.entry_iff.2 ⟨p, hl, rfl⟩, hs⟩
      obtain ⟨q1, hu, hI1, hj, _, _, hk⟩ := evict_ok hI hl hs
      exact ⟨q1, hu, key q1 hI1 (view_evict_ok hI hI1 hj hk)⟩
  · cases hl : q.jobs.lookup name with
    | none =>
      rw [evict_absent hl]
      unfold jobQueue.peekEvict
      rw [hl]; rfl
    | some p =>
      have hd := deref_of_lt (hI.addr_lt (lookup_mem hl))
      by_cases hs : (entryAt q.mem p).token > token
      · rw [evict_stale hI hl hs]
        unfold jobQueue.peekEvict
        rw [hl]
        simp only [Option.bind_eq_bind]
        rw [hd]
        simp only [Option.some_bind]
        rw [if_pos hs]; rfl
      · obtain ⟨q1, hu, _⟩ := evict_ok hI hl hs
        rw [hu]
        unfold jobQueue.peekEvict
        rw [hl]
        simp only [Option.bind_eq_bind]
        rw [hd]
        simp only [Option.some_bind]
        rw [if_neg hs]; rfl

/-- C9. A fencing token is issued only by `dequeue`. On every reachable queue each of
`enqueue`, `dequeue`, `update`, `evict` and `peekEvict` returns, and whenever a call
leaves an entry in the queue with another recorded token than before, the call is a
`dequeue`, the entry is the one whose record it returned, and the new token is the
token of that call: so `enqueue`, `update`, `evict` and `peekEvict` change no
recorded token and a `dequeue` changes at most that of the entry it returns. -/
theorem token_issued_only_by_dequeue (q : jobQueue) (hq : Reachable q) :
    ((∀ job, ∃ r, q.enqueue job = some r) ∧ (∀ now token, ∃ r, q.dequeue now token = some r) ∧
      (∀ name now token, ∃ r, q.update name now token = some r) ∧
      (∀ name token, ∃ r, q.evict name token = some r) ∧
      (∀ name token, ∃ r, q.peekEvict name token = some r)) ∧
    ∀ ev q', ev.holds q q' → ∀ n e e', q.entry n = some e → q'.entry n = some e' →
      e'.token ≠ e.token →
      ∃ now token job, ev = Event.dequeue now token (some job) ∧ job.Name = n ∧
        e'.token = token := by
  refine ⟨hq.inv.total, ?_⟩
  intro ev q' h n e e' he he' hne
  rcases step_token hq.inv h he he' with h1 | h1
  · exact absurd h1 hne
  · exact h1

/-- C10. On every reachable queue, `enqueue(job)` returns true and adds one entry for
`job.Name` (status InProgress if the record's status is IN_PROGRESS, otherwise
Initial; deadline 0; token 0; the other fields as `load` sets them) when no entry
with that name exists, all other entries keeping their fields; when an entry with
that name exists it returns false and leaves the queue unchanged. -/
theorem enqueue_adds_or_rejects (q : jobQueue) (hq : Reachable q) (job : CompactionJob) :
    (q.entry job.Name = none →
      ∃ q', q.enqueue job = some (true, q') ∧
        (∃ e, q'.entry job.Name = some e ∧
          e.status = (if job.Status = CompactionStatus.COMPACTION_STATUS_IN_PROGRESS
            then jobStatusInProgress else jobStatusInitial) ∧
          e.deadline = 0 ∧ e.token = 0 ∧ e.key = (jobQueueEntry.load job).key) ∧
        q'.names = job.Name :: q.names ∧ q'.heapNames.Perm (job.Name :: q.heapNames) ∧
        (∀ n', n' ≠ job.Name → q'.view n' = q.view n')) ∧
    (∀ e, q.entry job.Name = some e → q.enqueue job = some (false, q)) := by
  have hI := hq.inv
  constructor
  · intro hnone
    have hl := (hI.entry_none_iff job.Name).1 hnone
    obtain ⟨q1, he, hI1, hj, _, hk, hperm⟩ := enqueue_new hI hl
    have hv := view_enqueue_new hI hI1 hj hk
    refine ⟨q1, he, ?_, ?_, ?_, ?_⟩
    · have := hv job.Name
      simp only [if_true] at this
      obtain ⟨e1, he1, hk1⟩ := entry_of_view this
      obtain ⟨_, a2, a3, a4, _⟩ := eq_of_key_eq hk1
      exact ⟨e1, he1, a2, a3, a4, hk1⟩
    · unfold jobQueue.names; rw [hj]; rfl
    · unfold jobQueue.heapNames
      have hf : (fun p => (entryAt q1.mem p).name) =
          fun p => (entryAt (q.mem ++ [jobQueueEntry.load job]) p).name := by
        funext p
        exact (eq_of_key_eq (hk.2 p)).1
      rw [hf]
      refine (hperm.map _).trans ?_
      rw [List.map_append, List.map_singleton, entryAt_append_last]
      have hg : q.pq.map (fun p => (entryAt (q.mem ++ [jobQueueEntry.load job]) p).name) =
          q.pq.map fun p => (entryAt q.mem p).name := by
        apply List.map_congr_left
        intro p hp
        obtain ⟨k, hk', e⟩ := exists_nth_of_mem hp
        rw [entryAt_append_left _ _ (by rw [← e]; exact (hI.valid k hk').1)]
      rw [hg]
      exact List.perm_append_singleton _ _
    · intro n' hn'
      have := hv n'
      simp only [hn', if_false] at this
      exact this
  · intro e he
    obtain ⟨p, hl, _⟩ := hI.entry_iff.1 he
    exact enqueue_dup hl

/-- C7 as stated fails. After `dequeue` has stamped token 3 on job `a`, the call
`update(a, 1, 5)` is accepted, and the later call `update(a, 2, 4)`, whose token 4 is
below the token 5 of the earlier call, is accepted as well (both return true) and
changes the queue. -/
theorem update_accepts_token_below_observed :
    (do
      let q0 ← newJobQueue 10
      let (_, q1) ← q0.enqueue (exJob "a" 5)
      let (_, q2) ← q1.dequeue 0 3
      let (ok1, q3) ← q2.update "a" 1 5
      let (ok2, q4) ← q3.update "a" 2 4
      pure (ok1, ok2, decide (q4 = q3))) = some (true, true, false) := by
  decide

/-- C7, amended. Fencing against the recorded token: once `dequeue` has stamped token
`T` on job `J` of a reachable queue, then after any further calls that neither evict
`J` nor return it from `dequeue` again, every call `update(J, _, T')`, `evict(J, T')`
or `peekEvict(J, T')` with `T' < T` returns false and changes nothing. -/
theorem stale_token_rejected (q0 : jobQueue) (hq0 : Reachable q0) (t0 : Int) (T : Nat)
    (J : CompactionJob) (q1 : jobQueue) (hd : q0.dequeue t0 T = some (some J, q1))
    (evs : List Event) (q2 : jobQueue) (hex : Exec q1 evs q2)
    (hnr : ∀ ev, ev ∈ evs → ¬ ev.releases J.Name) (T' : Nat) (hT : T' < T) (now : Int) :
    q2.update J.Name now T' = some (false, q2) ∧ q2.evict J.Name T' = some (false, q2) ∧
      q2.peekEvict J.Name T' = some false := by
  obtain ⟨e0, _, _, _, _, _, hv1, _, hI1, _⟩ := dequeue_some_spec hq0.inv hd
  obtain ⟨e1, he1, hk1⟩ := entry_of_view hv1
  have ht1 : e1.token = T := token_of_key_eq hk1
  obtain ⟨e2, he2, ht2⟩ := hex.token_kept hI1 hnr he1
  have hI2 := hex.preserves_inv hI1
  obtain ⟨p, hl, hp⟩ := hI2.entry_iff.1 he2
  have hs : (entryAt q2.mem p).token > T' := by
    rw [hp, ht2, ht1]; exact hT
  refine ⟨update_stale hI2 hl now hs, evict_stale hI2 hl hs, ?_⟩
  unfold jobQueue.peekEvict
  rw [hl]
  simp only [Option.bind_eq_bind]
  rw [deref_of_lt (hI2.addr_lt (lookup_mem hl))]
  simp only [Option.some_bind]
  rw [if_pos hs]; rfl

/-- C8 as stated fails. `dequeue(0, 5)` stamps token 5 on job `a`; after the lease has
expired `dequeue(100, 3)` returns the job again and stamps token 3: the recorded
token of the entry has decreased from 5 to 3. -/
theorem dequeue_lowers_recorded_token :
    (do
      let q0 ← newJobQueue 10
      let (_, q1) ← q0.enqueue (exJob "a" 5)
      let (_, q2) ← q1.dequeue 0 5
      let e2 ← q2.entry "a"
      let (_, q3) ← q2.dequeue 100 3
      let e3 ← q3.entry "a"
      pure (e2.token, e3.token)) = some (5, 3) := by
  decide

/-- C8, amended. For every sequence of calls from `newJobQueue` in which the tokens
stamped by `dequeue` are non-decreasing from call to call, the recorded token of an
entry does not decrease between any two states of the sequence, as long as the entry
is not evicted in between. -/
theorem token_nondecreasing (lease : Int) (q0 : jobQueue) (h0 : newJobQueue lease = some q0)
    (evs1 evs2 : List Event) (q1 q2 : jobQueue) (hex1 : Exec q0 evs1 q1)
    (hex2 : Exec q1 evs2 q2) (hmono : (dequeueTokens (evs1 ++ evs2)).Pairwise (· ≤ ·))
    (n : String) (hne : ∀ ev, ev ∈ evs2 → ¬ ev.evicts n) (e1 e2 : jobQueueEntry)
    (h1 : q1.entry n = some e1) (h2 : q2.entry n = some e2) : e1.token ≤ e2.token := by
  rw [newJobQueue_eq] at h0
  simp only [Option.some.injEq] at h0
  subst h0
  have hI0 := Inv_empty lease
  have hsrc := hex1.token_source hI0 (S := []) (fun n e he => by
    unfold jobQueue.entry at he
    simp at he)
  rw [dequeueTokens_append, List.pairwise_append] at hmono
  obtain ⟨_, hP2, hcross⟩ := hmono
  apply hex2.token_mono (hex1.preserves_inv hI0) _ hP2 hne h1 h2
  intro n' e' he' t ht
  rcases hsrc n' e' he' with h3 | h3
  · omega
  · rw [List.nil_append] at h3
    exact hcross _ h3 _ ht

/-! ## The claims at concrete queues -/

/-- Instance of C1: `dequeue(0, 7)` on `exQueue`, which holds the Initial jobs `a` (level 5)
and `b` (level 1). -/
theorem dequeue_returns_minimum_witness :
    Reachable exQueue ∧
    ∃ r q', exQueue.dequeue 0 7 = some (r, q') ∧
      ∀ job, r = some job →
        ∃ e, exQueue.entry job.Name = some e ∧
          (∀ n' e', exQueue.entry n' = some e' → e'.less e = false) ∧
          (∀ n' e', exQueue.entry n' = some e' → n' ≠ job.Name → e.less e' = true) ∧
          job = { e.proto with CommitIndex := 7 } ∧
          job.CommitIndex = 7 ∧
          (∃ e1, q'.entry job.Name = some e1 ∧
            e1.deadline = wrapInt64 (0 + exQueue.lease) ∧
            e1.status = jobStatusInProgress ∧ e1.token = 7 ∧ e1.proto = job) ∧
          q'.names = exQueue.names ∧ q'.heapNames.Perm exQueue.heapNames :=
  ⟨exQueue_reachable, dequeue_returns_minimum exQueue exQueue_reachable 0 7⟩

/-- Instance of C2: `dequeue(0, 7)` on `exQueue`. -/
theorem dequeue_nil_iff_witness :
    Reachable exQueue ∧
    ∃ r q', exQueue.dequeue 0 7 = some (r, q') ∧
      (r = none ↔ (exQueue.pq = [] ∨
        ∀ n e, exQueue.entry n = some e → e.status = jobStatusInProgress ∧ 0 ≤ e.deadline)) ∧
      (r = none → q' = exQueue) :=
  ⟨exQueue_reachable, dequeue_nil_iff exQueue exQueue_reachable 0 7⟩

/-- Instance of C3: `dequeue(5, 8)` on `exQueueA1`, where job `a` is leased until 10. -/
theorem dequeue_lease_exclusive_witness :
    Reachable exQueueA1 ∧
    ∃ r q', exQueueA1.dequeue 5 8 = some (r, q') ∧
      (∀ job, r = some job → ∀ e, exQueueA1.entry job.Name = some e →
        ¬ (e.status = jobStatusInProgress ∧ 5 ≤ e.deadline)) ∧
      (∀ q0 t0 tok0 J q1 evs, Reachable q0 → q0.dequeue t0 tok0 = some (some J, q1) →
        Exec q1 evs exQueueA1 → (∀ job, Event.enqueue job true ∈ evs → job.Name ≠ J.Name) →
        (∀ e, exQueueA1.entry J.Name = some e → 5 ≤ e.deadline) →
        ∀ job, r = some job → job.Name ≠ J.Name) :=
  have hr : Reachable exQueueA1 :=
    exQueueA_reachable.exec (Exec.step _ exQueueA1 _
      (Event.dequeue 0 3 (some { exJob "a" 5 with CommitIndex := 3 })) _ (by decide)
      (Exec.nil _))
  ⟨hr, dequeue_lease_exclusive exQueueA1 hr 5 8⟩

/-- Instance of C4: job `a` is assigned by `dequeue(0, 3)` with lease 10; after a rejected
`update` of another name and a `peekEvict`, `dequeue(11, 4)` returns it again. -/
theorem dequeue_reclaims_expired_lease_witness :
    Reachable exQueueA ∧
    exQueueA.dequeue 0 3 = some (some { exJob "a" 5 with CommitIndex := 3 }, exQueueA1) ∧
    Exec exQueueA1 [Event.update "b" 5 9 false, Event.peekEvict "a" 3 true] exQueueA1 ∧
    (∀ ev, ev ∈ [Event.update "b" 5 9 false, Event.peekEvict "a" 3 true] →
      ¬ ev.touches ({ exJob "a" 5 with CommitIndex := 3 } : CompactionJob).Name) ∧
    wrapInt64 (0 + exQueueA.lease) < 11 ∧
    (∀ n' e', exQueueA1.entry n' = some e' →
      n' ≠ ({ exJob "a" 5 with CommitIndex := 3 } : CompactionJob).Name →
      e'.status ≠ jobStatusInitial ∧
      (e'.status = jobStatusInProgress →
        ∀ e, exQueueA1.entry ({ exJob "a" 5 with CommitIndex := 3 } : CompactionJob).Name =
          some e → e'.less e = false)) ∧
    (∃ q3, exQueueA1.dequeue 11 4 =
        some (some { ({ exJob "a" 5 with CommitIndex := 3 } : CompactionJob) with
          CommitIndex := 4 }, q3) ∧
      ∃ e3, q3.entry ({ exJob "a" 5 with CommitIndex := 3 } : CompactionJob).Name = some e3 ∧
        e3.token = 4 ∧ e3.deadline = wrapInt64 (11 + exQueueA.lease) ∧
        e3.status = jobStatusInProgress ∧
        e3.proto = { ({ exJob "a" 5 with CommitIndex := 3 } : CompactionJob) with
          CommitIndex := 4 }) :=
  have hd : exQueueA.dequeue 0 3 =
      some (some { exJob "a" 5 with CommitIndex := 3 }, exQueueA1) := by decide
  have hex : Exec exQueueA1 [Event.update "b" 5 9 false, Event.peekEvict "a" 3 true]
      exQueueA1 :=
    Exec.step _ exQueueA1 _ _ _ (by decide) (Exec.step _ exQueueA1 _ _ _ (by decide)
      (Exec.nil _))
  have hnt : ∀ ev, ev ∈ [Event.update "b" 5 9 false, Event.peekEvict "a" 3 true] →
      ¬ ev.touches ({ exJob "a" 5 with CommitIndex := 3 } : CompactionJob).Name := by
    intro ev hm
    simp only [List.mem_cons, List.mem_singleton, List.not_mem_nil, or_false] at hm
    rcases hm with rfl | rfl
    · simp [Event.touches]
    · simp [Event.touches]
  have hnow : wrapInt64 (0 + exQueueA.lease) < 11 := by decide
  have hmin : ∀ n' e', exQueueA1.entry n' = some e' →
      n' ≠ ({ exJob "a" 5 with CommitIndex := 3 } : CompactionJob).Name →
      e'.status ≠ jobStatusInitial ∧
      (e'.status = jobStatusInProgress →
        ∀ e, exQueueA1.entry ({ exJob "a" 5 with CommitIndex := 3 } : CompactionJob).Name =
          some e → e'.less e = false) := by
    intro n' e' h hn
    exfalso
    have hn2 : n' ≠ "a" := hn
    have hb : (n' == "a") = false := by simpa using hn2
    simp [jobQueue.entry, exQueueA1, List.lookup, hb] at h
  ⟨exQueueA_reachable, hd, hex, hnt, hnow, hmin,
    dequeue_reclaims_expired_lease exQueueA exQueueA_reachable 0 3 _ exQueueA1 hd _ exQueueA1
      hex hnt 11 4 hnow hmin⟩

/-- Instance of C5: `update(a, 1, 0)` on `exQueue`. -/
theorem update_renews_or_rejects_witness :
    Reachable exQueue ∧
    ((exQueue.entry "a" = none ∨ ∃ e, exQueue.entry "a" = some e ∧ 0 < e.token) →
      exQueue.update "a" 1 0 = some (false, exQueue)) ∧
    (∀ e, exQueue.entry "a" = some e → ¬ 0 < e.token →
      ∃ q', exQueue.update "a" 1 0 = some (true, q') ∧
        (∃ e', q'.entry "a" = some e' ∧ e'.deadline = wrapInt64 (1 + exQueue.lease) ∧
          e'.status = jobStatusInProgress ∧ e'.token = e.token ∧
          e'.key = (e.renew (wrapInt64 (1 + exQueue.lease))).key) ∧
        (∀ n', n' ≠ "a" → q'.view n' = exQueue.view n') ∧
        q'.names = exQueue.names ∧ q'.heapNames.Perm exQueue.heapNames ∧
        Heap q'.mem q'.pq) :=
  ⟨exQueue_reachable, update_renews_or_rejects exQueue exQueue_reachable "a" 1 0⟩

/-- Instance of C6: `evict(a, 0)` and `peekEvict(a, 0)` on `exQueue`. -/
theorem evict_removes_or_rejects_witness :
    Reachable exQueue ∧
    (∀ e, exQueue.entry "a" = some e → 0 < e.token →
      exQueue.evict "a" 0 = some (false, exQueue)) ∧
    (¬ (∃ e, exQueue.entry "a" = some e ∧ 0 < e.token) →
      ∃ q', exQueue.evict "a" 0 = some (true, q') ∧ q'.entry "a" = none ∧
        "a" ∉ q'.names ∧ "a" ∉ q'.heapNames ∧
        (∀ n', n' ≠ "a" → q'.view n' = exQueue.view n') ∧
        (∀ n', n' ≠ "a" → ((n' ∈ q'.names ↔ n' ∈ exQueue.names) ∧
          (n' ∈ q'.heapNames ↔ n' ∈ exQueue.heapNames)))) ∧
    exQueue.peekEvict "a" 0 = (exQueue.evict "a" 0).map Prod.fst :=
  ⟨exQueue_reachable, evict_removes_or_rejects exQueue exQueue_reachable "a" 0⟩

/-- Instance of C7 as amended: job `a` is assigned with token 3 and renewed by
`update(a, 1, 5)`; calls presenting token 2 are rejected. -/
theorem stale_token_rejected_witness :
    Reachable exQueueA ∧
    exQueueA.dequeue 0 3 = some (some { exJob "a" 5 with CommitIndex := 3 }, exQueueA1) ∧
    Exec exQueueA1 [Event.update "a" 1 5 true] exQueueA2 ∧
    (∀ ev, ev ∈ [Event.update "a" 1 5 true] →
      ¬ ev.releases ({ exJob "a" 5 with CommitIndex := 3 } : CompactionJob).Name) ∧
    2 < 3 ∧
    (exQueueA2.update ({ exJob "a" 5 with CommitIndex := 3 } : CompactionJob).Name 2 2 =
        some (false, exQueueA2) ∧
      exQueueA2.evict ({ exJob "a" 5 with CommitIndex := 3 } : CompactionJob).Name 2 =
        some (false, exQueueA2) ∧
      exQueueA2.peekEvict ({ exJob "a" 5 with CommitIndex := 3 } : CompactionJob).Name 2 =
        some false) :=
  have hd : exQueueA.dequeue 0 3 =
      some (some { exJob "a" 5 with CommitIndex := 3 }, exQueueA1) := by decide
  have hex : Exec exQueueA1 [Event.update "a" 1 5 true] exQueueA2 :=
    Exec.step _ exQueueA2 _ _ _ (by decide) (Exec.nil _)
  have hnr : ∀ ev, ev ∈ [Event.update "a" 1 5 true] →
      ¬ ev.releases ({ exJob "a" 5 with CommitIndex := 3 } : CompactionJob).Name := by
    intro ev hm
    simp only [List.mem_singleton] at hm
    subst hm
    simp [Event.releases]
  ⟨exQueueA_reachable, hd, hex, hnr, by decide,
    stale_token_rejected exQueueA exQueueA_reachable 0 3 _ exQueueA1 hd _ exQueueA2 hex hnr 2
      (by decide) 2⟩

/-- Instance of C8 as amended: job `a` is assigned with token 3 and, after the lease has
expired, with token 5. -/
theorem token_nondecreasing_witness :
    newJobQueue 10 = some { mem := [], jobs := [], pq := [], lease := 10 } ∧
    Exec { mem := [], jobs := [], pq := [], lease := 10 }
      [Event.enqueue (exJob "a" 5) true,
        Event.dequeue 0 3 (some { exJob "a" 5 with CommitIndex := 3 })] exQueueA1 ∧
    Exec exQueueA1 [Event.dequeue 100 5 (some { exJob "a" 5 with CommitIndex := 5 })]
      exQueueA3 ∧
    (dequeueTokens ([Event.enqueue (exJob "a" 5) true,
        Event.dequeue 0 3 (some { exJob "a" 5 with CommitIndex := 3 })] ++
      [Event.dequeue 100 5 (some { exJob "a" 5 with CommitIndex := 5 })])).Pairwise (· ≤ ·) ∧
    (∀ ev, ev ∈ [Event.dequeue 100 5 (some { exJob "a" 5 with CommitIndex := 5 })] →
      ¬ ev.evicts "a") ∧
    exQueueA1.entry "a" = some ((jobQueueEntry.load (exJob "a" 5)).assign 10 3) ∧
    exQueueA3.entry "a" =
      some (((jobQueueEntry.load (exJob "a" 5)).assign 10 3).assign 110 5) ∧
    ((jobQueueEntry.load (exJob "a" 5)).assign 10 3).token ≤
      (((jobQueueEntry.load (exJob "a" 5)).assign 10 3).assign 110 5).token :=
  have hex1 : Exec { mem := [], jobs := [], pq := [], lease := 10 }
      [Event.enqueue (exJob "a" 5) true,
        Event.dequeue 0 3 (some { exJob "a" 5 with CommitIndex := 3 })] exQueueA1 :=
    Exec.step _ exQueueA _ _ _ (by decide) (Exec.step _ exQueueA1 _ _ _ (by decide)
      (Exec.nil _))
  have hex2 : Exec exQueueA1
      [Event.dequeue 100 5 (some { exJob "a" 5 with CommitIndex := 5 })] exQueueA3 :=
    Exec.step _ exQueueA3 _ _ _ (by decide) (Exec.nil _)
  have hmono : (dequeueTokens ([Event.enqueue (exJob "a" 5) true,
        Event.dequeue 0 3 (some { exJob "a" 5 with CommitIndex := 3 })] ++
      [Event.dequeue 100 5 (some { exJob "a" 5 with CommitIndex := 5 })])).Pairwise
        (· ≤ ·) := by
    simp [dequeueTokens]
  have hne : ∀ ev, ev ∈ [Event.dequeue 100 5 (some { exJob "a" 5 with CommitIndex := 5 })] →
      ¬ ev.evicts "a" := by
    intro ev hm
    simp only [List.mem_singleton] at hm
    subst hm
    simp [Event.evicts]
  have h1 : exQueueA1.entry "a" = some ((jobQueueEntry.load (exJob "a" 5)).assign 10 3) := by
    decide
  have h2 : exQueueA3.entry "a" =
      some (((jobQueueEntry.load (exJob "a" 5)).assign 10 3).assign 110 5) := by
    decide
  ⟨rfl, hex1, hex2, hmono, hne, h1, h2,
    token_nondecreasing 10 _ rfl _ _ exQueueA1 exQueueA3 hex1 hex2 hmono "a" hne _ _ h1 h2⟩

/-- Instance of C9: the calls on `exQueue`. -/
theorem token_issued_only_by_dequeue_witness :
    Reachable exQueue ∧
    ((∀ job, ∃ r, exQueue.enqueue job = some r) ∧
      (∀ now token, ∃ r, exQueue.dequeue now token = some r) ∧
      (∀ name now token, ∃ r, exQueue.update name now token = some r) ∧
      (∀ name token, ∃ r, exQueue.evict name token = some r) ∧
      (∀ name token, ∃ r, exQueue.peekEvict name token = some r)) ∧
    ∀ ev q', ev.holds exQueue q' → ∀ n e e', exQueue.entry n = some e →
      q'.entry n = some e' → e'.token ≠ e.token →
      ∃ now token job, ev = Event.dequeue now token (some job) ∧ job.Name = n ∧
        e'.token = token :=
  ⟨exQueue_reachable, token_issued_only_by_dequeue exQueue exQueue_reachable⟩

/-- Instance of C10: `enqueue` of a job `c` on `exQueue`. -/
theorem enqueue_adds_or_rejects_witness :
    Reachable exQueue ∧
    (exQueue.entry (exJob "c" 3).Name = none →
      ∃ q', exQueue.enqueue (exJob "c" 3) = some (true, q') ∧
        (∃ e, q'.entry (exJob "c" 3).Name = some e ∧
          e.status = (if (exJob "c" 3).Status = CompactionStatus.COMPACTION_STATUS_IN_PROGRESS
            then jobStatusInProgress else jobStatusInitial) ∧
          e.deadline = 0 ∧ e.token = 0 ∧ e.key = (jobQueueEntry.load (exJob "c" 3)).key) ∧
        q'.names = (exJob "c" 3).Name :: exQueue.names ∧
        q'.heapNames.Perm ((exJob "c" 3).Name :: exQueue.heapNames) ∧
        (∀ n', n' ≠ (exJob "c" 3).Name → q'.view n' = exQueue.view n')) ∧
    (∀ e, exQueue.entry (exJob "c" 3).Name = some e →
      exQueue.enqueue (exJob "c" 3) = some (false, exQueue)) :=
  ⟨exQueue_reachable, enqueue_adds_or_rejects exQueue exQueue_reachable (exJob "c" 3)⟩

/-! ## Entries that were never assigned -/

theorem effect_initial_deadline {lease : Int} {n : String} {ev : Event}
    {v : Option jobQueueEntry}
    (hv : ∀ e, v = some e → e.status = jobStatusInitial → e.deadline = 0) :
    ∀ e, ev.effect lease n v = some e → e.status = jobStatusInitial → e.deadline = 0 := by
  intro e he hs
  unfold Event.effect at he
  split at he
  · split_ifs at he with hc
    · simp only [Option.some.injEq] at he
      rw [← he]; rfl
    · exact hv e he hs
  · split_ifs at he with hc
    · cases v with
      | none => simp at he
      | some e0 =>
        simp only [Option.map_some', Option.some.injEq] at he
        rw [← he] at hs
        have hp : jobStatusInProgress = jobStatusInitial := hs
        exact absurd hp (by decide)
    · exact hv e he hs
  · split_ifs at he with hc
    · cases v with
      | none => simp at he
      | some e0 =>
        simp only [Option.map_some', Option.some.injEq] at he
        rw [← he] at hs
        have hp : jobStatusInProgress = jobStatusInitial := hs
        exact absurd hp (by decide)
    · exact hv e he hs
  · split_ifs at he with hc
    exact hv e he hs
  · exact hv e he hs

theorem Exec.keeps_initial_deadline {q q' : jobQueue} {evs : List Event} (h : Exec q evs q')
    (hI : Inv q)
    (hv : ∀ n e, q.view n = some e → e.status = jobStatusInitial → e.deadline = 0) :
    ∀ n e, q'.view n = some e → e.status = jobStatusInitial → e.deadline = 0 := by
  induction h with
  | nil q => exact hv
  | cons hev _ ih =>
    obtain ⟨hI1, _, hvw⟩ := step_spec hI hev
    apply ih hI1
    intro n
    rw [hvw]
    exact effect_initial_deadline (hv n)

/-- In a reachable queue an entry that is still Initial has deadline 0. -/
theorem Reachable.initial_deadline {q : jobQueue} (h : Reachable q) {n : String}
    {e : jobQueueEntry} (he : q.entry n = some e) (hs : e.status = jobStatusInitial) :
    e.deadline = 0 := by
  obtain ⟨lease, q0, evs, h0, hex⟩ := h
  rw [newJobQueue_eq] at h0
  simp only [Option.some.injEq] at h0
  subst h0
  have := hex.keeps_initial_deadline (Inv_empty lease) (fun n e hv => by simp [jobQueue.view,
    jobQueue.entry] at hv) n e.key (view_of_entry he) hs
  exact this

theorem exQueueA1_reachable : Reachable exQueueA1 :=
  exQueueA_reachable.exec
    (Exec.step _ exQueueA1 _ (Event.dequeue 0 3 (some { exJob "a" 5 with CommitIndex := 3 })) _
      (by decide) (Exec.nil _))

theorem exQueueM_reachable : Reachable exQueueM :=
  exQueueA1_reachable.exec
    (Exec.step _ exQueueM0 _ (Event.enqueue (exJob "b" 1) true) _ (by decide)
      (Exec.step _ exQueueM _ (Event.enqueue (exJob "c" 2) true) _ (by decide) (Exec.nil _)))

/-- The lexicographic reading of `less`. -/
theorem less_iff_lex_aux (a b : jobQueueEntry) :
    a.less b = true ↔
      a.status < b.status ∨ (a.status = b.status ∧
        (a.deadline < b.deadline ∨ (a.deadline = b.deadline ∧
          (a.level < b.level ∨ (a.level = b.level ∧ a.name < b.name))))) := by
  unfold jobQueueEntry.less
  by_cases h1 : a.status = b.status
  · by_cases h2 : a.deadline = b.deadline
    · by_cases h3 : a.level = b.level
      · simp [h1, h2, h3]
      · simp [h1, h2, h3]
    · simp [h1, h2]
  · simp [h1]

/-! ## The claims about the invariants of the queue -/

/-- C11. In every queue reachable from `newJobQueue` by enqueue/dequeue/update/evict
calls, every heap slot holds a live entry, no two heap slots hold entries with the
same job name, and the names in the heap are exactly the keys of the jobs map (the
two lists are permutations of each other, the keys being pairwise distinct). -/
theorem heap_names_unique (q : jobQueue) (hq : Reachable q) :
    (∀ p, p ∈ q.pq → ∃ e, deref q.mem p = some e) ∧
    (∀ i j : Nat, i < q.pq.length → j < q.pq.length →
      (entryAt q.mem (nth q.pq i)).name = (entryAt q.mem (nth q.pq j)).name → i = j) ∧
    q.heapNames.Nodup ∧ q.names.Nodup ∧
    (∀ n, n ∈ q.heapNames ↔ n ∈ q.names) ∧
    q.heapNames.Perm q.names := by
  have hI := hq.inv
  have hinj : ∀ p, p ∈ q.pq → ∀ p', p' ∈ q.pq →
      (entryAt q.mem p).name = (entryAt q.mem p').name → p = p' := by
    intro p hp p' hp' hn
    have h1 := hI.lookup_of_mem_pq hp
    have h2 := hI.lookup_of_mem_pq hp'
    rw [hn, h2] at h1
    exact (Option.some.inj h1).symm
  have hnd : q.heapNames.Nodup := by
    unfold jobQueue.heapNames
    exact List.Nodup.map_on (fun p hp p' hp' hn => hinj p hp p' hp' hn) hI.valid.nodup
  refine ⟨?_, ?_, hnd, hI.keys, hI.mem_heapNames, ?_⟩
  · intro p hp
    obtain ⟨k, hk, e⟩ := exists_nth_of_mem hp
    exact ⟨_, deref_of_lt (e ▸ (hI.valid k hk).1)⟩
  · intro i j hi hj hn
    exact hI.valid.inj hi hj (hinj _ (nth_mem hi) _ (nth_mem hj) hn)
  · exact (List.perm_ext_iff_of_nodup hnd hI.keys).2 hI.mem_heapNames

/-- C12. In every queue reachable from `newJobQueue` by enqueue/dequeue/update/evict
calls, the priority queue is a binary min-heap with respect to `Less`: no position
precedes its parent `(k - 1) / 2`; so no position precedes the root `pq[0]`, and no
entry of the queue precedes the entry at the root under `less`. -/
theorem heap_property_invariant (q : jobQueue) (hq : Reachable q) :
    (∀ k : Nat, 0 < k → k < q.pq.length →
      q.pq.Less q.mem (k : Int) (((k - 1) / 2 : Nat) : Int) = some false) ∧
    (∀ k : Nat, k < q.pq.length → q.pq.Less q.mem (k : Int) 0 = some false) ∧
    (q.pq = [] ∨ ∃ p root, q.pq.idx 0 = some p ∧ deref q.mem p = some root ∧
      ∀ n e, q.entry n = some e → e.less root = false) := by
  have hI := hq.inv
  refine ⟨?_, ?_, ?_⟩
  · intro k hk0 hk
    rw [Less_spec hI.valid hk (by omega)]
    exact congrArg some (hI.heap k hk0 hk)
  · intro k hk
    have := Less_spec hI.valid hk (Nat.lt_of_le_of_lt (Nat.zero_le k) hk)
    simp only [Nat.cast_zero] at this
    rw [this]
    exact congrArg some (hI.heap.root_min (ltM_strictWeak q.mem) k hk)
  · by_cases hne : q.pq = []
    · exact Or.inl hne
    · have hpos : 0 < q.pq.length := List.length_pos.2 hne
      refine Or.inr ⟨nth q.pq 0, entryAt q.mem (nth q.pq 0), ?_, ?_, ?_⟩
      · have := idx_natCast hpos
        simpa using this
      · exact deref_of_lt (hI.valid 0 hpos).1
      · intro n e he
        exact hI.root_min_entry he

/-- C13. `a.less(b)` holds exactly when the tuple (status, deadline, level, name) of `a`
is lexicographically smaller than that of `b`, where Initial is smaller than
InProgress; `less` is irreflexive, asymmetric and transitive, and any two entries
with distinct names are comparable. -/
theorem less_iff_lex (a b : jobQueueEntry) :
    (a.less b = true ↔
      a.status < b.status ∨ (a.status = b.status ∧
        (a.deadline < b.deadline ∨ (a.deadline = b.deadline ∧
          (a.level < b.level ∨ (a.level = b.level ∧ a.name < b.name)))))) ∧
    jobStatusInitial < jobStatusInProgress ∧
    a.less a = false ∧
    (a.less b = true → b.less a = false) ∧
    (∀ c : jobQueueEntry, a.less b = true → b.less c = true → a.less c = true) ∧
    (a.name ≠ b.name → a.less b = true ∨ b.less a = true) := by
  refine ⟨less_iff_lex_aux a b, by decide, ?_, less_strictWeak_asymm a b, ?_, ?_⟩
  · rw [less_eq_false_iff]
  · intro c h1 h2
    rw [less_iff_rank] at h1 h2 ⊢
    exact lt_trans h1 h2
  · intro hn
    rw [less_iff_rank, less_iff_rank]
    rcases lt_trichotomy a.rank b.rank with h | h | h
    · exact Or.inl h
    · exact absurd (name_eq_of_rank_eq h) hn
    · exact Or.inr h

/-- C14. On every reachable queue that holds at least one Initial entry,
`dequeue(now, token)` returns, for every `now`, the record of an Initial entry `e`
such that every other Initial entry has a higher compaction level, or the same level
and a greater name; InProgress entries, expired or not, never come first. -/
theorem dequeue_prefers_initial (q : jobQueue) (hq : Reachable q)
    (hex : ∃ n0 e0, q.entry n0 = some e0 ∧ e0.status = jobStatusInitial)
    (now : Int) (token : Nat) :
    ∃ job q' e, q.dequeue now token = some (some job, q') ∧
      q.entry job.Name = some e ∧ e.status = jobStatusInitial ∧
      job = { e.proto with CommitIndex := token } ∧
      (∀ n' e', q.entry n' = some e' → e'.status = jobStatusInitial → n' ≠ job.Name →
        e.level < e'.level ∨ (e.level = e'.level ∧ e.name < e'.name)) ∧
      (∀ n' e', q.entry n' = some e' → e'.status = jobStatusInProgress →
        e.less e' = true) := by
  have hI := hq.inv
  obtain ⟨n0, e0, he0, hs0⟩ := hex
  have hroot_status : (entryAt q.mem (nth q.pq 0)).status = jobStatusInitial := by
    have h1 := hI.root_min_entry he0
    rw [less_eq_false_iff] at h1
    have h2 := (rank_le_status_deadline h1).1
    rw [hs0] at h2
    have hne : q.pq ≠ [] := by
      intro hnil
      obtain ⟨k, hk, _⟩ := hI.entry_pos he0
      rw [hnil] at hk
      simp at hk
    rcases hI.status _ (Inv.root_mem hne) with h3 | h3
    · exact h3
    · rw [h3] at h2
      exact absurd h2 (by decide)
  rcases dequeue_cases hI now token with ⟨_, hnil | hb⟩ | ⟨q1, hne, hb, hd, _⟩
  · obtain ⟨k, hk, _⟩ := hI.entry_pos he0
    rw [hnil] at hk
    simp at hk
  · rw [hroot_status] at hb
    exact absurd hb.1 (by decide)
  · have hre := hI.root_entry hne
    have hnm := hI.entry_name hre
    have hjn : ({ (entryAt q.mem (nth q.pq 0)).proto with CommitIndex := token } :
        CompactionJob).Name = (entryAt q.mem (nth q.pq 0)).name := hnm.2
    have he2 : q.entry ({ (entryAt q.mem (nth q.pq 0)).proto with CommitIndex := token } :
        CompactionJob).Name = some (entryAt q.mem (nth q.pq 0)) := by
      rw [hjn]; exact hre
    refine ⟨_, q1, entryAt q.mem (nth q.pq 0), hd, he2, hroot_status, rfl, ?_, ?_⟩
    · intro n' e' he' hs' hn'
      rw [hjn] at hn'
      have hlt := hI.root_lt_entry he' hn'
      rw [less_iff_lex_aux] at hlt
      have hd0 := hq.initial_deadline hre hroot_status
      have hd1 := hq.initial_deadline he' hs'
      rcases hlt with h | ⟨_, h | ⟨_, h⟩⟩
      · rw [hroot_status, hs'] at h
        exact absurd h (lt_irrefl _)
      · rw [hd0, hd1] at h
        exact absurd h (lt_irrefl _)
      · exact h
    · intro n' e' he' hs'
      rw [less_iff_lex_aux]
      left
      rw [hroot_status, hs']
      decide

/-! ## The claims about the invariants at concrete queues -/

/-- Instance of C11: the queue `exQueueM` holding jobs `a` (leased), `b` and `c`. -/
theorem heap_names_unique_witness :
    Reachable exQueueM ∧
    (∀ p, p ∈ exQueueM.pq → ∃ e, deref exQueueM.mem p = some e) ∧
    (∀ i j : Nat, i < exQueueM.pq.length → j < exQueueM.pq.length →
      (entryAt exQueueM.mem (nth exQueueM.pq i)).name =
        (entryAt exQueueM.mem (nth exQueueM.pq j)).name → i = j) ∧
    exQueueM.heapNames.Nodup ∧ exQueueM.names.Nodup ∧
    (∀ n, n ∈ exQueueM.heapNames ↔ n ∈ exQueueM.names) ∧
    exQueueM.heapNames.Perm exQueueM.names :=
  ⟨exQueueM_reachable, heap_names_unique exQueueM exQueueM_reachable⟩

/-- Instance of C12: the queue `exQueueM` holding jobs `a` (leased), `b` and `c`. -/
theorem heap_property_invariant_witness :
    Reachable exQueueM ∧
    (∀ k : Nat, 0 < k → k < exQueueM.pq.length →
      exQueueM.pq.Less exQueueM.mem (k : Int) (((k - 1) / 2 : Nat) : Int) = some false) ∧
    (∀ k : Nat, k < exQueueM.pq.length →
      exQueueM.pq.Less exQueueM.mem (k : Int) 0 = some false) ∧
    (exQueueM.pq = [] ∨ ∃ p root, exQueueM.pq.idx 0 = some p ∧
      deref exQueueM.mem p = some root ∧
      ∀ n e, exQueueM.entry n = some e → e.less root = false) :=
  ⟨exQueueM_reachable, heap_property_invariant exQueueM exQueueM_reachable⟩

/-- Instance of C13: the entries of job `b` (level 1) and job `a` (level 5) as `load`
builds them; they differ first in the level, so `b` precedes `a`. -/
theorem less_iff_lex_witness :
    (jobQueueEntry.load (exJob "b" 1)).name ≠ (jobQueueEntry.load (exJob "a" 5)).name ∧
    ((jobQueueEntry.load (exJob "b" 1)).less (jobQueueEntry.load (exJob "a" 5)) = true ∨
      (jobQueueEntry.load (exJob "a" 5)).less (jobQueueEntry.load (exJob "b" 1)) = true) ∧
    (jobQueueEntry.load (exJob "b" 1)).less (jobQueueEntry.load (exJob "a" 5)) = true ∧
    (jobQueueEntry.load (exJob "a" 5)).less (jobQueueEntry.load (exJob "b" 1)) = false :=
  ⟨by decide,
    (less_iff_lex (jobQueueEntry.load (exJob "b" 1)) (jobQueueEntry.load (exJob "a" 5))).2.2.2.2.2
      (by decide),
    by decide,
    (less_iff_lex (jobQueueEntry.load (exJob "b" 1)) (jobQueueEntry.load (exJob "a" 5))).2.2.2.1
      (by decide)⟩

/-- Instance of C14: `dequeue(100, 9)` on `exQueueM`, where job `a` is InProgress with
its lease expired at 10 and jobs `b` (level 1), `c` (level 2) are Initial. -/
theorem dequeue_prefers_initial_witness :
    Reachable exQueueM ∧
    (∃ n0 e0, exQueueM.entry n0 = some e0 ∧ e0.status = jobStatusInitial) ∧
    ∃ job q' e, exQueueM.dequeue 100 9 = some (some job, q') ∧
      exQueueM.entry job.Name = some e ∧ e.status = jobStatusInitial ∧
      job = { e.proto with CommitIndex := 9 } ∧
      (∀ n' e', exQueueM.entry n' = some e' → e'.status = jobStatusInitial →
        n' ≠ job.Name → e.level < e'.level ∨ (e.level = e'.level ∧ e.name < e'.name)) ∧
      (∀ n' e', exQueueM.entry n' = some e' → e'.status = jobStatusInProgress →
        e.less e' = true) :=
  ⟨exQueueM_reachable,
    ⟨"b", { (jobQueueEntry.load (exJob "b" 1)) with index := 0 }, by decide⟩,
    dequeue_prefers_initial exQueueM exQueueM_reachable
      ⟨"b", { (jobQueueEntry.load (exJob "b" 1)) with index := 0 }, by decide⟩ 100 9⟩

/-! ## Building a heap: `container/heap.Init` -/

theorem downL_from {lt : Nat → Nat → Bool} (hlt : StrictWeak lt) (n lo : Nat) :
    ∀ (fuel : Nat) (l : List Nat) (i : Nat), n ≤ i + fuel → n ≤ l.length → lo ≤ i →
      (∀ k, 0 < k → k < n → lo ≤ (k - 1) / 2 → k ≠ i → (k - 1) / 2 ≠ i →
        lt (nth l k) (nth l ((k - 1) / 2)) = false) →
      (∀ k, 0 < k → k < n → (k - 1) / 2 = i → 0 < i → lo ≤ (i - 1) / 2 →
        lt (nth l k) (nth l ((i - 1) / 2)) = false) →
      (∀ k, 0 < k → k < n → lo ≤ (k - 1) / 2 → k ≠ i →
        lt (nth (downL lt n fuel l i).2 k) (nth (downL lt n fuel l i).2 ((k - 1) / 2)) = false) ∧
      ((downL lt n fuel l i).1 ≠ i → 0 < i → lo ≤ (i - 1) / 2 →
        lt (nth (downL lt n fuel l i).2 i) (nth (downL lt n fuel l i).2 ((i - 1) / 2)) = false) ∧
      ((downL lt n fuel l i).1 = i → (downL lt n fuel l i).2 = l) := by
  intro fuel
  induction fuel with
  | zero =>
    intro l i hf hn hlo D1 D2
    refine ⟨?_, fun h => absurd rfl h, fun _ => rfl⟩
    intro k hk0 hkn hkl hki
    exact D1 k hk0 hkn hkl hki (by omega)
  | succ fuel ih =>
    intro l i hf hn hlo D1 D2
    unfold downL
    split_ifs with h1 h2
    · refine ⟨?_, fun h => absurd rfl h, fun _ => rfl⟩
      intro k hk0 hkn hkl hki
      exact D1 k hk0 hkn hkl hki (by omega)
    · obtain ⟨hjn, hpj, hij, hmin⟩ := pickChild_spec hlt l n i (by omega)
      generalize pickChild lt l n i = j at *
      have hil : i < l.length := by omega
      have hjl : j < l.length := by omega
      have E1 : ∀ k, 0 < k → k < n → lo ≤ (k - 1) / 2 → k ≠ j → (k - 1) / 2 ≠ j →
          lt (nth (swapL l i j) k) (nth (swapL l i j) ((k - 1) / 2)) = false := by
        intro k hk0 hkn hkl hkj hpkj
        rw [nth_swapL l _ _ k hil hjl, nth_swapL l _ _ _ hil hjl]
        simp only [hkj, hpkj, if_false]
        by_cases hki : k = i
        · subst hki
          have a : ¬ (k - 1) / 2 = k := by omega
          simp only [a, if_true, if_false]
          exact D2 j (by omega) hjn hpj hk0 hkl
        · simp only [hki, if_false]
          by_cases hpi : (k - 1) / 2 = i
          · simp only [hpi, if_true]
            exact hmin k hk0 hkn hpi
          · simp only [hpi, if_false]
            exact D1 k hk0 hkn hkl hki hpi
      have E2 : ∀ k, 0 < k → k < n → (k - 1) / 2 = j → 0 < j → lo ≤ (j - 1) / 2 →
          lt (nth (swapL l i j) k) (nth (swapL l i j) ((j - 1) / 2)) = false := by
        intro k hk0 hkn hpk hj0 _
        rw [nth_swapL l _ _ k hil hjl, nth_swapL l _ _ _ hil hjl]
        have a : ¬ k = j := by omega
        have b : ¬ k = i := by omega
        have c : ¬ i = j := by omega
        simp only [a, b, c, hpj, if_true, if_false]
        have := D1 k hk0 hkn (by omega) b (by omega)
        rw [hpk] at this
        exact this
      obtain ⟨R1, R2, R3⟩ := ih (swapL l i j) j (by omega) (by rw [length_swapL]; exact hn)
        (by omega) E1 E2
      have hge := downL_fst_ge lt n fuel (swapL l i j) j
      refine ⟨?_, ?_, fun h => by omega⟩
      · intro k hk0 hkn hkl hki
        by_cases hkj : k = j
        · subst hkj
          by_cases hmv : (downL lt n fuel (swapL l i k) k).1 = k
          · rw [R3 hmv, nth_swapL l _ _ k hil hjl, nth_swapL l _ _ _ hil hjl, hpj]
            have a : ¬ i = k := by omega
            simp only [a, if_true, if_false]
            exact hlt.asymm _ _ h2
          · exact R2 hmv (by omega) hkl
        · exact R1 k hk0 hkn hkl hkj
      · intro _ hi0 hil0
        exact R1 i hi0 (by omega) hil0 (by omega)
    · obtain ⟨hjn, hpj, hij, hmin⟩ := pickChild_spec hlt l n i (by omega)
      refine ⟨?_, fun h => absurd rfl h, fun _ => rfl⟩
      intro k hk0 hkn hkl hki
      by_cases hpi : (k - 1) / 2 = i
      · rw [hpi]
        have h3 : lt (nth l (pickChild lt l n i)) (nth l i) = false := by simpa using h2
        exact hlt.negTrans _ _ _ h3 (hmin k hk0 hkn hpi)
      · exact D1 k hk0 hkn hkl hki hpi

/-- One round of the loop of `heap.Init`: sifting position `i` down extends the
ordered part of the list from the parents beyond `i` to the parents from `i` on. -/
theorem downL_heapFrom {lt : Nat → Nat → Bool} (hlt : StrictWeak lt) (n : Nat) (l : List Nat)
    (i fuel : Nat) (hf : n ≤ i + fuel) (hn : n ≤ l.length)
    (h : isHeapFrom lt l n (i + 1)) : isHeapFrom lt (downL lt n fuel l i).2 n i := by
  obtain ⟨R1, _, _⟩ := downL_from hlt n i fuel l i hf hn (Nat.le_refl i)
    (fun k hk0 hkn hkl hki hpi => h k hk0 hkn (by omega))
    (fun k _ _ _ hi0 hil => absurd hil (by omega))
  intro k hk0 hkn hkl
  exact R1 k hk0 hkn hkl (by omega)

theorem length_initL (lt : Nat → Nat → Bool) (n k : Nat) (l : List Nat) :
    (initL lt n k l).length = l.length := by
  induction k generalizing l with
  | zero => rfl
  | succ k ih =>
    unfold initL
    rw [ih, length_downL]

theorem initL_perm (lt : Nat → Nat → Bool) (n k : Nat) (l : List Nat) (hn : n ≤ l.length) :
    (initL lt n k l).Perm l := by
  induction k generalizing l with
  | zero => exact List.Perm.refl _
  | succ k ih =>
    unfold initL
    exact (ih _ (by rw [length_downL]; exact hn)).trans (downL_perm lt n _ l k hn)

theorem initL_heap {lt : Nat → Nat → Bool} (hlt : StrictWeak lt) (n k : Nat) (l : List Nat)
    (hn : n ≤ l.length) (h : isHeapFrom lt l n k) : isHeapN lt (initL lt n k l) n := by
  induction k generalizing l with
  | zero =>
    intro j hj0 hjn
    exact h j hj0 hjn (Nat.zero_le _)
  | succ k ih =>
    unfold initL
    exact ih _ (by rw [length_downL]; exact hn)
      (downL_heapFrom hlt n l k _ (by omega) hn h)

theorem PtrOk.nth_lt {m : Mem} {pq : priorityQueue} (h : PtrOk m pq) {k : Nat}
    (hk : k < pq.length) : nth pq k < m.length :=
  h _ (nth_mem hk)

theorem PtrOk.of_perm {m m' : Mem} {pq pq' : priorityQueue} (h : PtrOk m pq)
    (hp : pq'.Perm pq) (hl : m'.length = m.length) : PtrOk m' pq' := by
  intro p hp'
  rw [hl]
  exact h p (hp.mem_iff.1 hp')

theorem Less_ptr {m : Mem} {pq : priorityQueue} (hv : PtrOk m pq) {i j : Nat}
    (hi : i < pq.length) (hj : j < pq.length) :
    priorityQueue.Less m pq (i : Int) (j : Int) = some (ltM m (nth pq i) (nth pq j)) := by
  unfold priorityQueue.Less
  rw [idx_natCast hi, idx_natCast hj]
  simp only [Option.bind_eq_bind, Option.some_bind]
  rw [deref_of_lt (hv.nth_lt hi), deref_of_lt (hv.nth_lt hj)]
  rfl

theorem Swap_ptr {m : Mem} {pq : priorityQueue} (hv : PtrOk m pq) {i j : Nat}
    (hi : i < pq.length) (hj : j < pq.length) :
    priorityQueue.Swap m pq (i : Int) (j : Int) = some (swapMem m pq i j, swapL pq i j) := by
  have hli : i < (swapL pq i j).length := by rw [length_swapL]; exact hi
  have hlj : j < (swapL pq i j).length := by rw [length_swapL]; exact hj
  have e1 : nth (swapL pq i j) j = nth pq i := by rw [nth_swapL pq i j j hi hj]; simp
  have hpi := hv.nth_lt hi
  have hpj := hv.nth_lt hj
  have hqi : nth (swapL pq i j) i < m.length := by
    rw [nth_swapL pq i j i hi hj]; split_ifs <;> assumption
  have hs : (List.set pq i (nth pq j)).set j (nth pq i) = swapL pq i j := rfl
  unfold priorityQueue.Swap
  rw [idx_natCast hi, idx_natCast hj]
  simp only [Option.bind_eq_bind, Option.some_bind, Int.toNat_ofNat]
  rw [hs, idx_natCast hli]
  simp only [Option.some_bind]
  rw [deref_of_lt hqi]
  simp only [Option.some_bind]
  rw [idx_natCast hlj, e1]
  simp only [Option.some_bind]
  rw [deref_of_lt (by simpa using hpi)]
  rfl

theorem swapMem_keyEq (m : Mem) (pq : priorityQueue) (i j : Nat) :
    KeyEq m (swapMem m pq i j) :=
  (KeyEq.setIdx _ _ _).trans (KeyEq.setIdx _ _ _)

theorem downLoop_ptr : ∀ (fuel : Nat) (m : Mem) (pq : priorityQueue) (i n : Nat),
    PtrOk m pq → n ≤ pq.length → n < i + fuel → 0 < fuel →
    ∃ m', heap.downLoop (n : Int) fuel m pq (i : Int) =
        some (((downL (ltM m) n fuel pq i).1 : Int), m', (downL (ltM m) n fuel pq i).2) ∧
      KeyEq m m' := by
  intro fuel
  induction fuel with
  | zero => intro m pq i n _ _ _ h; omega
  | succ fuel ih =>
    intro m pq i n hv hn hf _
    unfold heap.downLoop downL
    have e : ((2 * (i : Int) + 1 ≥ (n : Int)) ∨ 2 * (i : Int) + 1 < 0) ↔ n ≤ 2 * i + 1 := by
      omega
    simp only [e]
    by_cases h1 : n ≤ 2 * i + 1
    · simp only [h1, if_true]
      exact ⟨m, rfl, KeyEq.refl m⟩
    · simp only [h1, if_false]
      have c2 : 2 * (i : Int) + 1 = ((2 * i + 1 : Nat) : Int) := by push_cast; ring
      have c1 : ((2 * i + 1 : Nat) : Int) + 1 = ((2 * i + 2 : Nat) : Int) := by push_cast; ring
      have hj1 : 2 * i + 1 < pq.length := by omega
      have hil : i < pq.length := by omega
      simp only [c2, c1, Nat.cast_lt, Option.bind_eq_bind, Option.pure_def]
      have hpick : (if 2 * i + 2 < n then
            (priorityQueue.Less m pq ((2 * i + 2 : Nat) : Int) ((2 * i + 1 : Nat) : Int)).bind
              fun lt21 => some (if lt21 = true then ((2 * i + 2 : Nat) : Int)
                else ((2 * i + 1 : Nat) : Int))
          else some ((2 * i + 1 : Nat) : Int)) =
          some ((pickChild (ltM m) pq n i : Nat) : Int) := by
        unfold pickChild
        by_cases h2 : 2 * i + 2 < n
        · rw [if_pos h2, Less_ptr hv (by omega) hj1]
          simp only [Option.some_bind, h2, true_and]
          split_ifs <;> rfl
        · rw [if_neg h2]
          simp only [h2, false_and, if_false]
      rw [hpick]
      simp only [Option.some_bind]
      obtain ⟨hjn, hij⟩ := pickChild_lt (ltM m) pq n i (by omega)
      generalize pickChild (ltM m) pq n i = j at *
      have hjl : j < pq.length := by omega
      rw [Less_ptr hv hjl hil]
      simp only [Option.some_bind]
      cases hlt : ltM m (nth pq j) (nth pq i)
      · simp only [Bool.not_false, if_true, Bool.false_eq_true, if_false]
        exact ⟨m, rfl, KeyEq.refl m⟩
      · simp only [Bool.not_true, Bool.false_eq_true, if_false, if_true]
        have hk1 := swapMem_keyEq m pq i j
        rw [Swap_ptr hv hil hjl]
        simp only [Option.some_bind]
        obtain ⟨m2, hu, hk2⟩ := ih (swapMem m pq i j) (swapL pq i j) j n
          (hv.of_perm (swapL_perm pq i j hil hjl) hk1.1)
          (by rw [length_swapL]; exact hn) (by omega) (by omega)
        rw [hk1.ltM_eq] at hu
        exact ⟨m2, hu, hk1.trans hk2⟩

theorem down_ptr (m : Mem) (pq : priorityQueue) (i n : Nat) (hv : PtrOk m pq)
    (hn : n ≤ pq.length) :
    ∃ b m', heap.down m pq (i : Int) (n : Int) =
        some (b, m', (downL (ltM m) n (pq.length + 1) pq i).2) ∧ KeyEq m m' := by
  obtain ⟨m1, h1, hk1⟩ := downLoop_ptr (pq.length + 1) m pq i n hv hn (by omega) (by omega)
  refine ⟨decide (((downL (ltM m) n (pq.length + 1) pq i).1 : Int) > (i : Int)), m1, ?_, hk1⟩
  unfold heap.down
  rw [h1]
  rfl

theorem initLoop_ptr (n : Nat) : ∀ (k : Nat) (m : Mem) (pq : priorityQueue),
    PtrOk m pq → n ≤ pq.length →
    ∃ m', heap.initLoop (n : Int) k m pq = some (m', initL (ltM m) n k pq) ∧ KeyEq m m' := by
  intro k
  induction k with
  | zero =>
    intro m pq _ _
    exact ⟨m, rfl, KeyEq.refl m⟩
  | succ k ih =>
    intro m pq hv hn
    obtain ⟨b, m1, hd, hk1⟩ := down_ptr m pq k n hv hn
    unfold heap.initLoop initL
    rw [hd]
    simp only [Option.bind_eq_bind, Option.some_bind]
    obtain ⟨m2, hi, hk2⟩ := ih m1 (downL (ltM m) n (pq.length + 1) pq k).2
      (hv.of_perm (downL_perm _ n _ pq k hn) hk1.1) (by rw [length_downL]; exact hn)
    rw [hk1.ltM_eq] at hi
    exact ⟨m2, hi, hk1.trans hk2⟩

/-- `heap.Init` returns on every queue of allocated entries, with a permutation of
the queue that is a heap; the entries are the same up to their `index` fields. -/
theorem heap_Init_spec {m : Mem} {pq : priorityQueue} (hv : PtrOk m pq) :
    ∃ m' pq', heap.Init m pq = some (m', pq') ∧ pq'.Perm pq ∧ Heap m' pq' ∧ KeyEq m m' ∧
      PtrOk m' pq' := by
  obtain ⟨m1, hi, hk⟩ := initLoop_ptr pq.length (pq.length / 2) m pq hv (Nat.le_refl _)
  have hn : (Int.tdiv (pq.length : Int) 2).toNat = pq.length / 2 := by
    have : Int.tdiv (pq.length : Int) 2 = ((pq.length / 2 : Nat) : Int) := rfl
    rw [this]
    rfl
  have hperm := initL_perm (ltM m) pq.length (pq.length / 2) pq (Nat.le_refl _)
  refine ⟨m1, _, ?_, hperm, ?_, hk, hv.of_perm hperm hk.1⟩
  · unfold heap.Init priorityQueue.Len
    simp only [hn]
    exact hi
  · unfold Heap
    rw [hk.ltM_eq, length_initL]
    apply initL_heap (ltM_strictWeak m) _ _ _ (Nat.le_refl _)
    intro k hk0 hkn hkl
    omega

theorem foldl_append_snd (order : List (String × Nat)) (pq : priorityQueue) :
    order.foldl (fun pq kv => pq ++ [kv.2]) pq = pq ++ order.map Prod.snd := by
  induction order generalizing pq with
  | nil => simp
  | cons x xs ih =>
    simp only [List.foldl_cons, List.map_cons]
    rw [ih]
    simp

/-- What `rebuild` does on a queue whose heap and jobs map hold addresses of
allocated entries: it returns, the heap afterwards is a permutation of what the heap
held before followed by one address per entry of the jobs map, it is ordered by
`less`, and nothing but `index` fields has been written. -/
theorem rebuild_spec {q : jobQueue} {order : List (String × Nat)}
    (hpq : ∀ p, p ∈ q.pq → p < q.mem.length)
    (hjobs : ∀ kv, kv ∈ q.jobs → kv.2 < q.mem.length) (hord : order.Perm q.jobs) :
    ∃ q', q.rebuild order = some q' ∧ q'.pq.Perm (q.pq ++ q.jobs.map Prod.snd) ∧
      Heap q'.mem q'.pq ∧ KeyEq q.mem q'.mem ∧ q'.jobs = q.jobs ∧ q'.lease = q.lease := by
  have hv : PtrOk q.mem (q.pq ++ order.map Prod.snd) := by
    intro p hp
    rcases List.mem_append.1 hp with h | h
    · exact hpq p h
    · obtain ⟨kv, hkv, rfl⟩ := List.mem_map.1 h
      exact hjobs kv (hord.mem_iff.1 hkv)
  obtain ⟨m1, pq1, hi, hperm, hheap, hk, _⟩ := heap_Init_spec hv
  refine ⟨{ q with mem := m1, pq := pq1 }, ?_, ?_, hheap, hk, rfl, rfl⟩
  · unfold jobQueue.rebuild
    simp only [List.drop_zero, foldl_append_snd, Option.bind_eq_bind, Option.pure_def]
    rw [hi]
    rfl
  · exact hperm.trans (List.Perm.append_left _ (hord.map _))

/-! ## The planner: slices over shared arrays -/

theorem lookup_mapSet_self {κ α : Type} [BEq κ] [LawfulBEq κ] (m : List (κ × α)) (k : κ)
    (v : α) : (mapSet m k v).lookup k = some v := by
  unfold mapSet
  simp [List.lookup_cons]

theorem lookup_filter_key {κ α : Type} [BEq κ] [LawfulBEq κ] (m : List (κ × α)) {k k' : κ}
    (h : k' ≠ k) : (m.filter (fun kv => !(kv.1 == k))).lookup k' = m.lookup k' := by
  have hb : (k' == k) = false := by simpa using h
  induction m with
  | nil => rfl
  | cons x m ih =>
    obtain ⟨k1, v1⟩ := x
    by_cases h1 : k1 = k
    · subst h1
      rw [List.filter_cons_of_neg (by simp), ih, List.lookup_cons, hb]
    · rw [List.filter_cons_of_pos (by simpa using h1), List.lookup_cons, List.lookup_cons, ih]

theorem lookup_mapSet_ne {κ α : Type} [BEq κ] [LawfulBEq κ] (m : List (κ × α)) {k k' : κ}
    (v : α) (h : k' ≠ k) : (mapSet m k v).lookup k' = m.lookup k' := by
  unfold mapSet
  have hb : (k' == k) = false := by simpa using h
  rw [List.lookup_cons, hb]
  exact lookup_filter_key m h

theorem take_succ_set {α : Type} (l : List α) (n : Nat) (x : α) (h : n < l.length) :
    (l.set n x).take (n + 1) = l.take n ++ [x] := by
  induction l generalizing n with
  | nil => simp at h
  | cons y l ih =>
    cases n with
    | zero => simp
    | succ n =>
      simp only [List.set_cons_succ, List.take_succ_cons, List.cons_append, List.cons.injEq,
        true_and]
      exact ih n (by simpa using h)

theorem take_set_of_le {α : Type} (l : List α) (n k : Nat) (x : α) (h : k ≤ n) :
    (l.set n x).take k = l.take k := by
  induction l generalizing n k with
  | nil => simp
  | cons y l ih =>
    cases k with
    | zero => simp
    | succ k =>
      cases n with
      | zero => omega
      | succ n =>
        simp only [List.set_cons_succ, List.take_succ_cons, List.cons.injEq, true_and]
        exact ih n k (by omega)

theorem getD_set_self (a : Arrays) (i : Nat) (v : List BlockMeta) (h : i < a.length) :
    (a.set i v).getD i [] = v := by
  simp [List.getD_eq_getElem?_getD, List.getElem?_set, h]

theorem getD_set_ne (a : Arrays) {i j : Nat} (v : List BlockMeta) (h : j ≠ i) :
    (a.set i v).getD j [] = a.getD j [] := by
  have : ¬ i = j := fun e => h e.symm
  simp [List.getD_eq_getElem?_getD, List.getElem?_set, this]

theorem getD_append_lt (a : Arrays) (v : List BlockMeta) {j : Nat} (h : j < a.length) :
    (a ++ [v]).getD j [] = a.getD j [] := by
  simp [List.getD_eq_getElem?_getD, List.getElem?_append_left h]

theorem getD_append_length (a : Arrays) (v : List BlockMeta) :
    (a ++ [v]).getD a.length [] = v := by
  simp [List.getD_eq_getElem?_getD]

theorem Slice.read_length {a : Arrays} {s : Slice} (h : Slice.WF a s) :
    (s.read a).length = s.len := by
  unfold Slice.read
  rw [List.length_take]
  by_cases hc : s.cap = 0
  · have := h.1
    omega
  · have := (h.2 hc).2
    have := h.1
    omega

theorem Slice.read_of_len_zero (a : Arrays) {s : Slice} (h : s.len = 0) : s.read a = [] := by
  unfold Slice.read
  rw [h]
  rfl

/-- What `append` returns: the new slice reads as the old one followed by the
element, and fits the arrays; its backing array is the old one, or a fresh one. -/
theorem Slice.append_spec (growCap : Nat → Nat → Nat) {a : Arrays} {s : Slice} (x : BlockMeta)
    (h : Slice.WF a s) :
    (Slice.append growCap a s x).2.read (Slice.append growCap a s x).1 = s.read a ++ [x] ∧
    Slice.WF (Slice.append growCap a s x).1 (Slice.append growCap a s x).2 ∧
    (Slice.append growCap a s x).2.len = s.len + 1 ∧
    (Slice.append growCap a s x).2.cap ≠ 0 ∧
    (((Slice.append growCap a s x).2.arr = s.arr ∧ s.cap ≠ 0) ∨
      (Slice.append growCap a s x).2.arr = a.length) := by
  unfold Slice.append
  split_ifs with hc
  · have hc0 : s.cap ≠ 0 := by omega
    obtain ⟨h1, h2⟩ := h.2 hc0
    refine ⟨?_, ⟨?_, fun _ => ⟨?_, ?_⟩⟩, rfl, hc0, Or.inl ⟨rfl, hc0⟩⟩
    · unfold Slice.read
      simp only
      rw [getD_set_self a _ _ h1, take_succ_set _ _ _ (by omega)]
    · simp only
      omega
    · simpa using h1
    · simp only
      rw [getD_set_self a _ _ h1]
      simpa using h2
  · have hlen := Slice.read_length h
    have hl : s.len = s.cap := by have := h.1; omega
    refine ⟨?_, ⟨?_, fun _ => ⟨?_, ?_⟩⟩, rfl, ?_, Or.inr rfl⟩
    · unfold Slice.read
      simp only
      rw [getD_append_length]
      have h0 : ((a.getD s.arr []).take s.len).length = s.len := hlen
      have : s.len + 1 = ((a.getD s.arr []).take s.len ++ [x]).length := by
        rw [List.length_append, h0]
        rfl
      rw [this, List.take_left']
      rfl
    · simp only
      omega
    · simp
    · simp only
      rw [getD_append_length]
      simp only [List.length_append, List.length_replicate, List.length_singleton, hlen]
      omega
    · simp only
      omega

/-- What `append` leaves alone: a slice over another backing array reads as before. -/
theorem Slice.append_frame (growCap : Nat → Nat → Nat) {a : Arrays} (s : Slice) (x : BlockMeta)
    {t : Slice} (ht : Slice.WF a t)
    (hne : t.cap ≠ 0 → s.cap ≠ 0 → t.arr ≠ s.arr) :
    t.read (Slice.append growCap a s x).1 = t.read a ∧
      Slice.WF (Slice.append growCap a s x).1 t := by
  by_cases htc : t.cap = 0
  · have hl : t.len = 0 := by have := ht.1; omega
    exact ⟨by rw [Slice.read_of_len_zero _ hl, Slice.read_of_len_zero _ hl],
      ht.1, fun hh => absurd htc hh⟩
  · obtain ⟨h1, h2⟩ := ht.2 htc
    unfold Slice.append
    split_ifs with hc
    · have hc0 : s.cap ≠ 0 := by omega
      have hts := hne htc hc0
      refine ⟨?_, ht.1, fun _ => ⟨?_, ?_⟩⟩
      · unfold Slice.read
        simp only
        rw [getD_set_ne a _ hts]
      · simpa using h1
      · simp only
        rw [getD_set_ne a _ hts]
        exact h2
    · refine ⟨?_, ht.1, fun _ => ⟨?_, ?_⟩⟩
      · unfold Slice.read
        simp only
        rw [getD_append_lt a _ h1]
      · simp only [List.length_append, List.length_singleton]
        omega
      · simp only
        rw [getD_append_lt a _ h1]
        exact h2

theorem WF_nil (a : Arrays) : Slice.WF a Slice.nil :=
  ⟨Nat.le_refl _, fun h => absurd rfl h⟩

theorem queued_empty (L : Nat) : compactionPlan.empty.queued L = Slice.nil := rfl

theorem PlanInv_empty (a : Arrays) : PlanInv a compactionPlan.empty :=
  ⟨fun _ => WF_nil a, fun _ _ _ h => absurd rfl h⟩

theorem queued_mapSet (plan : compactionPlan) (jobs : List (String × compactorv1.CompactionJob))
    (L : Nat) (s : Slice) (L' : Nat) :
    compactionPlan.queued
        { jobsByName := jobs, queuedBlocksByLevel := mapSet plan.queuedBlocksByLevel L s } L' =
      if L' = L then s else plan.queued L' := by
  unfold compactionPlan.queued
  simp only
  by_cases h : L' = L
  · subst h
    rw [lookup_mapSet_self]
    simp
  · rw [lookup_mapSet_ne _ _ h]
    simp [h]

/-- The concatenation of the ids that `calculateHash` hashes. -/
theorem calculateHash_eq (Sum64 : String → Nat) (blocks : List BlockMeta) :
    calculateHash Sum64 blocks = Sum64 (String.join (blocks.map fun b => b.Id)) % 2 ^ 64 := by
  unfold calculateHash
  simp only
  have : ∀ (l : List BlockMeta) (s : String),
      l.foldl (fun b blk => b ++ blk.Id) s = s ++ String.join (l.map fun b => b.Id) := by
    intro l
    induction l with
    | nil =>
      intro s
      simp [String.join]
    | cons x l ih =>
      intro s
      simp only [List.foldl_cons, List.map_cons]
      rw [ih]
      unfold String.join
      simp only [List.foldl_cons]
      have e : ∀ (ss : List String) (t : String),
          ss.foldl (fun r s => r ++ s) t = t ++ ss.foldl (fun r s => r ++ s) "" := by
        intro ss
        induction ss with
        | nil => intro t; simp
        | cons y ss ih2 =>
          intro t
          simp only [List.foldl_cons]
          rw [ih2 (t ++ y), ih2 ("" ++ y)]
          simp [String.append_assoc]
      rw [e _ ("" ++ x.Id)]
      simp [String.append_assoc]
  rw [this]
  simp

/-! ## The planner: one call of `addForCompaction` -/

theorem addForCompaction_skip (growCap : Nat → Nat → Nat) (Sum64 : String → Nat) (a : Arrays)
    (plan : compactionPlan) (block : BlockMeta)
    (hL : block.CompactionLevel > globalCompactionStrategy.maxCompactionLevel) :
    plan.addForCompaction growCap Sum64 a block = (none, a, plan) := by
  unfold compactionPlan.addForCompaction
  rw [if_pos hL]

theorem addForCompaction_wait (growCap : Nat → Nat → Nat) (Sum64 : String → Nat) (a : Arrays)
    (plan : compactionPlan) (block : BlockMeta)
    (hL : ¬ block.CompactionLevel > globalCompactionStrategy.maxCompactionLevel)
    (hs : (getStrategyForLevel block.CompactionLevel).shouldCreateJob
      ((Slice.append growCap a (plan.queued block.CompactionLevel) block).2.read
        (Slice.append growCap a (plan.queued block.CompactionLevel) block).1) = false) :
    plan.addForCompaction growCap Sum64 a block =
      (none, (Slice.append growCap a (plan.queued block.CompactionLevel) block).1,
        { jobsByName := plan.jobsByName
          queuedBlocksByLevel := mapSet plan.queuedBlocksByLevel block.CompactionLevel
            (Slice.append growCap a (plan.queued block.CompactionLevel) block).2 }) := by
  unfold compactionPlan.addForCompaction
  rw [if_neg hL]
  simp only [hs, Bool.false_eq_true, if_false]

theorem addForCompaction_create (growCap : Nat → Nat → Nat) (Sum64 : String → Nat) (a : Arrays)
    (plan : compactionPlan) (block : BlockMeta)
    (hL : ¬ block.CompactionLevel > globalCompactionStrategy.maxCompactionLevel)
    (hs : (getStrategyForLevel block.CompactionLevel).shouldCreateJob
      ((Slice.append growCap a (plan.queued block.CompactionLevel) block).2.read
        (Slice.append growCap a (plan.queued block.CompactionLevel) block).1) = true) :
    plan.addForCompaction growCap Sum64 a block =
      (some
        { Name := jobName block.CompactionLevel block.Shard (calculateHash Sum64
            ((Slice.append growCap a (plan.queued block.CompactionLevel) block).2.read
              (Slice.append growCap a (plan.queued block.CompactionLevel) block).1))
          Blocks := (Slice.append growCap a (plan.queued block.CompactionLevel) block).2
          Status := CompactionStatus.COMPACTION_STATUS_UNSPECIFIED },
        (Slice.append growCap a (plan.queued block.CompactionLevel) block).1,
        { jobsByName := mapSet plan.jobsByName
            (jobName block.CompactionLevel block.Shard (calculateHash Sum64
              ((Slice.append growCap a (plan.queued block.CompactionLevel) block).2.read
                (Slice.append growCap a (plan.queued block.CompactionLevel) block).1)))
            { Name := jobName block.CompactionLevel block.Shard (calculateHash Sum64
                ((Slice.append growCap a (plan.queued block.CompactionLevel) block).2.read
                  (Slice.append growCap a (plan.queued block.CompactionLevel) block).1))
              Blocks := (Slice.append growCap a (plan.queued block.CompactionLevel) block).2
              Status := CompactionStatus.COMPACTION_STATUS_UNSPECIFIED }
          queuedBlocksByLevel :=
            mapSet (mapSet plan.queuedBlocksByLevel block.CompactionLevel
                (Slice.append growCap a (plan.queued block.CompactionLevel) block).2)
              block.CompactionLevel
              { (Slice.append growCap a (plan.queued block.CompactionLevel) block).2 with
                len := 0 } }) := by
  unfold compactionPlan.addForCompaction
  rw [if_neg hL]
  simp only [hs, if_true]
  have hq : compactionPlan.queued
      { jobsByName := mapSet plan.jobsByName
          (jobName block.CompactionLevel block.Shard (calculateHash Sum64
            ((Slice.append growCap a (plan.queued block.CompactionLevel) block).2.read
              (Slice.append growCap a (plan.queued block.CompactionLevel) block).1)))
          { Name := jobName block.CompactionLevel block.Shard (calculateHash Sum64
              ((Slice.append growCap a (plan.queued block.CompactionLevel) block).2.read
                (Slice.append growCap a (plan.queued block.CompactionLevel) block).1))
            Blocks := (Slice.append growCap a (plan.queued block.CompactionLevel) block).2
            Status := CompactionStatus.COMPACTION_STATUS_UNSPECIFIED }
        queuedBlocksByLevel := mapSet plan.queuedBlocksByLevel block.CompactionLevel
          (Slice.append growCap a (plan.queued block.CompactionLevel) block).2 }
      block.CompactionLevel =
      (Slice.append growCap a (plan.queued block.CompactionLevel) block).2 := by
    rw [queued_mapSet]
    simp
  rw [hq]

/-- What one call of `addForCompaction` does, for a block whose level is accepted, on
a plan whose pending queue for that level fits the arrays. -/
theorem addForCompaction_spec (growCap : Nat → Nat → Nat) (Sum64 : String → Nat) (a : Arrays)
    (plan : compactionPlan) (block : BlockMeta)
    (hL : ¬ block.CompactionLevel > globalCompactionStrategy.maxCompactionLevel)
    (hwf : Slice.WF a (plan.queued block.CompactionLevel)) :
    ∃ r a1 plan1, plan.addForCompaction growCap Sum64 a block = (r, a1, plan1) ∧
      (∀ L', L' ≠ block.CompactionLevel → plan1.queued L' = plan.queued L') ∧
      Slice.WF a1 (plan1.queued block.CompactionLevel) ∧
      (plan1.queued block.CompactionLevel).cap ≠ 0 ∧
      (((plan1.queued block.CompactionLevel).arr = (plan.queued block.CompactionLevel).arr ∧
          (plan.queued block.CompactionLevel).cap ≠ 0) ∨
        (plan1.queued block.CompactionLevel).arr = a.length) ∧
      (∀ t, Slice.WF a t →
        (t.cap ≠ 0 → (plan.queued block.CompactionLevel).cap ≠ 0 →
          t.arr ≠ (plan.queued block.CompactionLevel).arr) →
        t.read a1 = t.read a ∧ Slice.WF a1 t) ∧
      ((getStrategyForLevel block.CompactionLevel).shouldCreateJob
          ((plan.queued block.CompactionLevel).read a ++ [block]) = true →
        ∃ job, r = some job ∧
          job.Name = jobName block.CompactionLevel block.Shard
            (calculateHash Sum64 ((plan.queued block.CompactionLevel).read a ++ [block])) ∧
          job.Blocks.read a1 = (plan.queued block.CompactionLevel).read a ++ [block] ∧
          job.Status = CompactionStatus.COMPACTION_STATUS_UNSPECIFIED ∧
          plan1.jobsByName.lookup job.Name = some job ∧
          (∀ n, n ≠ job.Name → plan1.jobsByName.lookup n = plan.jobsByName.lookup n) ∧
          (plan1.queued block.CompactionLevel).len = 0 ∧
          (plan1.queued block.CompactionLevel).read a1 = []) ∧
      ((getStrategyForLevel block.CompactionLevel).shouldCreateJob
          ((plan.queued block.CompactionLevel).read a ++ [block]) = false →
        r = none ∧ plan1.jobsByName = plan.jobsByName ∧
          (plan1.queued block.CompactionLevel).read a1 =
            (plan.queued block.CompactionLevel).read a ++ [block]) := by
  obtain ⟨hread, hwf1, hlen1, hcap1, harr1⟩ := Slice.append_spec growCap block hwf
  have hframe := fun (t : Slice) (ht : Slice.WF a t) hne =>
    Slice.append_frame growCap (plan.queued block.CompactionLevel) block ht hne
  cases hs : (getStrategyForLevel block.CompactionLevel).shouldCreateJob
      ((plan.queued block.CompactionLevel).read a ++ [block])
  · have hs' := hs
    rw [← hread] at hs'
    refine ⟨_, _, _, addForCompaction_wait growCap Sum64 a plan block hL hs', ?_, ?_, ?_, ?_,
      hframe, fun h => absurd h (by simp), fun _ => ⟨rfl, rfl, ?_⟩⟩
    · intro L' hne
      rw [queued_mapSet, if_neg hne]
    · rw [queued_mapSet, if_pos rfl]
      exact hwf1
    · rw [queued_mapSet, if_pos rfl]
      exact hcap1
    · rw [queued_mapSet, if_pos rfl]
      exact harr1
    · rw [queued_mapSet, if_pos rfl]
      exact hread
  · have hs' := hs
    rw [← hread] at hs'
    have hq : ∀ (jobs : List (String × compactorv1.CompactionJob)) (s s' : Slice) (L' : Nat),
        compactionPlan.queued
          { jobsByName := jobs
            queuedBlocksByLevel :=
              mapSet (mapSet plan.queuedBlocksByLevel block.CompactionLevel s)
                block.CompactionLevel s' } L' =
        if L' = block.CompactionLevel then s' else plan.queued L' := by
      intro jobs s s' L'
      have := queued_mapSet
        { jobsByName := jobs
          queuedBlocksByLevel := mapSet plan.queuedBlocksByLevel block.CompactionLevel s }
        jobs block.CompactionLevel s' L'
      rw [this]
      by_cases h : L' = block.CompactionLevel
      · simp [h]
      · simp only [h, if_false]
        rw [queued_mapSet, if_neg h]
    refine ⟨_, _, _, addForCompaction_create growCap Sum64 a plan block hL hs', ?_, ?_, ?_, ?_,
      hframe, fun _ => ⟨_, rfl, ?_, hread, rfl, ?_, ?_, ?_, ?_⟩, fun h => absurd h (by simp)⟩
    · intro L' hne
      rw [hq, if_neg hne]
    · rw [hq, if_pos rfl]
      exact ⟨Nat.zero_le _, hwf1.2⟩
    · rw [hq, if_pos rfl]
      exact hcap1
    · rw [hq, if_pos rfl]
      exact harr1
    · simp only
      rw [hread]
    · simp only
      exact lookup_mapSet_self _ _ _
    · intro n hn
      simp only at hn ⊢
      exact lookup_mapSet_ne _ _ hn
    · rw [hq, if_pos rfl]
    · rw [hq, if_pos rfl]
      exact Slice.read_of_len_zero _ rfl

/-- A call of `addForCompaction` keeps the invariant of the plan, and the pending
queues afterwards are those of the planner on plain lists. -/
theorem addForCompaction_inv (growCap : Nat → Nat → Nat) (Sum64 : String → Nat) {a : Arrays}
    {plan : compactionPlan} (block : BlockMeta) (hI : PlanInv a plan) :
    PlanInv (plan.addForCompaction growCap Sum64 a block).2.1
        (plan.addForCompaction growCap Sum64 a block).2.2 ∧
      (plan.addForCompaction growCap Sum64 a block).1.map
          (fun job => (job.Name, job.Blocks.read
            (plan.addForCompaction growCap Sum64 a block).2.1)) =
        (if block.CompactionLevel > globalCompactionStrategy.maxCompactionLevel then none
         else if (getStrategyForLevel block.CompactionLevel).shouldCreateJob
            ((plan.queued block.CompactionLevel).read a ++ [block]) then
          some (jobName block.CompactionLevel block.Shard (calculateHash Sum64
            ((plan.queued block.CompactionLevel).read a ++ [block])),
            (plan.queued block.CompactionLevel).read a ++ [block])
         else none) ∧
      ∀ L', ((plan.addForCompaction growCap Sum64 a block).2.2.queued L').read
          (plan.addForCompaction growCap Sum64 a block).2.1 =
        if block.CompactionLevel > globalCompactionStrategy.maxCompactionLevel then
          (plan.queued L').read a
        else if L' = block.CompactionLevel then
          (if (getStrategyForLevel block.CompactionLevel).shouldCreateJob
              ((plan.queued block.CompactionLevel).read a ++ [block]) then []
           else (plan.queued block.CompactionLevel).read a ++ [block])
        else (plan.queued L').read a := by
  by_cases hL : block.CompactionLevel > globalCompactionStrategy.maxCompactionLevel
  · rw [addForCompaction_skip growCap Sum64 a plan block hL]
    refine ⟨hI, ?_, fun _ => ?_⟩
    · simp [hL]
    · simp [hL]
  · obtain ⟨r, a1, plan1, he, hother, hwf1, hcap1, harr1, hframe, hyes, hno⟩ :=
      addForCompaction_spec growCap Sum64 a plan block hL (hI.1 _)
    rw [he]
    simp only [hL, if_false]
    have hfr : ∀ L', L' ≠ block.CompactionLevel →
        (plan.queued L').read a1 = (plan.queued L').read a ∧ Slice.WF a1 (plan.queued L') :=
      fun L' hne => hframe _ (hI.1 L') (fun h1 h2 => hI.2 L' _ hne h1 h2)
    refine ⟨⟨?_, ?_⟩, ?_, ?_⟩
    · intro L'
      by_cases h : L' = block.CompactionLevel
      · rw [h]; exact hwf1
      · rw [hother L' h]
        exact (hfr L' h).2
    · intro L1 L2 hne h1 h2
      by_cases e1 : L1 = block.CompactionLevel
      · have e2 : L2 ≠ block.CompactionLevel := fun e => hne (e1.trans e.symm)
        rw [hother L2 e2] at h2 ⊢
        rw [e1]
        rcases harr1 with ⟨h3, h4⟩ | h3
        · rw [h3]
          exact fun e => hI.2 L2 _ e2 h2 h4 e.symm
        · rw [h3]
          have := ((hI.1 L2).2 h2).1
          omega
      · rw [hother L1 e1] at h1 ⊢
        by_cases e2 : L2 = block.CompactionLevel
        · rw [e2]
          rcases harr1 with ⟨h3, h4⟩ | h3
          · rw [h3]
            exact hI.2 L1 _ e1 h1 h4
          · rw [h3]
            have := ((hI.1 L1).2 h1).1
            omega
        · rw [hother L2 e2] at h2 ⊢
          exact hI.2 L1 L2 hne h1 h2
    · cases hs : (getStrategyForLevel block.CompactionLevel).shouldCreateJob
          ((plan.queued block.CompactionLevel).read a ++ [block])
      · rw [(hno hs).1]
        simp
      · obtain ⟨job, hr, hn, hb, _⟩ := hyes hs
        rw [hr]
        simp [hn, hb]
    · intro L'
      by_cases h : L' = block.CompactionLevel
      · rw [h]
        simp only [if_true]
        cases hs : (getStrategyForLevel block.CompactionLevel).shouldCreateJob
            ((plan.queued block.CompactionLevel).read a ++ [block])
        · simpa using (hno hs).2.2
        · obtain ⟨job, _, _, _, _, _, _, _, hq⟩ := hyes hs
          simpa using hq
      · simp only [h, if_false]
        rw [hother L' h]
        exact (hfr L' h).1

/-- The calls on the plan return what the planner on plain lists returns. -/
theorem run_eq_planResults (growCap : Nat → Nat → Nat) (Sum64 : String → Nat)
    (blocks : List BlockMeta) : ∀ (a : Arrays) (plan : compactionPlan)
    (pending : Nat → List BlockMeta), PlanInv a plan →
    (∀ L, (plan.queued L).read a = pending L) →
    (plan.run growCap Sum64 a blocks).1 = planResults Sum64 pending blocks ∧
      PlanInv (plan.run growCap Sum64 a blocks).2.1 (plan.run growCap Sum64 a blocks).2.2 := by
  induction blocks with
  | nil =>
    intro a plan pending hI _
    exact ⟨rfl, hI⟩
  | cons b bs ih =>
    intro a plan pending hI hp
    obtain ⟨hI1, hres, hq⟩ := addForCompaction_inv growCap Sum64 b hI
    unfold compactionPlan.run planResults
    simp only
    rw [hres, hp]
    by_cases hL : b.CompactionLevel > globalCompactionStrategy.maxCompactionLevel
    · simp only [hL, if_true] at hq ⊢
      obtain ⟨h1, h2⟩ := ih _ _ pending hI1 (fun L => (hq L).trans (hp L))
      exact ⟨by rw [h1], h2⟩
    · simp only [hL, if_false] at hq ⊢
      cases hs : (getStrategyForLevel b.CompactionLevel).shouldCreateJob
          (pending b.CompactionLevel ++ [b])
      · simp only [Bool.false_eq_true, if_false]
        obtain ⟨h1, h2⟩ := ih _ _
          (Function.update pending b.CompactionLevel (pending b.CompactionLevel ++ [b])) hI1
          (fun L => by
            rw [hq L, hp, hs]
            by_cases h : L = b.CompactionLevel
            · subst h; simp
            · simp [h, hp])
        exact ⟨by rw [h1], h2⟩
      · simp only [if_true]
        obtain ⟨h1, h2⟩ := ih _ _ (Function.update pending b.CompactionLevel []) hI1
          (fun L => by
            rw [hq L, hp, hs]
            by_cases h : L = b.CompactionLevel
            · subst h; simp
            · simp [h, hp])
        exact ⟨by rw [h1], h2⟩

/-! ## Job names: decimal numerals between separators -/

theorem digitChar_table :
    ∀ m, m < 10 → (Nat.digitChar m).toNat - 48 = m ∧ Nat.digitChar m ≠ '-' := by
  decide

theorem digitChar_val {m : Nat} (hm : m < 10) :
    (Nat.digitChar m).toNat - 48 = m ∧ Nat.digitChar m ≠ '-' :=
  digitChar_table m hm

theorem decVal_append (ds : List Char) (c : Char) :
    decVal (ds ++ [c]) = decVal ds * 10 + (c.toNat - 48) := by
  unfold decVal
  rw [List.foldl_append]
  rfl

/-- The digits `Nat.toDigitsCore` puts in front of its accumulator. -/
theorem toDigitsCore_dec : ∀ (fuel n : Nat) (acc : List Char), n < fuel →
    ∃ ds : List Char, Nat.toDigitsCore 10 fuel n acc = ds ++ acc ∧
      (∀ c, c ∈ ds → c ≠ '-') ∧ decVal ds = n
  | 0, n, _, hlt => absurd hlt (Nat.not_lt_zero n)
  | fuel + 1, n, acc, hlt => by
    have hd := digitChar_val (Nat.mod_lt n (by decide : 0 < 10))
    have hstep : Nat.toDigitsCore 10 (fuel + 1) n acc =
        if n / 10 = 0 then Nat.digitChar (n % 10) :: acc
        else Nat.toDigitsCore 10 fuel (n / 10) (Nat.digitChar (n % 10) :: acc) := rfl
    rw [hstep]
    split_ifs with hq
    · refine ⟨[Nat.digitChar (n % 10)], rfl, fun c hc => ?_, ?_⟩
      · rw [List.mem_singleton.1 hc]
        exact hd.2
      · have hone := decVal_append [] (Nat.digitChar (n % 10))
        rw [List.nil_append, hd.1] at hone
        rw [hone]
        have : decVal [] = 0 := rfl
        omega
    · obtain ⟨front, hfront, hsep, hval⟩ :=
        toDigitsCore_dec fuel (n / 10) (Nat.digitChar (n % 10) :: acc) (by omega)
      refine ⟨front ++ [Nat.digitChar (n % 10)], ?_, fun c hc => ?_, ?_⟩
      · rw [hfront, List.append_assoc]
        rfl
      · rcases List.mem_append.1 hc with hc1 | hc1
        · exact hsep c hc1
        · rw [List.mem_singleton.1 hc1]
          exact hd.2
      · rw [decVal_append, hval, hd.1]
        omega

/-- The decimal numeral of `n`: no separator, and it stands for `n`. -/
theorem toString_dec (n : Nat) :
    (∀ c, c ∈ (toString n).data → c ≠ '-') ∧ decVal (toString n).data = n := by
  obtain ⟨ds, hds, hne, hval⟩ := toDigitsCore_dec (n + 1) n [] (Nat.lt_succ_self n)
  have : (toString n).data = ds := by
    have e : (toString n).data = Nat.toDigitsCore 10 (n + 1) n [] := rfl
    rw [e, hds]
    simp
  rw [this]
  exact ⟨hne, hval⟩

theorem toString_nat_inj {m n : Nat} (h : (toString m).data = (toString n).data) : m = n := by
  have h1 := (toString_dec m).2
  rw [h, (toString_dec n).2] at h1
  exact h1.symm

/-- Two numerals followed by a separator and a rest: equal texts have equal numerals
and equal rests. -/
theorem split_at_dash : ∀ (ds ds' r r' : List Char), (∀ c, c ∈ ds → c ≠ '-') →
    (∀ c, c ∈ ds' → c ≠ '-') → ds ++ '-' :: r = ds' ++ '-' :: r' → ds = ds' ∧ r = r' := by
  intro ds
  induction ds with
  | nil =>
    intro ds' r r' _ h' he
    cases ds' with
    | nil =>
      simp only [List.nil_append, List.cons.injEq, true_and] at he
      exact ⟨rfl, he⟩
    | cons c ds' =>
      simp only [List.nil_append, List.cons_append, List.cons.injEq] at he
      exact absurd he.1.symm (h' c (List.mem_cons_self _ _))
  | cons d ds ih =>
    intro ds' r r' h h' he
    cases ds' with
    | nil =>
      simp only [List.nil_append, List.cons_append, List.cons.injEq] at he
      exact absurd he.1 (h d (List.mem_cons_self _ _))
    | cons c ds' =>
      simp only [List.cons_append, List.cons.injEq] at he
      obtain ⟨h1, h2⟩ := ih ds' r r' (fun c hc => h c (List.mem_cons_of_mem _ hc))
        (fun c hc => h' c (List.mem_cons_of_mem _ hc)) he.2
      exact ⟨by rw [he.1, h1], h2⟩

theorem jobName_data (level shard hash : Nat) :
    (jobName level shard hash).data =
      'L' :: ((toString level).data ++ '-' :: 'S' :: ((toString shard).data ++
        '-' :: (toString hash).data)) := by
  unfold jobName
  simp only [String.data_append]
  simp

/-- A job name determines the level, the shard and the hash it was formed from. -/
theorem jobName_inj {l s h l' s' h' : Nat} (e : jobName l s h = jobName l' s' h') :
    l = l' ∧ s = s' ∧ h = h' := by
  have e1 : (jobName l s h).data = (jobName l' s' h').data := by rw [e]
  rw [jobName_data, jobName_data] at e1
  simp only [List.cons.injEq, true_and] at e1
  obtain ⟨a1, a2⟩ := split_at_dash _ _ _ _ (toString_dec l).1 (toString_dec l').1 e1
  simp only [List.cons.injEq, true_and] at a2
  obtain ⟨b1, b2⟩ := split_at_dash _ _ _ _ (toString_dec s).1 (toString_dec s').1 a2
  exact ⟨toString_nat_inj a1, toString_nat_inj b1, toString_nat_inj b2⟩

/-! ## Lemmas for the claims about `rebuild` and the planner -/

theorem getTotalSize_eq (blocks : List BlockMeta) :
    getTotalSize blocks = (blocks.map fun b => b.Size).sum % 2 ^ 64 := by
  unfold getTotalSize
  have h : ∀ (l : List BlockMeta) (acc : Nat),
      l.foldl (fun t b => (t + b.Size) % 2 ^ 64) acc % 2 ^ 64 =
        (acc + (l.map fun b => b.Size).sum) % 2 ^ 64 := by
    intro l
    induction l with
    | nil => intro acc; simp
    | cons x l ih =>
      intro acc
      simp only [List.foldl_cons, List.map_cons, List.sum_cons]
      rw [ih, Nat.mod_add_mod, Nat.add_assoc]
  have h2 : ∀ (l : List BlockMeta) (acc : Nat), acc < 2 ^ 64 →
      l.foldl (fun t b => (t + b.Size) % 2 ^ 64) acc < 2 ^ 64 := by
    intro l
    induction l with
    | nil => intro acc ha; exact ha
    | cons x l ih =>
      intro acc _
      exact ih _ (Nat.mod_lt _ (by decide))
  have := h blocks 0
  rw [Nat.mod_eq_of_lt (h2 blocks 0 (by decide)), Nat.zero_add] at this
  exact this

theorem getStrategyForLevel_zero :
    getStrategyForLevel 0 =
      { minBlocks := 10, maxBlocks := 20, minTotalSizeBytes := 524288,
        maxTotalSizeBytes := 2097152 } := by
  decide

theorem level0_should (blocks : List BlockMeta) :
    (getStrategyForLevel 0).shouldCreateJob blocks = true ↔ level0Threshold blocks := by
  rw [getStrategyForLevel_zero]
  unfold compactionLevelStrategy.shouldCreateJob level0Threshold
  simp only [Bool.and_eq_true, decide_eq_true_eq, ge_iff_le]
  split_ifs with h1 h2 h3
  · simp only [true_iff]
    exact Or.inl ⟨by omega, h1.2⟩
  · simp only [decide_eq_true_eq]
    constructor
    · intro h; exact Or.inr (Or.inl (by omega))
    · intro h
      rcases h with h | h | h
      · exact absurd ⟨h2, h.2⟩ h1
      · omega
      · exact absurd ⟨h2, by omega⟩ h1
  · simp only [decide_eq_true_eq]
    constructor
    · intro h; exact Or.inr (Or.inr h)
    · intro h
      rcases h with h | h | h
      · exact absurd (by omega) h2
      · exact absurd (by omega) h2
      · exact h
  · simp only [Bool.false_eq_true, false_iff]
    intro h
    rcases h with h | h | h
    · exact h3 h.2
    · exact h2 (by omega)
    · exact h3 (by omega)

/-- The planner on plain lists, for level-0 blocks: before the threshold is reached
no call returns a job, and the call at which it is reached returns the job of all
blocks pending so far. -/
theorem planResults_level0 (Sum64 : String → Nat) : ∀ (blocks : List BlockMeta)
    (pending : Nat → List BlockMeta), (∀ b, b ∈ blocks → b.CompactionLevel = 0) →
    ∀ i, i < blocks.length →
    (∀ j, j < i → ¬ level0Threshold (pending 0 ++ blocks.take (j + 1))) →
    (∀ j, j < i → (planResults Sum64 pending blocks)[j]? = some none) ∧
    (¬ level0Threshold (pending 0 ++ blocks.take (i + 1)) →
      (planResults Sum64 pending blocks)[i]? = some none) ∧
    (level0Threshold (pending 0 ++ blocks.take (i + 1)) →
      ∃ b, blocks[i]? = some b ∧ (planResults Sum64 pending blocks)[i]? =
        some (some (jobName 0 b.Shard (calculateHash Sum64 (pending 0 ++ blocks.take (i + 1))),
          pending 0 ++ blocks.take (i + 1)))) := by
  intro blocks
  induction blocks with
  | nil => intro pending _ i hi; simp at hi
  | cons b bs ih =>
    intro pending hlev i hi hbefore
    have hb0 : b.CompactionLevel = 0 := hlev b (List.mem_cons_self _ _)
    have hmax : ¬ (0 > globalCompactionStrategy.maxCompactionLevel) := by decide
    unfold planResults
    simp only [hb0, hmax, if_false]
    cases i with
    | zero =>
      simp only [Nat.zero_add, List.take_succ_cons, List.take_zero, List.getElem?_cons_zero]
      refine ⟨fun j hj => absurd hj (Nat.not_lt_zero j), ?_, ?_⟩
      · intro hn
        have : (getStrategyForLevel 0).shouldCreateJob (pending 0 ++ [b]) = false := by
          rw [← Bool.not_eq_true, level0_should]; exact hn
        simp [this]
      · intro hy
        have : (getStrategyForLevel 0).shouldCreateJob (pending 0 ++ [b]) = true :=
          (level0_should _).2 hy
        exact ⟨b, rfl, by simp [this]⟩
    | succ i =>
      have h0 := hbefore 0 (Nat.succ_pos i)
      simp only [Nat.zero_add, List.take_succ_cons, List.take_zero] at h0
      have hs : (getStrategyForLevel 0).shouldCreateJob (pending 0 ++ [b]) = false := by
        rw [← Bool.not_eq_true, level0_should]; exact h0
      simp only [hs, Bool.false_eq_true, if_false]
      have hp : Function.update pending 0 (pending 0 ++ [b]) 0 = pending 0 ++ [b] := by simp
      have hbefore' : ∀ j, j < i → ¬ level0Threshold
          (Function.update pending 0 (pending 0 ++ [b]) 0 ++ bs.take (j + 1)) := by
        intro j hj
        have := hbefore (j + 1) (by omega)
        rw [hp]
        simpa using this
      obtain ⟨r1, r2, r3⟩ := ih (Function.update pending 0 (pending 0 ++ [b]))
        (fun x hx => hlev x (List.mem_cons_of_mem _ hx)) i (by simpa using hi) hbefore'
      rw [hp] at r2 r3
      refine ⟨?_, ?_, ?_⟩
      · intro j hj
        cases j with
        | zero => simp
        | succ j =>
          simp only [List.getElem?_cons_succ]
          exact r1 j (by omega)
      · intro hn
        simp only [List.getElem?_cons_succ]
        apply r2
        simpa using hn
      · intro hy
        simp only [List.getElem?_cons_succ, List.take_succ_cons]
        have e : pending 0 ++ b :: bs.take (i + 1) = pending 0 ++ [b] ++ bs.take (i + 1) := by
          simp
        rw [e]
        apply r3
        simpa using hy

/-- The planner on plain lists: the name of a job it returns. -/
theorem planResults_name (Sum64 : String → Nat) : ∀ (blocks : List BlockMeta)
    (pending : Nat → List BlockMeta) (i : Nat) (name : String) (Q : List BlockMeta),
    (planResults Sum64 pending blocks)[i]? = some (some (name, Q)) →
    ∃ b, blocks[i]? = some b ∧
      name = jobName b.CompactionLevel b.Shard (calculateHash Sum64 Q) := by
  intro blocks
  induction blocks with
  | nil => intro pending i name Q h; simp [planResults] at h
  | cons b bs ih =>
    intro pending i name Q h
    unfold planResults at h
    cases i with
    | zero =>
      split_ifs at h with h1 h2
      · simp at h
      · simp only [List.getElem?_cons_zero, Option.some.injEq, Prod.mk.injEq] at h
        exact ⟨b, by simp, by rw [← h.1, h.2]⟩
      · simp at h
    | succ i =>
      simp only [List.getElem?_cons_succ]
      split_ifs at h with h1 h2
      · exact ih _ i name Q (by simpa using h)
      · exact ih _ i name Q (by simpa using h)
      · exact ih _ i name Q (by simpa using h)

theorem exQueueA_rebuild :
    ∃ q', exQueueA.rebuild exQueueA.jobs = some q' ∧ q'.pq = [0, 0] ∧
      q'.jobs = [("a", 0)] ∧ q'.heapNames = ["a", "a"] := by
  obtain ⟨q', h, hperm, _, hk, hj, _⟩ :=
    rebuild_spec (q := exQueueA) (fun p hp => by
      have : p = 0 := by simpa [exQueueA] using hp
      subst this
      decide)
      (fun kv hkv => by
        have : kv = ("a", 0) := by simpa [exQueueA] using hkv
        subst this
        decide) (List.Perm.refl _)
  have hpq : q'.pq = [0, 0] := by
    have e : exQueueA.pq ++ exQueueA.jobs.map Prod.snd = List.replicate 2 0 := rfl
    rw [e] at hperm
    exact List.perm_replicate.1 hperm
  refine ⟨q', h, hpq, hj, ?_⟩
  unfold jobQueue.heapNames
  rw [hpq]
  have hn : (entryAt q'.mem 0).name = "a" := (eq_of_key_eq (hk.2 0)).1
  simp [hn]

/-! ## The claims about `rebuild` and the planner -/

/-- C15, the input on which `rebuild` does not give one heap entry per job: the
reachable queue `exQueueA` holds job `a` in the jobs map and in the heap; `rebuild`
keeps what the heap held (`q.pq[0:]`) and appends the entries of the jobs map, so the
heap afterwards holds the entry of `a` twice. -/
theorem rebuild_keeps_old_heap :
    Reachable exQueueA ∧ exQueueA.jobs = [("a", 0)] ∧ exQueueA.pq = [0] ∧
    ∃ q', exQueueA.rebuild exQueueA.jobs = some q' ∧ q'.pq = [0, 0] ∧
      q'.jobs = [("a", 0)] ∧ q'.heapNames = ["a", "a"] ∧ ¬ q'.heapNames.Nodup :=
  ⟨exQueueA_reachable, rfl, rfl,
    exQueueA_rebuild.elim fun q' h => ⟨q', h.1, h.2.1, h.2.2.1, h.2.2.2, by
      rw [h.2.2.2]; decide⟩⟩

/-- C15, what `rebuild` does achieve. On a queue whose heap and jobs map hold
addresses of allocated entries, for every iteration order `order` of the jobs map,
`rebuild` returns; the heap afterwards consists of what the heap held before and one
entry per entry of the jobs map, so exactly one entry per job when the heap was empty
before; it satisfies the min-heap property with respect to `Less`; the jobs map and
the entries (but for their `index` fields) are unchanged. -/
theorem rebuild_from_jobs (q : jobQueue) (order : List (String × Nat))
    (hpq : ∀ p, p ∈ q.pq → p < q.mem.length)
    (hjobs : ∀ kv, kv ∈ q.jobs → kv.2 < q.mem.length) (hord : order.Perm q.jobs) :
    ∃ q', q.rebuild order = some q' ∧
      q'.pq.Perm (q.pq ++ q.jobs.map Prod.snd) ∧
      (q.pq = [] → q'.pq.Perm (q.jobs.map Prod.snd)) ∧
      (∀ k : Nat, 0 < k → k < q'.pq.length →
        q'.pq.Less q'.mem (k : Int) (((k - 1) / 2 : Nat) : Int) = some false) ∧
      q'.jobs = q.jobs ∧ q'.lease = q.lease ∧
      q'.mem.length = q.mem.length ∧
      ∀ p, (entryAt q'.mem p).key = (entryAt q.mem p).key := by
  obtain ⟨q', h, hperm, hheap, hk, hj, hl⟩ := rebuild_spec hpq hjobs hord
  have hv : PtrOk q'.mem q'.pq := by
    intro p hp
    rw [hk.1]
    rcases List.mem_append.1 (hperm.mem_iff.1 hp) with h1 | h1
    · exact hpq p h1
    · obtain ⟨kv, hkv, rfl⟩ := List.mem_map.1 h1
      exact hjobs kv hkv
  refine ⟨q', h, hperm, ?_, ?_, hj, hl, hk.1, hk.2⟩
  · intro hnil
    rw [hnil] at hperm
    simpa using hperm
  · intro k hk0 hkl
    rw [Less_ptr hv hkl (by omega)]
    exact congrArg some (hheap k hk0 hkl)

/-- C16. The decision table of `shouldCreateJob`, with `count = len(blocks)` and
`totalSize = getTotalSize(blocks)`, which is the sum of the block sizes as a `uint64`
(the exact sum whenever that is below `2 ^ 64`): true when both minima are met; equal
to `count >= maxBlocks` when only the block minimum is met; equal to
`totalSize >= maxTotalSizeBytes` when only the size minimum is met; false when neither
is met. -/
theorem shouldCreateJob_table (s : compactionLevelStrategy) (blocks : List BlockMeta) :
    ((blocks.length : Int) ≥ s.minBlocks ∧ getTotalSize blocks ≥ s.minTotalSizeBytes →
      s.shouldCreateJob blocks = true) ∧
    ((blocks.length : Int) ≥ s.minBlocks ∧ ¬ getTotalSize blocks ≥ s.minTotalSizeBytes →
      (s.shouldCreateJob blocks = true ↔ (blocks.length : Int) ≥ s.maxBlocks)) ∧
    (¬ (blocks.length : Int) ≥ s.minBlocks ∧ getTotalSize blocks ≥ s.minTotalSizeBytes →
      (s.shouldCreateJob blocks = true ↔ getTotalSize blocks ≥ s.maxTotalSizeBytes)) ∧
    (¬ (blocks.length : Int) ≥ s.minBlocks ∧ ¬ getTotalSize blocks ≥ s.minTotalSizeBytes →
      s.shouldCreateJob blocks = false) ∧
    getTotalSize blocks = (blocks.map fun b => b.Size).sum % 2 ^ 64 ∧
    ((blocks.map fun b => b.Size).sum < 2 ^ 64 →
      getTotalSize blocks = (blocks.map fun b => b.Size).sum) := by
  refine ⟨?_, ?_, ?_, ?_, getTotalSize_eq blocks, ?_⟩
  · intro h
    unfold compactionLevelStrategy.shouldCreateJob
    simp [h.1, h.2]
  · intro h
    unfold compactionLevelStrategy.shouldCreateJob
    simp [h.1, h.2]
  · intro h
    unfold compactionLevelStrategy.shouldCreateJob
    simp [h.1, h.2]
  · intro h
    unfold compactionLevelStrategy.shouldCreateJob
    simp [h.1, h.2]
  · intro h
    rw [getTotalSize_eq, Nat.mod_eq_of_lt h]

/-- C17. Level-0 blocks are added one by one to a plan whose level-0 queue is empty.
If the threshold of the level-0 strategy (at least 10 blocks and 512KB, or at least 20
blocks, or at least 2MB) is not reached by the blocks accumulated at any call before
call `i`, then every call before call `i` returns no job, and call `i` returns a job
if the threshold is reached by the first `i + 1` blocks (the job then consists of
exactly these blocks) and no job otherwise. -/
theorem job_at_first_threshold (growCap : Nat → Nat → Nat) (Sum64 : String → Nat)
    (a : Arrays) (plan : compactionPlan) (blocks : List BlockMeta)
    (hI : PlanInv a plan) (hempty : (plan.queued 0).read a = [])
    (hlev : ∀ b, b ∈ blocks → b.CompactionLevel = 0)
    (i : Nat) (hi : i < blocks.length)
    (hbefore : ∀ j, j < i → ¬ level0Threshold (blocks.take (j + 1))) :
    (∀ j, j < i → (plan.run growCap Sum64 a blocks).1[j]? = some none) ∧
    (¬ level0Threshold (blocks.take (i + 1)) →
      (plan.run growCap Sum64 a blocks).1[i]? = some none) ∧
    (level0Threshold (blocks.take (i + 1)) →
      ∃ name, (plan.run growCap Sum64 a blocks).1[i]? =
        some (some (name, blocks.take (i + 1)))) ∧
    (∀ bs, level0Threshold bs ↔ (getStrategyForLevel 0).shouldCreateJob bs = true) := by
  have hrun := (run_eq_planResults growCap Sum64 blocks a plan
    (fun L => (plan.queued L).read a) hI (fun _ => rfl)).1
  rw [hrun]
  obtain ⟨r1, r2, r3⟩ := planResults_level0 Sum64 blocks (fun L => (plan.queued L).read a)
    hlev i hi (by simpa [hempty] using hbefore)
  simp only [hempty, List.nil_append] at r2 r3
  refine ⟨r1, r2, ?_, fun bs => (level0_should bs).symm⟩
  intro hy
  obtain ⟨b, _, hb⟩ := r3 hy
  exact ⟨_, hb⟩

/-- C18. For a block whose level is accepted (at most `maxCompactionLevel`) and a plan
whose pending queue `Q` for that level fits the arrays: if the strategy of the level
accepts `Q` followed by the block, `addForCompaction` returns a job whose block list
reads `Q` followed by the block, whose name is `L<level>-S<shard>-<hash>` for the hash
of that list, with status unspecified, recorded in `jobsByName` under its name, and
the pending queue of the level is empty afterwards; otherwise it returns no job,
`jobsByName` is unchanged and the pending queue of the level reads `Q` followed by the
block. The pending queues of the other levels are the same slices as before. -/
theorem addForCompaction_creates_or_queues (growCap : Nat → Nat → Nat) (Sum64 : String → Nat)
    (a : Arrays) (plan : compactionPlan) (block : BlockMeta)
    (hL : block.CompactionLevel ≤ globalCompactionStrategy.maxCompactionLevel)
    (hwf : Slice.WF a (plan.queued block.CompactionLevel)) :
    ∃ r a1 plan1, plan.addForCompaction growCap Sum64 a block = (r, a1, plan1) ∧
      ((getStrategyForLevel block.CompactionLevel).shouldCreateJob
          ((plan.queued block.CompactionLevel).read a ++ [block]) = true →
        ∃ job, r = some job ∧
          job.Blocks.read a1 = (plan.queued block.CompactionLevel).read a ++ [block] ∧
          job.Name = "L" ++ toString block.CompactionLevel ++ "-S" ++ toString block.Shard ++
            "-" ++ toString (calculateHash Sum64
              ((plan.queued block.CompactionLevel).read a ++ [block])) ∧
          job.Status = CompactionStatus.COMPACTION_STATUS_UNSPECIFIED ∧
          plan1.jobsByName.lookup job.Name = some job ∧
          (plan1.queued block.CompactionLevel).len = 0 ∧
          (plan1.queued block.CompactionLevel).read a1 = []) ∧
      ((getStrategyForLevel block.CompactionLevel).shouldCreateJob
          ((plan.queued block.CompactionLevel).read a ++ [block]) = false →
        r = none ∧ plan1.jobsByName = plan.jobsByName ∧
          (plan1.queued block.CompactionLevel).read a1 =
            (plan.queued block.CompactionLevel).read a ++ [block]) ∧
      (∀ L', L' ≠ block.CompactionLevel → plan1.queued L' = plan.queued L') := by
  obtain ⟨r, a1, plan1, he, hother, _, _, _, _, hyes, hno⟩ :=
    addForCompaction_spec growCap Sum64 a plan block (by omega) hwf
  refine ⟨r, a1, plan1, he, ?_, hno, hother⟩
  intro hs
  obtain ⟨job, hr, hn, hb, hst, hlk, _, hlen, hq⟩ := hyes hs
  exact ⟨job, hr, hb, hn, hst, hlk, hlen, hq⟩

/-- C19. The name of a job that `addForCompaction` returns is
`L<level>-S<shard>-<hash>` with the level and the shard of the block just added and
`hash = Sum64` of the concatenation of the ids of the job's blocks in queue order: it
depends on nothing else. Replaying a sequence of blocks against a fresh plan, with
whatever the memory holds and however the runtime grows slices, gives the same
results (name and block list of the job, or no job) at the same calls. -/
theorem job_name_deterministic (growCap growCap' : Nat → Nat → Nat) (Sum64 : String → Nat)
    (a a' : Arrays) (blocks : List BlockMeta) :
    (compactionPlan.empty.run growCap Sum64 a blocks).1 =
      (compactionPlan.empty.run growCap' Sum64 a' blocks).1 ∧
    (∀ (i : Nat) (name : String) (Q : List BlockMeta),
      (compactionPlan.empty.run growCap Sum64 a blocks).1[i]? = some (some (name, Q)) →
      ∃ b, blocks[i]? = some b ∧
        name = jobName b.CompactionLevel b.Shard
          (Sum64 (String.join (Q.map fun x => x.Id)) % 2 ^ 64)) ∧
    (∀ (plan : compactionPlan) (block : BlockMeta) (job : compactorv1.CompactionJob),
      Slice.WF a (plan.queued block.CompactionLevel) →
      (plan.addForCompaction growCap Sum64 a block).1 = some job →
      job.Name = jobName block.CompactionLevel block.Shard
        (Sum64 (String.join
          ((job.Blocks.read (plan.addForCompaction growCap Sum64 a block).2.1).map
            fun x => x.Id)) % 2 ^ 64)) := by
  have h1 := (run_eq_planResults growCap Sum64 blocks a compactionPlan.empty (fun _ => [])
    (PlanInv_empty a) (fun _ => rfl)).1
  have h2 := (run_eq_planResults growCap' Sum64 blocks a' compactionPlan.empty (fun _ => [])
    (PlanInv_empty a') (fun _ => rfl)).1
  refine ⟨h1.trans h2.symm, ?_, ?_⟩
  · intro i name Q h
    rw [h1] at h
    obtain ⟨b, hb, hn⟩ := planResults_name Sum64 blocks _ i name Q h
    exact ⟨b, hb, by rw [hn, calculateHash_eq]⟩
  · intro plan block job hwf hj
    by_cases hL : block.CompactionLevel > globalCompactionStrategy.maxCompactionLevel
    · rw [addForCompaction_skip growCap Sum64 a plan block hL] at hj
      simp at hj
    · obtain ⟨r, a1, plan1, he, _, _, _, _, _, hyes, hno⟩ :=
        addForCompaction_spec growCap Sum64 a plan block hL hwf
      rw [he] at hj ⊢
      simp only at hj ⊢
      cases hs : (getStrategyForLevel block.CompactionLevel).shouldCreateJob
          ((plan.queued block.CompactionLevel).read a ++ [block])
      · rw [(hno hs).1] at hj
        simp at hj
      · obtain ⟨job', hr, hn, hb, _⟩ := hyes hs
        rw [hr] at hj
        simp only [Option.some.injEq] at hj
        subst hj
        rw [hn, hb, calculateHash_eq]

/-- C20, two different lists of block ids with one job name: on a fresh plan, the
level-0 blocks with ids `ab`, `c` and the level-0 blocks with ids `a`, `bc` (the second
block of 2MB each time, so that the second call forms a job) give jobs of the same
name, whatever the hash function and the growth of slices are, because the ids are
concatenated before they are hashed. -/
theorem distinct_id_lists_same_name :
    [exBlock "ab" 0 0, exBlock "c" 0 2097152].map (fun b => b.Id) ≠
      [exBlock "a" 0 0, exBlock "bc" 0 2097152].map (fun b => b.Id) ∧
    ∀ (growCap : Nat → Nat → Nat) (Sum64 : String → Nat), ∃ name,
      (compactionPlan.empty.run growCap Sum64 []
        [exBlock "ab" 0 0, exBlock "c" 0 2097152]).1 =
        [none, some (name, [exBlock "ab" 0 0, exBlock "c" 0 2097152])] ∧
      (compactionPlan.empty.run growCap Sum64 []
        [exBlock "a" 0 0, exBlock "bc" 0 2097152]).1 =
        [none, some (name, [exBlock "a" 0 0, exBlock "bc" 0 2097152])] := by
  refine ⟨by decide, fun growCap Sum64 => ⟨jobName 0 0 (Sum64 "abc" % 2 ^ 64), ?_, ?_⟩⟩
  · rw [(run_eq_planResults growCap Sum64 _ [] compactionPlan.empty (fun _ => [])
      (PlanInv_empty []) (fun _ => rfl)).1]
    rfl
  · rw [(run_eq_planResults growCap Sum64 _ [] compactionPlan.empty (fun _ => [])
      (PlanInv_empty []) (fun _ => rfl)).1]
    rfl

/-- C20, amended. Two jobs that `addForCompaction` returns (in whatever states) have
the same name if and only if they were formed at the same level and shard and the
hashes of the concatenations of the ids of their blocks are equal. -/
theorem job_name_eq_iff (growCap growCap' : Nat → Nat → Nat) (Sum64 : String → Nat)
    (a a' : Arrays) (plan plan' : compactionPlan) (block block' : BlockMeta)
    (job job' : compactorv1.CompactionJob)
    (hwf : Slice.WF a (plan.queued block.CompactionLevel))
    (hwf' : Slice.WF a' (plan'.queued block'.CompactionLevel))
    (hj : (plan.addForCompaction growCap Sum64 a block).1 = some job)
    (hj' : (plan'.addForCompaction growCap' Sum64 a' block').1 = some job') :
    job.Name = job'.Name ↔
      block.CompactionLevel = block'.CompactionLevel ∧ block.Shard = block'.Shard ∧
      Sum64 (String.join
          ((job.Blocks.read (plan.addForCompaction growCap Sum64 a block).2.1).map
            fun x => x.Id)) % 2 ^ 64 =
        Sum64 (String.join
          ((job'.Blocks.read (plan'.addForCompaction growCap' Sum64 a' block').2.1).map
            fun x => x.Id)) % 2 ^ 64 := by
  have key : ∀ (g : Nat → Nat → Nat) (a : Arrays) (plan : compactionPlan) (block : BlockMeta)
      (job : compactorv1.CompactionJob), Slice.WF a (plan.queued block.CompactionLevel) →
      (plan.addForCompaction g Sum64 a block).1 = some job →
      job.Name = jobName block.CompactionLevel block.Shard
        (Sum64 (String.join ((job.Blocks.read (plan.addForCompaction g Sum64 a block).2.1).map
          fun x => x.Id)) % 2 ^ 64) := by
    intro g a plan block job hwf hj
    by_cases hL : block.CompactionLevel > globalCompactionStrategy.maxCompactionLevel
    · rw [addForCompaction_skip g Sum64 a plan block hL] at hj
      simp at hj
    · obtain ⟨r, a1, plan1, he, _, _, _, _, _, hyes, hno⟩ :=
        addForCompaction_spec g Sum64 a plan block hL hwf
      rw [he] at hj ⊢
      simp only at hj ⊢
      cases hs : (getStrategyForLevel block.CompactionLevel).shouldCreateJob
          ((plan.queued block.CompactionLevel).read a ++ [block])
      · rw [(hno hs).1] at hj
        simp at hj
      · obtain ⟨job', hr, hn, hb, _⟩ := hyes hs
        rw [hr] at hj
        simp only [Option.some.injEq] at hj
        subst hj
        rw [hn, hb, calculateHash_eq]
  rw [key growCap a plan block job hwf hj, key growCap' a' plan' block' job' hwf' hj']
  constructor
  · exact jobName_inj
  · rintro ⟨h1, h2, h3⟩
    rw [h1, h2, h3]

/-! ## The claims about `rebuild` and the planner at concrete inputs -/

/-- Instance of C15: `rebuild` on the queue `exLoaded`, which is what `putJob` of job
`a` and of job `b` leaves of a new queue, the jobs map being visited in the order
`a`, `b`. -/
theorem rebuild_from_jobs_witness :
    (newJobQueue 10).map (fun q => (q.putJob (exJob "a" 5)).putJob (exJob "b" 1)) =
      some exLoaded ∧
    (∀ p, p ∈ exLoaded.pq → p < exLoaded.mem.length) ∧
    (∀ kv, kv ∈ exLoaded.jobs → kv.2 < exLoaded.mem.length) ∧
    [("a", 0), ("b", 1)].Perm exLoaded.jobs ∧
    ∃ q', exLoaded.rebuild [("a", 0), ("b", 1)] = some q' ∧
      q'.pq.Perm (exLoaded.pq ++ exLoaded.jobs.map Prod.snd) ∧
      (exLoaded.pq = [] → q'.pq.Perm (exLoaded.jobs.map Prod.snd)) ∧
      (∀ k : Nat, 0 < k → k < q'.pq.length →
        q'.pq.Less q'.mem (k : Int) (((k - 1) / 2 : Nat) : Int) = some false) ∧
      q'.jobs = exLoaded.jobs ∧ q'.lease = exLoaded.lease ∧
      q'.mem.length = exLoaded.mem.length ∧
      ∀ p, (entryAt q'.mem p).key = (entryAt exLoaded.mem p).key :=
  ⟨by decide, by decide, by decide, by decide,
    rebuild_from_jobs exLoaded [("a", 0), ("b", 1)] (by decide) (by decide) (by decide)⟩

/-- Instance of C16: ten blocks of 60000 bytes under the level-0 strategy meet both
minima. -/
theorem shouldCreateJob_table_witness :
    ((exTenBlocks.length : Int) ≥ (getStrategyForLevel 0).minBlocks ∧
      getTotalSize exTenBlocks ≥ (getStrategyForLevel 0).minTotalSizeBytes) ∧
    (getStrategyForLevel 0).shouldCreateJob exTenBlocks = true :=
  ⟨by decide, (shouldCreateJob_table (getStrategyForLevel 0) exTenBlocks).1 (by decide)⟩

/-- Instance of C17: ten level-0 blocks of 60000 bytes added to a fresh plan; the
threshold is reached at the tenth call and not before. -/
theorem job_at_first_threshold_witness :
    PlanInv [] compactionPlan.empty ∧
    (compactionPlan.empty.queued 0).read [] = [] ∧
    (∀ b, b ∈ exTenBlocks → b.CompactionLevel = 0) ∧
    9 < exTenBlocks.length ∧
    (∀ j, j < 9 → ¬ level0Threshold (exTenBlocks.take (j + 1))) ∧
    level0Threshold (exTenBlocks.take (9 + 1)) ∧
    (∀ j, j < 9 →
      (compactionPlan.empty.run (fun _ n => n) String.length [] exTenBlocks).1[j]? =
        some none) ∧
    ∃ name, (compactionPlan.empty.run (fun _ n => n) String.length [] exTenBlocks).1[9]? =
      some (some (name, exTenBlocks.take (9 + 1))) :=
  ⟨PlanInv_empty [], rfl, by decide, by decide, by decide, by decide,
    (job_at_first_threshold (fun _ n => n) String.length [] compactionPlan.empty exTenBlocks
      (PlanInv_empty []) rfl (by decide) 9 (by decide) (by decide)).1,
    (job_at_first_threshold (fun _ n => n) String.length [] compactionPlan.empty exTenBlocks
      (PlanInv_empty []) rfl (by decide) 9 (by decide) (by decide)).2.2.1 (by decide)⟩

/-- Instance of C18: a level-1 block added to a fresh plan. -/
theorem addForCompaction_creates_or_queues_witness :
    (exBlock "x" 1 5).CompactionLevel ≤ globalCompactionStrategy.maxCompactionLevel ∧
    Slice.WF [] (compactionPlan.empty.queued (exBlock "x" 1 5).CompactionLevel) ∧
    ∃ r a1 plan1,
      compactionPlan.empty.addForCompaction (fun _ n => n) String.length [] (exBlock "x" 1 5) =
        (r, a1, plan1) ∧
      ((getStrategyForLevel (exBlock "x" 1 5).CompactionLevel).shouldCreateJob
          ((compactionPlan.empty.queued (exBlock "x" 1 5).CompactionLevel).read [] ++
            [exBlock "x" 1 5]) = true →
        ∃ job, r = some job ∧
          job.Blocks.read a1 =
            (compactionPlan.empty.queued (exBlock "x" 1 5).CompactionLevel).read [] ++
              [exBlock "x" 1 5] ∧
          job.Name = "L" ++ toString (exBlock "x" 1 5).CompactionLevel ++ "-S" ++
            toString (exBlock "x" 1 5).Shard ++ "-" ++ toString (calculateHash String.length
              ((compactionPlan.empty.queued (exBlock "x" 1 5).CompactionLevel).read [] ++
                [exBlock "x" 1 5])) ∧
          job.Status = CompactionStatus.COMPACTION_STATUS_UNSPECIFIED ∧
          plan1.jobsByName.lookup job.Name = some job ∧
          (plan1.queued (exBlock "x" 1 5).CompactionLevel).len = 0 ∧
          (plan1.queued (exBlock "x" 1 5).CompactionLevel).read a1 = []) ∧
      ((getStrategyForLevel (exBlock "x" 1 5).CompactionLevel).shouldCreateJob
          ((compactionPlan.empty.queued (exBlock "x" 1 5).CompactionLevel).read [] ++
            [exBlock "x" 1 5]) = false →
        r = none ∧ plan1.jobsByName = compactionPlan.empty.jobsByName ∧
          (plan1.queued (exBlock "x" 1 5).CompactionLevel).read a1 =
            (compactionPlan.empty.queued (exBlock "x" 1 5).CompactionLevel).read [] ++
              [exBlock "x" 1 5]) ∧
      (∀ L', L' ≠ (exBlock "x" 1 5).CompactionLevel →
        plan1.queued L' = compactionPlan.empty.queued L') :=
  ⟨by decide, WF_nil [],
    addForCompaction_creates_or_queues (fun _ n => n) String.length [] compactionPlan.empty
      (exBlock "x" 1 5) (by decide) (WF_nil [])⟩

/-- Instance of C19: the ten blocks `exTenBlocks` replayed against a fresh plan, once
with a runtime that grows slices by one cell and an empty memory, once with a runtime
that doubles them and a memory that already holds an array. -/
theorem job_name_deterministic_witness :
    (compactionPlan.empty.run (fun _ n => n) String.length [] exTenBlocks).1 =
      (compactionPlan.empty.run (fun c _ => 2 * c) String.length [[]] exTenBlocks).1 :=
  (job_name_deterministic (fun _ n => n) (fun c _ => 2 * c) String.length [] [[]]
    exTenBlocks).1

/-- Instance of the amended C20: the level-1 blocks `x` and `y` added to fresh plans,
with the length of the text as the hash. -/
theorem job_name_eq_iff_witness :
    Slice.WF [] (compactionPlan.empty.queued (exBlock "x" 1 5).CompactionLevel) ∧
    Slice.WF [] (compactionPlan.empty.queued (exBlock "y" 1 5).CompactionLevel) ∧
    ∃ job job',
      (compactionPlan.empty.addForCompaction (fun _ n => n) String.length []
        (exBlock "x" 1 5)).1 = some job ∧
      (compactionPlan.empty.addForCompaction (fun _ n => n) String.length []
        (exBlock "y" 1 5)).1 = some job' ∧
      (job.Name = job'.Name ↔
        (exBlock "x" 1 5).CompactionLevel = (exBlock "y" 1 5).CompactionLevel ∧
        (exBlock "x" 1 5).Shard = (exBlock "y" 1 5).Shard ∧
        String.length (String.join
          ((job.Blocks.read (compactionPlan.empty.addForCompaction (fun _ n => n)
            String.length [] (exBlock "x" 1 5)).2.1).map fun x => x.Id)) % 2 ^ 64 =
        String.length (String.join
          ((job'.Blocks.read (compactionPlan.empty.addForCompaction (fun _ n => n)
            String.length [] (exBlock "y" 1 5)).2.1).map fun x => x.Id)) % 2 ^ 64) :=
  ⟨WF_nil [], WF_nil [], _, _, rfl, rfl,
    job_name_eq_iff (fun _ n => n) (fun _ n => n) String.length [] [] compactionPlan.empty
      compactionPlan.empty (exBlock "x" 1 5) (exBlock "y" 1 5) _ _ (WF_nil []) (WF_nil [])
      rfl rfl⟩

/-! ## Lemmas for the claims about levels, shared arrays and heap positions -/

theorem getStrategyForLevel_default {L : Nat} (hL : L ≠ 0) :
    getStrategyForLevel L = globalCompactionStrategy.defaultStrategy := by
  have hb : (L == 0) = false := by simpa using hL
  simp [getStrategyForLevel, globalCompactionStrategy, List.lookup, hb]

theorem default_shouldCreateJob (blocks : List BlockMeta) :
    globalCompactionStrategy.defaultStrategy.shouldCreateJob blocks = true := by
  unfold compactionLevelStrategy.shouldCreateJob
  have h0 : globalCompactionStrategy.defaultStrategy.minTotalSizeBytes = 0 := rfl
  have h1 : globalCompactionStrategy.defaultStrategy.maxTotalSizeBytes = 0 := rfl
  simp only [h0, h1, ge_iff_le, Nat.zero_le, decide_True, Bool.and_true]
  split_ifs <;> rfl

/-- Writing cell 0 of an array changes the first element of what a slice of positive
length over it reads. -/
theorem take_set_zero {α : Type} (l : List α) (n : Nat) (x : α) (hn : 0 < n)
    (hl : 0 < l.length) : (l.set 0 x).take n = x :: (l.take n).tail := by
  cases l with
  | nil => simp at hl
  | cons y l =>
    cases n with
    | zero => omega
    | succ n => simp

/-- At a level other than 0 (and within the maximum), on a pending queue that fits the
arrays, a call creates a job of the pending blocks followed by the block. -/
theorem addForCompaction_default (growCap : Nat → Nat → Nat) (Sum64 : String → Nat)
    (a : Arrays) (plan : compactionPlan) (block : BlockMeta)
    (h1 : block.CompactionLevel ≠ 0)
    (hL : ¬ block.CompactionLevel > globalCompactionStrategy.maxCompactionLevel)
    (hwf : Slice.WF a (plan.queued block.CompactionLevel)) :
    ∃ job a1 plan1, plan.addForCompaction growCap Sum64 a block = (some job, a1, plan1) ∧
      job.Name = jobName block.CompactionLevel block.Shard
        (calculateHash Sum64 ((plan.queued block.CompactionLevel).read a ++ [block])) ∧
      job.Blocks.read a1 = (plan.queued block.CompactionLevel).read a ++ [block] ∧
      plan1.jobsByName.lookup job.Name = some job ∧
      (plan1.queued block.CompactionLevel).len = 0 := by
  obtain ⟨r, a1, plan1, he, _, _, _, _, _, hyes, _⟩ :=
    addForCompaction_spec growCap Sum64 a plan block hL hwf
  have hs : (getStrategyForLevel block.CompactionLevel).shouldCreateJob
      ((plan.queued block.CompactionLevel).read a ++ [block]) = true := by
    rw [getStrategyForLevel_default h1]
    exact default_shouldCreateJob _
  obtain ⟨job, hr, hn, hb, _, hj, _, hlen, _⟩ := hyes hs
  subst hr
  exact ⟨job, a1, plan1, he, hn, hb, hj, hlen⟩

/-- The job a call creates shares its backing array with the emptied pending queue:
the next call at the same level writes its block into cell 0 of that array, which is
the first cell of the block list of the job. -/
theorem addForCompaction_alias (growCap : Nat → Nat → Nat) (Sum64 : String → Nat)
    (a : Arrays) (plan : compactionPlan) (block block2 : BlockMeta)
    (hL : ¬ block.CompactionLevel > globalCompactionStrategy.maxCompactionLevel)
    (hwf : Slice.WF a (plan.queued block.CompactionLevel))
    (hs : (getStrategyForLevel block.CompactionLevel).shouldCreateJob
      ((plan.queued block.CompactionLevel).read a ++ [block]) = true)
    (h2 : block2.CompactionLevel = block.CompactionLevel) :
    ∃ job a1 plan1, plan.addForCompaction growCap Sum64 a block = (some job, a1, plan1) ∧
      job.Blocks.read a1 = (plan.queued block.CompactionLevel).read a ++ [block] ∧
      plan1.jobsByName.lookup job.Name = some job ∧
      job.Blocks.read (plan1.addForCompaction growCap Sum64 a1 block2).2.1 =
        block2 :: ((plan.queued block.CompactionLevel).read a ++ [block]).tail := by
  obtain ⟨hread, hwf1, hlen1, hcap1, _⟩ := Slice.append_spec growCap block hwf
  have hs' := hs
  rw [← hread] at hs'
  have hc := addForCompaction_create growCap Sum64 a plan block hL hs'
  refine ⟨_, _, _, hc, hread, lookup_mapSet_self _ _ _, ?_⟩
  generalize hS : (Slice.append growCap a (plan.queued block.CompactionLevel) block).2 = s
    at hread hwf1 hlen1 hcap1
  generalize hA : (Slice.append growCap a (plan.queued block.CompactionLevel) block).1 = a1
    at hread hwf1
  obtain ⟨harr, hcells⟩ := hwf1.2 hcap1
  have hq : ∀ (jobs : List (String × compactorv1.CompactionJob)) (m : List (Nat × Slice)),
      compactionPlan.queued
        { jobsByName := jobs
          queuedBlocksByLevel := mapSet m block.CompactionLevel { s with len := 0 } }
        block2.CompactionLevel = { s with len := 0 } := by
    intro jobs m
    unfold compactionPlan.queued
    simp only
    rw [h2, lookup_mapSet_self]
    rfl
  have harrays : ∀ (jobs : List (String × compactorv1.CompactionJob))
      (m : List (Nat × Slice)),
      (compactionPlan.addForCompaction growCap Sum64 a1
        { jobsByName := jobs
          queuedBlocksByLevel := mapSet m block.CompactionLevel { s with len := 0 } }
        block2).2.1 = a1.set s.arr ((a1.getD s.arr []).set 0 block2) := by
    intro jobs m
    have hL2 : ¬ block2.CompactionLevel > globalCompactionStrategy.maxCompactionLevel := by
      rw [h2]; exact hL
    have happ : Slice.append growCap a1 { s with len := 0 } block2 =
        (a1.set s.arr ((a1.getD s.arr []).set 0 block2), { s with len := 1 }) := by
      unfold Slice.append
      have : (0 : Nat) < s.cap := Nat.pos_of_ne_zero hcap1
      simp [this]
    unfold compactionPlan.addForCompaction
    rw [if_neg hL2, hq, happ]
    simp only
    split_ifs <;> rfl
  rw [harrays]
  unfold Slice.read at hread ⊢
  have hpos : 0 < s.len := by rw [hlen1]; exact Nat.succ_pos _
  have hcell : 0 < (a1.getD s.arr []).length := by
    rw [hcells]; exact Nat.pos_of_ne_zero hcap1
  rw [getD_set_self a1 _ _ harr, take_set_zero _ _ _ hpos hcell, hread]

/-! ## The claims about the planner's levels and shared block lists, and about heap positions after a bulk load -/

/-- C21, what the code does to the block list of a recorded job. A call of
`addForCompaction` that creates a job (level accepted, decision positive, pending
queue fitting the arrays) returns a job whose block list reads as the pending blocks
followed by the block, and records it in `jobsByName`; the pending queue is emptied
with `[:0]`, which keeps the backing array of the job's block list. So after the next
call at the same level, for a block `block2`, the block list of that job reads with
`block2` in place of its first block: the job has lost its first block, and `block2`
is in the block list of a job it was never part of. -/
theorem job_blocks_overwritten (growCap : Nat → Nat → Nat) (Sum64 : String → Nat)
    (a : Arrays) (plan : compactionPlan) (block block2 : BlockMeta)
    (hL : ¬ block.CompactionLevel > globalCompactionStrategy.maxCompactionLevel)
    (hwf : Slice.WF a (plan.queued block.CompactionLevel))
    (hs : (getStrategyForLevel block.CompactionLevel).shouldCreateJob
      ((plan.queued block.CompactionLevel).read a ++ [block]) = true)
    (h2 : block2.CompactionLevel = block.CompactionLevel) :
    ∃ job a1 plan1, plan.addForCompaction growCap Sum64 a block = (some job, a1, plan1) ∧
      job.Blocks.read a1 = (plan.queued block.CompactionLevel).read a ++ [block] ∧
      plan1.jobsByName.lookup job.Name = some job ∧
      job.Blocks.read (plan1.addForCompaction growCap Sum64 a1 block2).2.1 =
        block2 :: ((plan.queued block.CompactionLevel).read a ++ [block]).tail :=
  addForCompaction_alias growCap Sum64 a plan block block2 hL hwf hs h2

/-- C21, the failing input: on a fresh plan, the distinct level-1 blocks `x` and then
`y`. The first call returns a job of `[x]`. After the second call, whatever the
runtime's growth policy and the hash, the block list of that first job reads `[y]`,
as does the block list of the job the second call returns: `y` is in the block lists
of two jobs and `x` in none. -/
theorem second_job_overwrites_first :
    exBlock "x" 1 5 ≠ exBlock "y" 1 5 ∧
    ∀ (growCap : Nat → Nat → Nat) (Sum64 : String → Nat),
      ∃ job1 a1 plan1 job2 a2 plan2,
        compactionPlan.empty.addForCompaction growCap Sum64 [] (exBlock "x" 1 5) =
          (some job1, a1, plan1) ∧
        job1.Blocks.read a1 = [exBlock "x" 1 5] ∧
        plan1.jobsByName.lookup job1.Name = some job1 ∧
        plan1.addForCompaction growCap Sum64 a1 (exBlock "y" 1 5) = (some job2, a2, plan2) ∧
        job1.Blocks.read a2 = [exBlock "y" 1 5] ∧
        job2.Blocks.read a2 = [exBlock "y" 1 5] := by
  refine ⟨by decide, fun growCap Sum64 => ?_⟩
  have hL : ¬ (exBlock "x" 1 5).CompactionLevel >
      globalCompactionStrategy.maxCompactionLevel := by decide
  have hwf : Slice.WF [] (compactionPlan.empty.queued (exBlock "x" 1 5).CompactionLevel) :=
    WF_nil []
  have hs : (getStrategyForLevel (exBlock "x" 1 5).CompactionLevel).shouldCreateJob
      ((compactionPlan.empty.queued (exBlock "x" 1 5).CompactionLevel).read [] ++
        [exBlock "x" 1 5]) = true := by decide
  obtain ⟨job1, a1, plan1, he, hb, hj, hover⟩ :=
    addForCompaction_alias growCap Sum64 [] compactionPlan.empty (exBlock "x" 1 5)
      (exBlock "y" 1 5) hL hwf hs rfl
  obtain ⟨r, a1', plan1', he', _, hwf1, _, _, _, hyes, _⟩ :=
    addForCompaction_spec growCap Sum64 [] compactionPlan.empty (exBlock "x" 1 5) hL hwf
  obtain ⟨_, _, _, _, _, _, _, _, hempty⟩ := hyes hs
  rw [he] at he'
  simp only [Prod.mk.injEq] at he'
  obtain ⟨-, ha', hp'⟩ := he'
  subst ha' hp'
  obtain ⟨job2, a2, plan2, he2, _, hb2, _, _⟩ :=
    addForCompaction_default growCap Sum64 a1 plan1 (exBlock "y" 1 5) (by decide)
      (by decide) hwf1
  rw [he2] at hover
  refine ⟨job1, a1, plan1, job2, a2, plan2, he, ?_, hj, he2, ?_, ?_⟩
  · rw [hb]; rfl
  · rw [hover]; rfl
  · rw [hb2]
    have : (plan1.queued (exBlock "y" 1 5).CompactionLevel).read a1 = [] := hempty
    rw [this]; rfl

/-- C22, what the code does at the maximum level. The guard of `addForCompaction` is
`block.CompactionLevel > maxCompactionLevel`, so a block whose level equals
`maxCompactionLevel` is accepted: it is appended to the pending queue of its level,
and since that level has no strategy of its own a job is created at once, of the
pending blocks followed by the block. -/
theorem level_at_max_creates_job (growCap : Nat → Nat → Nat) (Sum64 : String → Nat)
    (a : Arrays) (plan : compactionPlan) (block : BlockMeta)
    (hL : block.CompactionLevel = globalCompactionStrategy.maxCompactionLevel)
    (hwf : Slice.WF a (plan.queued block.CompactionLevel)) :
    ∃ job a1 plan1, plan.addForCompaction growCap Sum64 a block = (some job, a1, plan1) ∧
      job.Name = jobName block.CompactionLevel block.Shard
        (calculateHash Sum64 ((plan.queued block.CompactionLevel).read a ++ [block])) ∧
      job.Blocks.read a1 = (plan.queued block.CompactionLevel).read a ++ [block] ∧
      plan1.jobsByName.lookup job.Name = some job ∧
      (plan1.queued block.CompactionLevel).len = 0 :=
  addForCompaction_default growCap Sum64 a plan block
    (by rw [hL]; decide) (by rw [hL]; exact Nat.lt_irrefl _) hwf

/-- C22, the failing input: a block at level 10, the configured maximum, on a fresh
plan. The call returns a job whose block list is that block. -/
theorem block_at_max_level_planned :
    (exBlock "x" 10 5).CompactionLevel ≥ globalCompactionStrategy.maxCompactionLevel ∧
    ∀ (growCap : Nat → Nat → Nat) (Sum64 : String → Nat),
      ∃ job a1 plan1,
        compactionPlan.empty.addForCompaction growCap Sum64 [] (exBlock "x" 10 5) =
          (some job, a1, plan1) ∧
        job.Blocks.read a1 = [exBlock "x" 10 5] ∧
        plan1.jobsByName.lookup job.Name = some job := by
  refine ⟨by decide, fun growCap Sum64 => ?_⟩
  obtain ⟨job, a1, plan1, he, _, hb, hj, _⟩ :=
    addForCompaction_default growCap Sum64 [] compactionPlan.empty (exBlock "x" 10 5)
      (by decide) (by decide) (WF_nil [])
  exact ⟨job, a1, plan1, he, by rw [hb]; rfl, hj⟩

/-- C23. For a block whose level is strictly greater than `maxCompactionLevel`,
`addForCompaction` returns no job and leaves the arrays and the plan as they were: the
pending queue of every level reads as before and `jobsByName` is the same. -/
theorem above_max_level_skipped (growCap : Nat → Nat → Nat) (Sum64 : String → Nat)
    (a : Arrays) (plan : compactionPlan) (block : BlockMeta)
    (hL : block.CompactionLevel > globalCompactionStrategy.maxCompactionLevel) :
    plan.addForCompaction growCap Sum64 a block = (none, a, plan) ∧
    (plan.addForCompaction growCap Sum64 a block).1 = none ∧
    (plan.addForCompaction growCap Sum64 a block).2.2.jobsByName = plan.jobsByName ∧
    ∀ L, (plan.addForCompaction growCap Sum64 a block).2.2.queued L = plan.queued L ∧
      ((plan.addForCompaction growCap Sum64 a block).2.2.queued L).read
        (plan.addForCompaction growCap Sum64 a block).2.1 = (plan.queued L).read a := by
  rw [addForCompaction_skip growCap Sum64 a plan block hL]
  exact ⟨rfl, rfl, rfl, fun _ => ⟨rfl, rfl⟩⟩

/-- C29, the failing input: a new queue, `putJob` of job `a` (level 5) and of job `b`
(level 1), then `rebuild` with the jobs map visited in the order `b`, `a`. `rebuild`
appends the entries without setting `index` (which `Push` does), and `heap.Init` finds
the heap `[b, a]` in order and swaps nothing: the entry of `a` is at position 1 of the
heap with `index` 0. Then `evict("a", 0)` returns true, removes the heap entry at
position 0, which is `b`, and deletes `a` from the jobs map: the heap holds `a`, the
jobs map holds `b`. -/
theorem rebuild_leaves_index_unset :
    (newJobQueue 10).map (fun q => (q.putJob (exJob "a" 5)).putJob (exJob "b" 1)) =
      some exLoaded ∧
    [("b", 1), ("a", 0)].Perm exLoaded.jobs ∧
    exLoaded.rebuild [("b", 1), ("a", 0)] = some exRebuilt ∧
    exRebuilt.heapNames = ["b", "a"] ∧
    (exRebuilt.pq.idx 1).bind (deref exRebuilt.mem) =
      some (jobQueueEntry.load (exJob "a" 5)) ∧
    (jobQueueEntry.load (exJob "a" 5)).index = 0 ∧
    exRebuilt.evict "a" 0 = some (true, exRebuiltEvicted) ∧
    exRebuiltEvicted.heapNames = ["a"] ∧
    exRebuiltEvicted.jobs = [("b", 1)] := by
  decide

/-- C29, where the property holds: on every queue reachable from a new queue by
`enqueue`, `dequeue`, `update` and `evict`, every position of the heap holds the
address of an allocated entry whose `index` field is that position. -/
theorem index_is_heap_position (q : jobQueue) (hq : Reachable q) (k : Nat)
    (hk : k < q.pq.length) :
    ∃ p e, q.pq.idx (k : Int) = some p ∧ deref q.mem p = some e ∧ e.index = (k : Int) := by
  obtain ⟨h1, h2⟩ := hq.inv.valid k hk
  exact ⟨nth q.pq k, entryAt q.mem (nth q.pq k), idx_natCast hk, deref_of_lt h1, h2⟩

/-- C30. Every level other than 0 has the default strategy (`minBlocks` 10, the other
three 0); under it `shouldCreateJob` is true for every block list, the ones of fewer
than 10 blocks included; hence for a block at a level from 1 to 10, on a plan whose
pending queue for that level is empty (and fits the arrays, as the `nil` slice and
every emptied queue do), `addForCompaction` returns a job whose block list is the
block just added, recorded in `jobsByName`, and the pending queue is empty again. -/
theorem default_strategy_always_creates :
    (∀ L, L ≠ 0 → getStrategyForLevel L =
      { minBlocks := 10, maxBlocks := 0, minTotalSizeBytes := 0, maxTotalSizeBytes := 0 }) ∧
    (∀ blocks : List BlockMeta,
      compactionLevelStrategy.shouldCreateJob
        { minBlocks := 10, maxBlocks := 0, minTotalSizeBytes := 0, maxTotalSizeBytes := 0 }
        blocks = true) ∧
    ∀ (growCap : Nat → Nat → Nat) (Sum64 : String → Nat) (a : Arrays) (plan : compactionPlan)
      (block : BlockMeta), 1 ≤ block.CompactionLevel → block.CompactionLevel ≤ 10 →
      Slice.WF a (plan.queued block.CompactionLevel) →
      (plan.queued block.CompactionLevel).len = 0 →
      ∃ job a1 plan1, plan.addForCompaction growCap Sum64 a block = (some job, a1, plan1) ∧
        job.Blocks.read a1 = [block] ∧
        job.Name = jobName block.CompactionLevel block.Shard (calculateHash Sum64 [block]) ∧
        plan1.jobsByName.lookup job.Name = some job ∧
        (plan1.queued block.CompactionLevel).len = 0 := by
  refine ⟨fun L hL => getStrategyForLevel_default hL, default_shouldCreateJob, ?_⟩
  intro growCap Sum64 a plan block h1 h10 hwf hlen
  have hmax : ¬ block.CompactionLevel > globalCompactionStrategy.maxCompactionLevel := by
    have : globalCompactionStrategy.maxCompactionLevel = 10 := rfl
    omega
  obtain ⟨job, a1, plan1, he, hn, hb, hj, hl⟩ :=
    addForCompaction_default growCap Sum64 a plan block (by omega) hmax hwf
  rw [Slice.read_of_len_zero a hlen] at hn hb
  exact ⟨job, a1, plan1, he, hb, hn, hj, hl⟩

/-! ## The claims about levels, shared block lists and heap positions at concrete inputs -/

/-- Instance of C21: on a fresh plan, the level-1 block `x` and then the level-1 block
`y`, with the growth policy that adds no spare capacity and a constant hash. -/
theorem job_blocks_overwritten_witness :
    ∃ job a1 plan1,
      compactionPlan.empty.addForCompaction (fun _ n => n) (fun _ => 0) []
        (exBlock "x" 1 5) = (some job, a1, plan1) ∧
      job.Blocks.read a1 =
        (compactionPlan.empty.queued (exBlock "x" 1 5).CompactionLevel).read [] ++
          [exBlock "x" 1 5] ∧
      plan1.jobsByName.lookup job.Name = some job ∧
      job.Blocks.read
          (plan1.addForCompaction (fun _ n => n) (fun _ => 0) a1 (exBlock "y" 1 5)).2.1 =
        exBlock "y" 1 5 ::
          ((compactionPlan.empty.queued (exBlock "x" 1 5).CompactionLevel).read [] ++
            [exBlock "x" 1 5]).tail :=
  job_blocks_overwritten (fun _ n => n) (fun _ => 0) [] compactionPlan.empty
    (exBlock "x" 1 5) (exBlock "y" 1 5) (by decide) (WF_nil []) (by decide) rfl

/-- Instance of C22: a block at level 10 on a fresh plan. -/
theorem level_at_max_creates_job_witness :
    (exBlock "x" 10 5).CompactionLevel = globalCompactionStrategy.maxCompactionLevel ∧
    ∃ job a1 plan1,
      compactionPlan.empty.addForCompaction (fun _ n => n) (fun _ => 0) []
        (exBlock "x" 10 5) = (some job, a1, plan1) ∧
      job.Name = jobName (exBlock "x" 10 5).CompactionLevel (exBlock "x" 10 5).Shard
        (calculateHash (fun _ => 0)
          ((compactionPlan.empty.queued (exBlock "x" 10 5).CompactionLevel).read [] ++
            [exBlock "x" 10 5])) ∧
      job.Blocks.read a1 =
        (compactionPlan.empty.queued (exBlock "x" 10 5).CompactionLevel).read [] ++
          [exBlock "x" 10 5] ∧
      plan1.jobsByName.lookup job.Name = some job ∧
      (plan1.queued (exBlock "x" 10 5).CompactionLevel).len = 0 :=
  ⟨rfl, level_at_max_creates_job (fun _ n => n) (fun _ => 0) [] compactionPlan.empty
    (exBlock "x" 10 5) rfl (WF_nil [])⟩

/-- Instance of C23: a block at level 11 on a fresh plan. -/
theorem above_max_level_skipped_witness :
    (exBlock "x" 11 5).CompactionLevel > globalCompactionStrategy.maxCompactionLevel ∧
    compactionPlan.empty.addForCompaction (fun _ n => n) (fun _ => 0) [] (exBlock "x" 11 5) =
      (none, [], compactionPlan.empty) :=
  ⟨by decide,
    (above_max_level_skipped (fun _ n => n) (fun _ => 0) [] compactionPlan.empty
      (exBlock "x" 11 5) (by decide)).1⟩

/-- Instance of C29: position 0 of the reachable queue `exQueueA`. -/
theorem index_is_heap_position_witness :
    Reachable exQueueA ∧ 0 < exQueueA.pq.length ∧
    ∃ p e, exQueueA.pq.idx ((0 : Nat) : Int) = some p ∧ deref exQueueA.mem p = some e ∧
      e.index = ((0 : Nat) : Int) :=
  ⟨exQueueA_reachable, by decide,
    index_is_heap_position exQueueA exQueueA_reachable 0 (by decide)⟩

/-- Instance of C30: a block at level 3 on a fresh plan. -/
theorem default_strategy_always_creates_witness :
    1 ≤ (exBlock "x" 3 5).CompactionLevel ∧ (exBlock "x" 3 5).CompactionLevel ≤ 10 ∧
    ∃ job a1 plan1,
      compactionPlan.empty.addForCompaction (fun _ n => n) (fun _ => 0) []
        (exBlock "x" 3 5) = (some job, a1, plan1) ∧
      job.Blocks.read a1 = [exBlock "x" 3 5] ∧
      job.Name = jobName (exBlock "x" 3 5).CompactionLevel (exBlock "x" 3 5).Shard
        (calculateHash (fun _ => 0) [exBlock "x" 3 5]) ∧
      plan1.jobsByName.lookup job.Name = some job ∧
      (plan1.queued (exBlock "x" 3 5).CompactionLevel).len = 0 :=
  ⟨by decide, by decide,
    default_strategy_always_creates.2.2 (fun _ n => n) (fun _ => 0) [] compactionPlan.empty
      (exBlock "x" 3 5) (by decide) (by decide) (WF_nil []) rfl⟩

/-! ## Adding a block and the compaction worker -/

theorem foldl_append_map {α β : Type} (f : α → β) (l : List α) (init : List β) :
    l.foldl (fun acc x => acc ++ [f x]) init = init ++ l.map f := by
  induction l generalizing init with
  | nil => simp
  | cons x xs ih =>
    simp only [List.foldl_cons, List.map_cons]
    rw [ih]
    simp

theorem foldl_mapDelete {α β : Type} (f : β → String) (l : List β) (m : List (String × α)) :
    l.foldl (fun m u => mapDelete m (f u)) m =
      m.filter (fun kv => decide (kv.1 ∉ l.map f)) := by
  induction l generalizing m with
  | nil => simp
  | cons u l ih =>
    simp only [List.foldl_cons, List.map_cons]
    rw [ih]
    unfold mapDelete
    rw [List.filter_filter]
    congr 1
    funext kv
    by_cases h : kv.1 = f u <;> simp [h]

theorem lookup_foldl_mapSet_of_not_mem {α β : Type} (f : β → String) (g : β → α) (l : List β)
    (m : List (String × α)) (name : String) (h : name ∉ l.map f) :
    (l.foldl (fun m j => mapSet m (f j) (g j)) m).lookup name = m.lookup name := by
  induction l generalizing m with
  | nil => rfl
  | cons j l ih =>
    simp only [List.map_cons, List.mem_cons, not_or] at h
    simp only [List.foldl_cons]
    rw [ih _ h.2, lookup_mapSet_ne _ _ h.1]

/-- The request `poll` sends, and when it sends one. -/
theorem poll_sent {ε : Type}
    (rpc : PollCompactionJobsRequest → Except ε PollCompactionJobsResponse)
    (meanwhile : Worker → Worker) (w : Worker) :
    (w.poll rpc meanwhile).2 =
      if w.batch.length > 0 ∨ (w.spare % 2 ^ 32).toNat > 0 then
        some { JobStatusUpdates := w.batch, JobCapacity := (w.spare % 2 ^ 32).toNat }
      else none := by
  unfold Worker.poll Worker.batch Worker.spare
  simp only [foldl_append_map, List.nil_append]
  split_ifs with h
  · cases rpc _ <;> rfl
  · rfl

/-- The worker when `poll` returns. -/
theorem poll_state {ε : Type}
    (rpc : PollCompactionJobsRequest → Except ε PollCompactionJobsResponse)
    (meanwhile : Worker → Worker) (w : Worker) :
    (w.poll rpc meanwhile).1 =
      if w.batch.length > 0 ∨ (w.spare % 2 ^ 32).toNat > 0 then
        match rpc { JobStatusUpdates := w.batch, JobCapacity := (w.spare % 2 ^ 32).toNat } with
        | Except.error _ => meanwhile w
        | Except.ok jobsResponse =>
          { meanwhile w with
            pendingStatusUpdates := (meanwhile w).pendingStatusUpdates.filter
              (fun kv => decide (kv.1 ∉ w.batch.map fun u => u.JobName))
            pendingJobs := jobsResponse.CompactionJobs.foldl
              (fun m pendingJob => mapSet m pendingJob.Name pendingJob)
              (meanwhile w).pendingJobs }
      else w := by
  unfold Worker.poll Worker.batch Worker.spare
  simp only [foldl_append_map, List.nil_append]
  split_ifs with h
  · cases rpc _
    · rfl
    · simp only
      rw [foldl_mapDelete]
  · rfl

/-! ## The claims about adding a block and about the compaction worker -/

/-- What `applyAddBlock` returns and the in-memory state it leaves, by the step that
fails, for arbitrary functions in place of the calls that are not part of the sources
at hand: on an error the state is the one it was called on, or the one `tryCreateJob`
left if that was reached. -/
theorem applyAddBlock_cases {ε σ Job : Type} (c : addBlockCalls ε σ Job) (m : σ)
    (block : BlockMeta) :
    (∀ err, c.MarshalVT block = some err →
      applyAddBlock c m block = (Except.error err, m)) ∧
    (∀ err, c.MarshalVT block = none → c.putBlockMeta block = some err →
      applyAddBlock c m block = (Except.error err, m)) ∧
    (∀ job err, c.MarshalVT block = none → c.putBlockMeta block = none →
      (c.tryCreateJob m block).1 = some job → c.putCompactionJob block job = some err →
      applyAddBlock c m block = (Except.error err, (c.tryCreateJob m block).2)) ∧
    (∀ err, c.MarshalVT block = none → c.putBlockMeta block = none →
      (∀ job, (c.tryCreateJob m block).1 = some job → c.putCompactionJob block job = none) →
      c.commit block = some err →
      applyAddBlock c m block = (Except.error err, (c.tryCreateJob m block).2)) ∧
    (∀ job, c.MarshalVT block = none → c.putBlockMeta block = none →
      (c.tryCreateJob m block).1 = some job → c.putCompactionJob block job = none →
      c.commit block = none →
      applyAddBlock c m block =
        (Except.ok (),
          c.addCompactionJob (c.putSegment (c.tryCreateJob m block).2 block) job)) ∧
    (c.MarshalVT block = none → c.putBlockMeta block = none →
      (c.tryCreateJob m block).1 = none → c.commit block = none →
      applyAddBlock c m block =
        (Except.ok (),
          c.addBlockToCompactionJobQueue (c.putSegment (c.tryCreateJob m block).2 block)
            block)) ∧
    (∀ err, (applyAddBlock c m block).1 = Except.error err →
      (applyAddBlock c m block).2 = m ∨
        (applyAddBlock c m block).2 = (c.tryCreateJob m block).2) ∧
    ((c.tryCreateJob m block).2 = m →
      ∀ err, (applyAddBlock c m block).1 = Except.error err →
        (applyAddBlock c m block).2 = m) := by
  have key : ∀ err, (applyAddBlock c m block).1 = Except.error err →
      (applyAddBlock c m block).2 = m ∨
        (applyAddBlock c m block).2 = (c.tryCreateJob m block).2 := by
    intro err he
    rcases h1 : c.MarshalVT block with _ | e
    · rcases h2 : c.putBlockMeta block with _ | e
      · rcases hj : c.tryCreateJob m block with ⟨_ | job, m1⟩
        · rcases hcm : c.commit block with _ | e
          · simp [applyAddBlock, applyAddBlock.update, h1, h2, hj, hcm] at he
          · right
            simp [applyAddBlock, applyAddBlock.update, h1, h2, hj, hcm]
        · rcases hp : c.putCompactionJob block job with _ | e
          · rcases hcm : c.commit block with _ | e
            · simp [applyAddBlock, applyAddBlock.update, h1, h2, hj, hp, hcm] at he
            · right
              simp [applyAddBlock, applyAddBlock.update, h1, h2, hj, hp, hcm]
          · right
            simp [applyAddBlock, applyAddBlock.update, h1, h2, hj, hp]
      · left
        simp [applyAddBlock, applyAddBlock.update, h1, h2]
    · left
      simp [applyAddBlock, h1]
  refine ⟨?_, ?_, ?_, ?_, ?_, ?_, key, ?_⟩
  · intro err h
    unfold applyAddBlock
    rw [h]
  · intro err h1 h2
    unfold applyAddBlock applyAddBlock.update
    rw [h1, h2]
  · intro job err h1 h2 h3 h4
    unfold applyAddBlock applyAddBlock.update
    rw [h1, h2]
    rcases hj : c.tryCreateJob m block with ⟨r, m1⟩
    rw [hj] at h3
    simp only at h3
    subst h3
    simp only [h4]
  · intro err h1 h2 h3 h4
    unfold applyAddBlock applyAddBlock.update
    rw [h1, h2]
    rcases hj : c.tryCreateJob m block with ⟨_ | job, m1⟩
    · simp only [h4]
    · have := h3 job (by rw [hj])
      simp only [this, h4]
  · intro job h1 h2 h3 h4 h5
    unfold applyAddBlock applyAddBlock.update
    rw [h1, h2]
    rcases hj : c.tryCreateJob m block with ⟨r, m1⟩
    rw [hj] at h3
    simp only at h3
    subst h3
    simp only [h4, h5]
  · intro h1 h2 h3 h4
    unfold applyAddBlock applyAddBlock.update
    rw [h1, h2]
    rcases hj : c.tryCreateJob m block with ⟨r, m1⟩
    rw [hj] at h3
    simp only at h3
    subst h3
    simp only [h4]
  · intro hread err he
    rcases key err he with h | h
    · exact h
    · rw [h, hread]

/-- C24. With `tryCreateJob` reading the in-memory state only (`tryCreateJobReads`):
whenever `applyAddBlock` returns an error, be it from marshalling the block, from the
write of the block metadata, from the write of the job record or from the commit of
the transaction, it returns the error of that step and leaves the in-memory state as
it was: none of `putSegment`, `addCompactionJob` and `addBlockToCompactionJobQueue` has
been called. When no step fails it returns the response, having put the block into the
segment index and then added the job to the job queue, or else the block to the
pending-block queue. -/
theorem applyAddBlock_error_keeps_state {ε σ Job : Type} (c : addBlockCalls ε σ Job)
    (hspec : c.tryCreateJobReads) (m : σ) (block : BlockMeta) :
    (∀ err, (applyAddBlock c m block).1 = Except.error err →
      (applyAddBlock c m block).2 = m) ∧
    (∀ err, c.MarshalVT block = some err →
      applyAddBlock c m block = (Except.error err, m)) ∧
    (∀ err, c.MarshalVT block = none → c.putBlockMeta block = some err →
      applyAddBlock c m block = (Except.error err, m)) ∧
    (∀ job err, c.MarshalVT block = none → c.putBlockMeta block = none →
      (c.tryCreateJob m block).1 = some job → c.putCompactionJob block job = some err →
      applyAddBlock c m block = (Except.error err, m)) ∧
    (∀ err, c.MarshalVT block = none → c.putBlockMeta block = none →
      (∀ job, (c.tryCreateJob m block).1 = some job → c.putCompactionJob block job = none) →
      c.commit block = some err →
      applyAddBlock c m block = (Except.error err, m)) ∧
    (∀ job, c.MarshalVT block = none → c.putBlockMeta block = none →
      (c.tryCreateJob m block).1 = some job → c.putCompactionJob block job = none →
      c.commit block = none →
      applyAddBlock c m block =
        (Except.ok (), c.addCompactionJob (c.putSegment m block) job)) ∧
    (c.MarshalVT block = none → c.putBlockMeta block = none →
      (c.tryCreateJob m block).1 = none → c.commit block = none →
      applyAddBlock c m block =
        (Except.ok (), c.addBlockToCompactionJobQueue (c.putSegment m block) block)) := by
  obtain ⟨h1, h2, h3, h4, h5, h6, _, h8⟩ := applyAddBlock_cases c m block
  have hr := hspec m block
  rw [hr] at h3 h4 h5 h6
  exact ⟨h8 hr, h1, h2, h3, h4, h5, h6⟩

/-- C25, the input on which the capacity sent exceeds the configured one: a worker
with `JobCapacity` 3, two active and two pending jobs. The difference is -1, and the
request carries 4294967295, whatever the control plane answers. -/
theorem jobCapacity_wraps_below_zero :
    (exWorker 3 ["a", "b"] ["c", "d"]).spare = -1 ∧
    ∀ (rpc : PollCompactionJobsRequest → Except String PollCompactionJobsResponse)
      (meanwhile : Worker → Worker),
      ∃ request, ((exWorker 3 ["a", "b"] ["c", "d"]).poll rpc meanwhile).2 = some request ∧
        request.JobCapacity = 4294967295 ∧
        (request.JobCapacity : Int) > (exWorker 3 ["a", "b"] ["c", "d"]).config.JobCapacity := by
  refine ⟨by decide, fun rpc meanwhile => ?_⟩
  rw [poll_sent]
  exact ⟨_, if_pos (Or.inl (by decide)), by decide, by decide⟩

/-- C25, with the precondition under which it holds. For a worker whose active and
pending jobs together do not exceed `JobCapacity`, and `JobCapacity` below `2 ^ 32`:
`poll` sends a request exactly when there is a staged update, an active job or spare
capacity, and the `JobCapacity` of the request equals
`JobCapacity - len(activeJobs) - len(pendingJobs)` and does not exceed the configured
`JobCapacity`, whatever other goroutines do while the request is under way. -/
theorem jobCapacity_is_spare_capacity {ε : Type}
    (rpc : PollCompactionJobsRequest → Except ε PollCompactionJobsResponse)
    (meanwhile : Worker → Worker) (w : Worker)
    (h1 : (w.activeJobs.length : Int) + (w.pendingJobs.length : Int) ≤ w.config.JobCapacity)
    (h2 : w.config.JobCapacity < 2 ^ 32) :
    ((w.poll rpc meanwhile).2.isSome = true ↔
      (w.pendingStatusUpdates ≠ [] ∨ w.activeJobs ≠ [] ∨
        (w.activeJobs.length : Int) + (w.pendingJobs.length : Int) < w.config.JobCapacity)) ∧
    ∀ request, (w.poll rpc meanwhile).2 = some request →
      (request.JobCapacity : Int) =
        w.config.JobCapacity - (w.activeJobs.length : Int) - (w.pendingJobs.length : Int) ∧
      (request.JobCapacity : Int) ≤ w.config.JobCapacity := by
  have hs0 : 0 ≤ w.spare := by unfold Worker.spare; omega
  have hs1 : w.spare < 2 ^ 32 := by unfold Worker.spare; omega
  have hmod : w.spare % 2 ^ 32 = w.spare := Int.emod_eq_of_lt hs0 hs1
  have hcap : (((w.spare % 2 ^ 32).toNat : Nat) : Int) = w.spare := by
    rw [hmod]; exact Int.toNat_of_nonneg hs0
  have hlen : w.batch.length = w.pendingStatusUpdates.length + w.activeJobs.length := by
    unfold Worker.batch; simp
  rw [poll_sent]
  constructor
  · have hp : (w.spare % 2 ^ 32).toNat > 0 ↔
        (w.activeJobs.length : Int) + (w.pendingJobs.length : Int) < w.config.JobCapacity := by
      have : w.spare = w.config.JobCapacity - (w.activeJobs.length : Int) -
          (w.pendingJobs.length : Int) := rfl
      omega
    have hb : w.batch.length > 0 ↔ (w.pendingStatusUpdates ≠ [] ∨ w.activeJobs ≠ []) := by
      rw [hlen]
      rw [← List.length_pos, ← List.length_pos]
      omega
    split_ifs with h
    · simp only [Option.isSome_some, true_iff]
      rcases h with h | h
      · rcases hb.1 h with h | h
        · exact Or.inl h
        · exact Or.inr (Or.inl h)
      · exact Or.inr (Or.inr (hp.1 h))
    · simp only [Option.isSome_none, Bool.false_eq_true, false_iff]
      intro hh
      apply h
      rcases hh with hh | hh | hh
      · exact Or.inl (hb.2 (Or.inl hh))
      · exact Or.inl (hb.2 (Or.inr hh))
      · exact Or.inr (hp.2 hh)
  · intro request hreq
    split_ifs at hreq with h
    simp only [Option.some.injEq] at hreq
    subst hreq
    simp only
    rw [hcap]
    unfold Worker.spare
    constructor
    · rfl
    · omega

/-- C26, the input on which an update that was sent is not removed: a worker with the
update `exUnnamedStatus`, whose `JobName` is empty, staged under the name `a`, and no
goroutine running meanwhile. The poll succeeds, the request carries the update, and
the worker is as before: the update is still staged. -/
theorem sent_update_not_removed :
    exStaleWorker.poll exPollOk id =
      (exStaleWorker, some { JobStatusUpdates := [exUnnamedStatus], JobCapacity := 3 }) ∧
    exStaleWorker.pendingStatusUpdates.lookup "a" = some exUnnamedStatus := by
  decide

/-- A status staged while the request is under way, by a job that was active when the
batch was built, is deleted by the poll that reported the job in progress: the worker
`exBusyWorker` sends the in-progress update of `b`, job `b` finishes meanwhile and
stages its Success status, and when `poll` returns nothing is staged. -/
theorem poll_drops_status_staged_meanwhile :
    (exBusyWorker.poll exPollOk exJobFinishes).2 =
      some { JobStatusUpdates :=
               [{ JobName := "b", Status := CompactionStatus.COMPACTION_STATUS_IN_PROGRESS,
                  CompletedJob := none }]
             JobCapacity := 2 } ∧
    (exJobFinishes exBusyWorker).pendingStatusUpdates = [("b", exDoneStatus)] ∧
    (exBusyWorker.poll exPollOk exJobFinishes).1.pendingStatusUpdates = [] := by
  decide

/-- C26, with the preconditions under which it holds; `meanwhile w` is the worker as
the other goroutines have left it when `poll` takes the lock again. When no request is
sent, or the poll returns an error, `poll` writes nothing: the worker is `w`,
respectively `meanwhile w`. When the poll succeeds the request carried the updates
staged in `w` and an in-progress update per job active in `w`; `poll` does not write
the active jobs; it removes the entries staged under the `JobName` of an update of the
request; so when every update was staged under its own `JobName` and no update staged
meanwhile is under the `JobName` of an update of the request, exactly the staged
updates that were sent are removed and those staged meanwhile are kept (none is left
if nothing was staged meanwhile); and every job of the response is in `pendingJobs`
under its name (the last one of a name, if the response repeats it), names that the
response does not mention being as in `meanwhile w`. -/
theorem poll_error_or_acknowledged {ε : Type}
    (rpc : PollCompactionJobsRequest → Except ε PollCompactionJobsResponse)
    (meanwhile : Worker → Worker) (w : Worker) :
    ((w.poll rpc meanwhile).2 = none → (w.poll rpc meanwhile).1 = w) ∧
    (∀ request err, (w.poll rpc meanwhile).2 = some request →
      rpc request = Except.error err → (w.poll rpc meanwhile).1 = meanwhile w) ∧
    ∀ request response, (w.poll rpc meanwhile).2 = some request →
      rpc request = Except.ok response →
      request.JobStatusUpdates = w.batch ∧
      (w.poll rpc meanwhile).1.activeJobs = (meanwhile w).activeJobs ∧
      (w.poll rpc meanwhile).1.config = (meanwhile w).config ∧
      (w.poll rpc meanwhile).1.pendingStatusUpdates =
        (meanwhile w).pendingStatusUpdates.filter
          (fun kv => decide (kv.1 ∉ request.JobStatusUpdates.map fun u => u.JobName)) ∧
      ((∀ kv, kv ∈ w.pendingStatusUpdates → kv.2.JobName = kv.1) →
        (∀ kv, kv ∈ (meanwhile w).pendingStatusUpdates →
          kv ∈ w.pendingStatusUpdates ∨
            kv.1 ∉ request.JobStatusUpdates.map fun u => u.JobName) →
        (w.poll rpc meanwhile).1.pendingStatusUpdates =
          (meanwhile w).pendingStatusUpdates.filter
            (fun kv => decide (kv ∉ w.pendingStatusUpdates)) ∧
        ((meanwhile w).pendingStatusUpdates = w.pendingStatusUpdates →
          (w.poll rpc meanwhile).1.pendingStatusUpdates = [])) ∧
      (∀ name, name ∉ response.CompactionJobs.map (fun job => job.Name) →
        (w.poll rpc meanwhile).1.pendingJobs.lookup name =
          (meanwhile w).pendingJobs.lookup name) ∧
      (∀ before job after, response.CompactionJobs = before ++ job :: after →
        job.Name ∉ after.map (fun job => job.Name) →
        (w.poll rpc meanwhile).1.pendingJobs.lookup job.Name = some job) := by
  have hsent := poll_sent rpc meanwhile w
  have hstate := poll_state rpc meanwhile w
  refine ⟨?_, ?_, ?_⟩
  · intro hnone
    rw [hsent] at hnone
    rw [hstate]
    split_ifs at hnone ⊢ with h
    rfl
  · intro request err hreq herr
    rw [hsent] at hreq
    rw [hstate]
    split_ifs at hreq ⊢ with h
    simp only [Option.some.injEq] at hreq
    rw [hreq, herr]
  · intro request response hreq hok
    rw [hsent] at hreq
    rw [hstate]
    split_ifs at hreq ⊢ with h
    simp only [Option.some.injEq] at hreq
    rw [hreq, hok]
    subst hreq
    have hfilter : ∀ (P : String × CompactionJobStatus → Bool),
        (∀ kv, kv ∈ (meanwhile w).pendingStatusUpdates →
          decide (kv.1 ∉ w.batch.map fun u => u.JobName) = P kv) →
        (meanwhile w).pendingStatusUpdates.filter
            (fun kv => decide (kv.1 ∉ w.batch.map fun u => u.JobName)) =
          (meanwhile w).pendingStatusUpdates.filter P := fun P hP =>
      List.filter_congr hP
    refine ⟨rfl, rfl, rfl, rfl, ?_, ?_, ?_⟩
    · intro hkeys hrace
      have hsentkey : ∀ kv, kv ∈ w.pendingStatusUpdates →
          kv.1 ∈ w.batch.map fun u => u.JobName := by
        intro kv hkv
        unfold Worker.batch
        rw [List.map_append, List.mem_append]
        left
        rw [List.map_map]
        exact List.mem_map.2 ⟨kv, hkv, hkeys kv hkv⟩
      have hmain : (meanwhile w).pendingStatusUpdates.filter
            (fun kv => decide (kv.1 ∉ w.batch.map fun u => u.JobName)) =
          (meanwhile w).pendingStatusUpdates.filter
            (fun kv => decide (kv ∉ w.pendingStatusUpdates)) := by
        apply hfilter
        intro kv hkv
        by_cases hin : kv ∈ w.pendingStatusUpdates
        · simp [hin, hsentkey kv hin]
        · rcases hrace kv hkv with h1 | h1
          · exact absurd h1 hin
          · simp [hin, h1]
      refine ⟨hmain, fun hsame => ?_⟩
      show List.filter _ (meanwhile w).pendingStatusUpdates = []
      rw [hmain, hsame, List.filter_eq_nil_iff]
      intro kv hkv
      simp [hkv]
    · intro name hname
      show List.lookup name (List.foldl _ (meanwhile w).pendingJobs response.CompactionJobs) = _
      exact lookup_foldl_mapSet_of_not_mem (fun job : PolledJob => job.Name) (fun job => job)
        _ _ name hname
    · intro before job after hresp hlast
      show List.lookup job.Name
        (List.foldl _ (meanwhile w).pendingJobs response.CompactionJobs) = _
      rw [hresp, List.foldl_append, List.foldl_cons]
      rw [lookup_foldl_mapSet_of_not_mem (fun job : PolledJob => job.Name) (fun job => job)
        _ _ job.Name hlast]
      exact lookup_mapSet_self _ _ _

/-- C27. `startJob` returns the status record of the job with status Success and the
compacted blocks as `CompletedJob.Blocks` when `Compact` returns no error, with status
Unspecified when the error is a cancellation, and with status Failure for every other
error; the `JobName` of the record is kept. The goroutine of the job then removes the
job from `activeJobs` and stages the status under the name of the job exactly when it
is not Unspecified: otherwise `pendingStatusUpdates` is left as it was. -/
theorem startJob_status_by_outcome {ε : Type}
    (Compact : List BlockMeta → Except ε (List BlockMeta)) (isCanceled : ε → Bool)
    (w : Worker) (job : PolledJob) :
    (∀ compacted, Compact job.Blocks = Except.ok compacted →
      Worker.startJob Compact isCanceled job =
        { job.Status with
          Status := CompactionStatus.COMPACTION_STATUS_SUCCESS
          CompletedJob := some { Blocks := compacted } }) ∧
    (∀ err, Compact job.Blocks = Except.error err → isCanceled err = true →
      Worker.startJob Compact isCanceled job =
        { job.Status with Status := CompactionStatus.COMPACTION_STATUS_UNSPECIFIED }) ∧
    (∀ err, Compact job.Blocks = Except.error err → isCanceled err = false →
      Worker.startJob Compact isCanceled job =
        { job.Status with Status := CompactionStatus.COMPACTION_STATUS_FAILURE }) ∧
    (Worker.startJob Compact isCanceled job).JobName = job.Status.JobName ∧
    (∀ status : CompactionJobStatus,
      (w.runningJobEnd job status).activeJobs = mapDelete w.activeJobs job.Name ∧
      (w.runningJobEnd job status).pendingJobs = w.pendingJobs ∧
      (status.Status ≠ CompactionStatus.COMPACTION_STATUS_UNSPECIFIED →
        (w.runningJobEnd job status).pendingStatusUpdates =
          mapSet w.pendingStatusUpdates job.Name status ∧
        (w.runningJobEnd job status).pendingStatusUpdates.lookup job.Name = some status) ∧
      (status.Status = CompactionStatus.COMPACTION_STATUS_UNSPECIFIED →
        (w.runningJobEnd job status).pendingStatusUpdates = w.pendingStatusUpdates)) ∧
    ((Worker.startJob Compact isCanceled job).Status ≠
        CompactionStatus.COMPACTION_STATUS_UNSPECIFIED →
      (w.runningJob Compact isCanceled job).pendingStatusUpdates =
        mapSet w.pendingStatusUpdates job.Name (Worker.startJob Compact isCanceled job)) ∧
    ((Worker.startJob Compact isCanceled job).Status =
        CompactionStatus.COMPACTION_STATUS_UNSPECIFIED →
      (w.runningJob Compact isCanceled job).pendingStatusUpdates =
        w.pendingStatusUpdates) := by
  have hend : ∀ (w : Worker) (status : CompactionJobStatus),
      (w.runningJobEnd job status).activeJobs = mapDelete w.activeJobs job.Name ∧
      (w.runningJobEnd job status).pendingJobs = w.pendingJobs ∧
      (status.Status ≠ CompactionStatus.COMPACTION_STATUS_UNSPECIFIED →
        (w.runningJobEnd job status).pendingStatusUpdates =
          mapSet w.pendingStatusUpdates job.Name status ∧
        (w.runningJobEnd job status).pendingStatusUpdates.lookup job.Name = some status) ∧
      (status.Status = CompactionStatus.COMPACTION_STATUS_UNSPECIFIED →
        (w.runningJobEnd job status).pendingStatusUpdates = w.pendingStatusUpdates) := by
    intro w status
    unfold Worker.runningJobEnd
    dsimp only
    by_cases hs : status.Status = CompactionStatus.COMPACTION_STATUS_UNSPECIFIED
    · rw [if_neg (not_not.2 hs)]
      exact ⟨rfl, rfl, fun h => absurd hs h, fun _ => rfl⟩
    · rw [if_pos hs]
      exact ⟨rfl, rfl, fun _ => ⟨rfl, lookup_mapSet_self _ _ _⟩, fun h => absurd h hs⟩
  refine ⟨?_, ?_, ?_, ?_, hend w, ?_, ?_⟩
  · intro compacted h
    unfold Worker.startJob
    rw [h]
  · intro err h hc
    unfold Worker.startJob
    rw [h]
    simp [hc]
  · intro err h hc
    unfold Worker.startJob
    rw [h]
    simp [hc]
  · unfold Worker.startJob
    cases Compact job.Blocks with
    | ok compacted => rfl
    | error err => simp only; split_ifs <;> rfl
  · intro hne
    exact ((hend (w.runningJobBegin job) _).2.2.1 hne).1
  · intro he
    exact (hend (w.runningJobBegin job) _).2.2.2 he

/-! ## Merging profile iterators -/

theorem yields_succ {P : Type} [Profile P] (n : Nat) (i : MergeIterator P) :
    i.yields (n + 1) =
      if i.Next.1 then i.Next.2.At :: MergeIterator.yields n i.Next.2 else [] := rfl

theorem nextLoop_spec {P : Type} [Profile P] (deduplicate : Bool) :
    ∀ (tree : List P) (current : P),
      ((MergeIterator.nextLoop deduplicate tree current).1 = true →
        (MergeIterator.nextLoop deduplicate tree current).2.2 ∈ tree ∧
        (MergeIterator.nextLoop deduplicate tree current).2.1.length < tree.length ∧
        ((MergeIterator.nextLoop deduplicate tree current).2.2 ::
          (MergeIterator.nextLoop deduplicate tree current).2.1).Sublist tree ∧
        (deduplicate = true →
          ¬ sameSample current (MergeIterator.nextLoop deduplicate tree current).2.2)) ∧
      ((MergeIterator.nextLoop deduplicate tree current).1 = false →
        (MergeIterator.nextLoop deduplicate tree current).2.1 = [] ∧
        (MergeIterator.nextLoop deduplicate tree current).2.2 = current)
  | [], current => ⟨fun h => by simp [MergeIterator.nextLoop] at h, fun _ => ⟨rfl, rfl⟩⟩
  | next :: tree, current => by
    unfold MergeIterator.nextLoop
    cases deduplicate with
    | false =>
      simp only [Bool.not_false, if_true]
      exact ⟨fun _ => ⟨List.mem_cons_self _ _, Nat.lt_succ_self _, List.Sublist.refl _,
        fun h => by cases h⟩, fun h => by cases h⟩
    | true =>
      simp only [Bool.not_true, Bool.false_eq_true, if_false]
      split_ifs with hd
      · refine ⟨fun _ => ⟨List.mem_cons_self _ _, Nat.lt_succ_self _, List.Sublist.refl _,
          fun _ hs => ?_⟩, fun h => by cases h⟩
        rcases hd with hd | hd
        · exact hd hs.1.symm
        · exact hd hs.2.symm
      · have ih := nextLoop_spec true tree current
        refine ⟨fun h => ?_, fun h => ih.2 h⟩
        obtain ⟨h1, h2, h3, h4⟩ := ih.1 h
        exact ⟨List.mem_cons_of_mem _ h1, Nat.lt_succ_of_lt h2, h3.cons _, fun _ => h4 rfl⟩

/-- With `deduplicate` set, no element a merge iterator yields has the fingerprint and
the timestamp of the element before it, nor the first one those of `current`; and
the elements come from the tree, in its order. -/
theorem yields_spec {P : Type} [Profile P] :
    ∀ (n : Nat) (i : MergeIterator P),
      (i.yields n).Sublist i.tree ∧
      (i.deduplicate = true → List.Chain (fun p q => ¬ sameSample p q) i.current (i.yields n))
  | 0, i => ⟨List.nil_sublist _, fun _ => List.Chain.nil⟩
  | n + 1, i => by
    unfold MergeIterator.yields
    have hs := nextLoop_spec i.deduplicate i.tree i.current
    have ih := yields_spec n i.Next.2
    cases hn : i.Next.1 with
    | false => exact ⟨List.nil_sublist _, fun _ => List.Chain.nil⟩
    | true =>
      simp only [if_true]
      obtain ⟨_, _, hsub, hd⟩ := hs.1 hn
      refine ⟨?_, fun hdd => ?_⟩
      · exact (List.Sublist.cons₂ _ ih.1).trans hsub
      · exact List.Chain.cons (hd hdd) (ih.2 hdd)

/-- Once the tree is used up the iterator yields nothing more. -/
theorem yields_stable {P : Type} [Profile P] :
    ∀ (n : Nat) (i : MergeIterator P), i.tree.length ≤ n → i.yields (n + 1) = i.yields n
  | 0, i, h => by
    have ht : i.tree = [] := List.length_eq_zero.1 (Nat.le_zero.1 h)
    unfold MergeIterator.yields
    have : i.Next.1 = false := by
      unfold MergeIterator.Next
      rw [ht]
      rfl
    simp [this, MergeIterator.yields]
  | n + 1, i, h => by
    rw [yields_succ (n + 1) i, yields_succ n i]
    cases hn : i.Next.1 with
    | false => rfl
    | true =>
      simp only [if_true]
      have hlt := ((nextLoop_spec i.deduplicate i.tree i.current).1 hn).2.1
      have hle : i.Next.2.tree.length ≤ n := by
        have : i.Next.2.tree.length < i.tree.length := hlt
        omega
      rw [yields_stable n i.Next.2 hle]

/-! ## The claim about merging profile iterators -/

/-- C28, the failing input: `NewMergeIterator` with `deduplicate` set and the single
input iterator that yields the profile (fingerprint 1, timestamp 1) twice. The input
is sorted; the iterator returned is the input itself, whatever the tree and `max`, and
it yields the profile twice in a row. -/
theorem single_iterator_keeps_duplicates :
    sortedProfiles [exProfile.mk 1 1, exProfile.mk 1 1] ∧
    ¬ distinctNeighbours [exProfile.mk 1 1, exProfile.mk 1 1] ∧
    ∀ (loserNew : List (List exProfile) → exProfile → List exProfile) (max : exProfile),
      NewMergeIterator loserNew max true [[exProfile.mk 1 1, exProfile.mk 1 1]] =
        Iterator.given [exProfile.mk 1 1, exProfile.mk 1 1] ∧
      (NewMergeIterator loserNew max true [[exProfile.mk 1 1, exProfile.mk 1 1]]).yields 2 =
        [exProfile.mk 1 1, exProfile.mk 1 1] :=
  ⟨List.chain'_pair.2 (by decide), fun h => List.chain'_pair.1 h ⟨rfl, rfl⟩,
    fun _ _ => ⟨rfl, rfl⟩⟩

/-- C28, where the property holds. For no input iterator or at least two, whatever the
order in which the tree hands out the elements of the inputs (so also for inputs that
are not sorted) and whatever `max`, the iterator `NewMergeIterator` returns with
`deduplicate` set never yields two consecutive profiles with the same fingerprint and
the same timestamp; what it yields is taken from what the tree hands out, in that
order, and it ends after at most that many elements. -/
theorem merge_yields_distinct_neighbours {P : Type} [Profile P]
    (loserNew : List (List P) → P → List P) (max : P) (iters : List (List P))
    (hlen : iters.length ≠ 1) (n : Nat) :
    distinctNeighbours ((NewMergeIterator loserNew max true iters).yields n) ∧
    ((NewMergeIterator loserNew max true iters).yields n).Sublist (loserNew iters max) ∧
    ((loserNew iters max).length ≤ n →
      (NewMergeIterator loserNew max true iters).yields (n + 1) =
        (NewMergeIterator loserNew max true iters).yields n) := by
  match iters, hlen with
  | [], _ =>
    exact ⟨List.chain'_nil, List.nil_sublist _, fun _ => rfl⟩
  | [it], h => exact absurd rfl h
  | it1 :: it2 :: rest, _ =>
    have hy := yields_spec n
      ({ deduplicate := true, current := max, tree := loserNew (it1 :: it2 :: rest) max } :
        MergeIterator P)
    refine ⟨?_, hy.1, fun hle => ?_⟩
    · have hc : List.Chain' (fun p q : P => ¬ sameSample p q)
          (max :: MergeIterator.yields n
            { deduplicate := true, current := max
              tree := loserNew (it1 :: it2 :: rest) max }) := hy.2 rfl
      exact hc.tail
    · exact yields_stable n _ hle

/-! ## The claims about adding a block, the worker and the merge iterator at concrete inputs -/

/-- Instance of C24: the write of the job record fails with `disk full`; the state,
which records the in-memory calls made, is still empty. With the same calls and no
failure, the block is put into the segment index and the job added to the queue. -/
theorem applyAddBlock_error_keeps_state_witness :
    (exCalls true).tryCreateJobReads ∧
    (exCalls true).MarshalVT (exBlock "x" 0 5) = none ∧
    (exCalls true).putBlockMeta (exBlock "x" 0 5) = none ∧
    ((exCalls true).tryCreateJob [] (exBlock "x" 0 5)).1 = some "job" ∧
    (exCalls true).putCompactionJob (exBlock "x" 0 5) "job" = some "disk full" ∧
    ((exCalls true).tryCreateJob [] (exBlock "x" 0 5)).2 = [] ∧
    applyAddBlock (exCalls true) [] (exBlock "x" 0 5) = (Except.error "disk full", []) ∧
    applyAddBlock (exCalls false) [] (exBlock "x" 0 5) =
      (Except.ok (), ["putSegment x", "addCompactionJob job"]) :=
  ⟨fun _ _ => rfl, rfl, rfl, rfl, rfl, rfl,
    (applyAddBlock_error_keeps_state (exCalls true) (fun _ _ => rfl) []
      (exBlock "x" 0 5)).2.2.2.1 "job" "disk full" rfl rfl rfl rfl,
    by rfl⟩

/-- Instance of C25: with `JobCapacity` 3, two active jobs and one pending job give the
capacity 0, one active and one pending job give 1. -/
theorem jobCapacity_is_spare_capacity_witness :
    (((exWorker 3 ["a", "b"] ["c"]).activeJobs.length : Int) +
        ((exWorker 3 ["a", "b"] ["c"]).pendingJobs.length : Int) ≤
      (exWorker 3 ["a", "b"] ["c"]).config.JobCapacity) ∧
    (exWorker 3 ["a", "b"] ["c"]).config.JobCapacity < 2 ^ 32 ∧
    (((exWorker 3 ["a", "b"] ["c"]).poll exPollOk id).2.map fun r => r.JobCapacity) = some 0 ∧
    (((exWorker 3 ["a"] ["c"]).poll exPollOk id).2.map fun r => r.JobCapacity) = some 1 ∧
    ∀ request, ((exWorker 3 ["a", "b"] ["c"]).poll exPollOk id).2 = some request →
      (request.JobCapacity : Int) =
        (exWorker 3 ["a", "b"] ["c"]).config.JobCapacity -
          ((exWorker 3 ["a", "b"] ["c"]).activeJobs.length : Int) -
          ((exWorker 3 ["a", "b"] ["c"]).pendingJobs.length : Int) ∧
      (request.JobCapacity : Int) ≤ (exWorker 3 ["a", "b"] ["c"]).config.JobCapacity :=
  ⟨by decide, by decide, by decide, by decide,
    (jobCapacity_is_spare_capacity exPollOk id (exWorker 3 ["a", "b"] ["c"])
      (by decide) (by decide)).2⟩

/-- Instance of C26: the worker `exNamedWorker`, with no goroutine running meanwhile.
A failing poll leaves it as it was; a poll that succeeds and hands out job `c` leaves
no staged update and has `c` pending. -/
theorem poll_error_or_acknowledged_witness :
    (exNamedWorker.poll exPollFails id).2 = some exNamedRequest ∧
    (exNamedWorker.poll exPollFails id).1 = exNamedWorker ∧
    (exNamedWorker.poll exPollJob id).2 = some exNamedRequest ∧
    (∀ kv, kv ∈ exNamedWorker.pendingStatusUpdates → kv.2.JobName = kv.1) ∧
    (exNamedWorker.poll exPollJob id).1.pendingStatusUpdates = [] ∧
    (exNamedWorker.poll exPollJob id).1.pendingJobs.lookup "c" = some (exPolledJob "c") ∧
    (exNamedWorker.poll exPollJob id).1.activeJobs = [("b", exPolledJob "b")] :=
  ⟨by decide,
    (poll_error_or_acknowledged exPollFails id exNamedWorker).2.1 exNamedRequest
      "unavailable" (by decide) rfl,
    by decide, by decide,
    (((poll_error_or_acknowledged exPollJob id exNamedWorker).2.2 exNamedRequest
      { CompactionJobs := [exPolledJob "c"] } (by decide) rfl).2.2.2.2.1 (by decide)
      (fun _ h => Or.inl h)).2 rfl,
    by decide, by decide⟩

/-- Instance of C27: the job `a` of a worker that has it active, with a compact
operation that succeeds, one that is cancelled and one that fails. -/
theorem startJob_status_by_outcome_witness :
    Worker.startJob (exCompact none) exIsCanceled (exPolledJob "a") =
      { JobName := "a", Status := CompactionStatus.COMPACTION_STATUS_SUCCESS,
        CompletedJob := some { Blocks := [exBlock "out" 1 10] } } ∧
    Worker.startJob (exCompact (some "context canceled")) exIsCanceled (exPolledJob "a") =
      { JobName := "a", Status := CompactionStatus.COMPACTION_STATUS_UNSPECIFIED,
        CompletedJob := none } ∧
    Worker.startJob (exCompact (some "no space")) exIsCanceled (exPolledJob "a") =
      { JobName := "a", Status := CompactionStatus.COMPACTION_STATUS_FAILURE,
        CompletedJob := none } ∧
    ((exWorker 3 [] ["a"]).runningJob (exCompact (some "no space")) exIsCanceled
        (exPolledJob "a")).pendingStatusUpdates =
      [("a", { JobName := "a", Status := CompactionStatus.COMPACTION_STATUS_FAILURE,
               CompletedJob := none })] ∧
    ((exWorker 3 [] ["a"]).runningJob (exCompact (some "context canceled")) exIsCanceled
        (exPolledJob "a")).pendingStatusUpdates = [] :=
  ⟨(startJob_status_by_outcome (exCompact none) exIsCanceled (exWorker 3 [] ["a"])
      (exPolledJob "a")).1 [exBlock "out" 1 10] rfl,
    by decide, by decide, by decide, by decide⟩

/-- Instance of C28: two input iterators, with a tree that hands out the first input
and then the second; of the elements (1, 1), (1, 1), (1, 1), (2, 5) the iterator
yields (1, 1) and (2, 5). -/
theorem merge_yields_distinct_neighbours_witness :
    [[exProfile.mk 1 1, exProfile.mk 1 1], [exProfile.mk 1 1, exProfile.mk 2 5]].length ≠ 1 ∧
    (NewMergeIterator exLoser (exProfile.mk 9 9) true
      [[exProfile.mk 1 1, exProfile.mk 1 1], [exProfile.mk 1 1, exProfile.mk 2 5]]).yields 4 =
      [exProfile.mk 1 1, exProfile.mk 2 5] ∧
    distinctNeighbours
      ((NewMergeIterator exLoser (exProfile.mk 9 9) true
        [[exProfile.mk 1 1, exProfile.mk 1 1], [exProfile.mk 1 1, exProfile.mk 2 5]]).yields
        4) :=
  ⟨by decide, by decide,
    (merge_yields_distinct_neighbours exLoser (exProfile.mk 9 9)
      [[exProfile.mk 1 1, exProfile.mk 1 1], [exProfile.mk 1 1, exProfile.mk 2 5]]
      (by decide) 4).1⟩

end Metastore
